import Mathlib

/-!
Verification of the ODPC-RAG content-acquisition core.

This file gives a shallow embedding of the parts of the repository that the
checked properties are about:

* `rag_crawler/rag_crawler/url_utils.py` (normalize_url, is_valid_url,
  url_to_filename, URLQueue),
* `rag_crawler/rag_crawler/change_detector.py` (compute_hash,
  extract_hash_from_file),
* `rag_crawler/rag_crawler/storage.py` (PageMetadata.to_yaml,
  MarkdownStorage.save),
* `rag_crawler/rag_crawler/link_extractor.py` (LinkExtractor._categorize_link),
* `rag_crawler/rag_crawler/crawler.py` (WebCrawler._create_session retry
  policy, WebCrawler._process_url / crawl error handling),
* `crawler/crawler.py` (Crawler._fetch_page, Crawler.save_state),
* `crawler/utils.py` (is_valid_url).

Python strings are modelled as lists of Unicode code points (`PyStr`), and the
needed parts of the Python standard library (`urllib.parse`, `hashlib`,
UTF-8 coding, `str` methods) are modelled over that representation.  File
systems are modelled as maps from paths to optional file contents, and
fallible code returns `Except`.
-/

set_option maxHeartbeats 1000000

namespace ODPC

/-- A Python `str`: a sequence of Unicode code points. -/
abbrev PyStr := List Nat

/-- Turn a Lean string literal into a `PyStr`. -/
def pstr (s : String) : PyStr := s.data.map Char.toNat

/-- ASCII lower-casing of one code point (model of `str.lower` restricted to
ASCII, which covers every character the crawler manipulates). -/
def lowerChar (c : Nat) : Nat := if 65 ≤ c ∧ c ≤ 90 then c + 32 else c

/-- Model of `str.lower` (ASCII). -/
def pyLower (s : PyStr) : PyStr := s.map lowerChar

/-- Does the string contain the given code point (`c in s`)? -/
def hasChar (s : PyStr) (c : Nat) : Bool := s.contains c

/-- Model of `str.replace(a, b)` for single characters. -/
def replaceChar (s : PyStr) (a b : Nat) : PyStr :=
  s.map (fun c => if c = a then b else c)

/-- Model of `str.split(sep)` for a single-character separator.
`Python: "".split(c) == [""]`. -/
def pySplitChar (c : Nat) : PyStr → List PyStr
  | [] => [[]]
  | x :: xs =>
    match pySplitChar c xs with
    | [] => [[]]
    | h :: t => if x = c then [] :: h :: t else (x :: h) :: t

/-- Model of `str.split(sep, 1)`: split at the first occurrence, returning
`none` when the separator is absent. -/
def splitFirst (c : Nat) : PyStr → Option (PyStr × PyStr)
  | [] => none
  | x :: xs =>
    if x = c then some ([], xs)
    else (splitFirst c xs).map (fun p => (x :: p.1, p.2))

/-- Index of the first occurrence of a code point at or after `start`
(model of `str.find(c, start)`), `none` when absent. -/
def findCharFrom (s : PyStr) (c : Nat) (start : Nat) : Option Nat :=
  match (s.drop start).findIdx? (· = c) with
  | none => none
  | some i => some (start + i)

/-- Index of the first occurrence of a code point (model of `str.find(c)`). -/
def findChar (s : PyStr) (c : Nat) : Option Nat := s.findIdx? (· = c)

/-- Index of the last occurrence of a code point (model of `str.rfind(c)`),
`none` when absent. -/
def rfindChar (s : PyStr) (c : Nat) : Option Nat :=
  match (s.reverse).findIdx? (· = c) with
  | none => none
  | some i => some (s.length - 1 - i)

/-- Model of `str.endswith(t)`. -/
def endsWithP (s t : PyStr) : Bool := List.isSuffixOf t s

/-- Model of `str.startswith(t)`. -/
def startsWithP (s t : PyStr) : Bool := List.isPrefixOf t s

/-- Model of `t in s` for strings: contiguous substring test. -/
def containsSub (needle : PyStr) : PyStr → Bool
  | [] => List.isPrefixOf needle ([] : PyStr)
  | x :: xs => List.isPrefixOf needle (x :: xs) || containsSub needle xs

/-- Strip all trailing occurrences of a code point
(model of `str.rstrip(c)`). -/
def rstripChar (s : PyStr) (c : Nat) : PyStr :=
  (s.reverse.dropWhile (· = c)).reverse

/-- Strip occurrences of a code point from both ends
(model of `str.strip(c)`). -/
def stripChar (s : PyStr) (c : Nat) : PyStr :=
  rstripChar (s.dropWhile (· = c)) c

/-- Collapse every maximal run of the code point `c` to a single `c`
(model of `re.sub(c+, c, s)`). -/
def collapseRuns (c : Nat) : PyStr → PyStr
  | [] => []
  | [x] => [x]
  | x :: y :: xs =>
    if x = c ∧ y = c then collapseRuns c (y :: xs)
    else x :: collapseRuns c (y :: xs)

/-- Join a list of strings with a separator string
(model of `sep.join(parts)`). -/
def pyJoin (sep : PyStr) (parts : List PyStr) : PyStr :=
  List.intercalate sep parts

/-! ## Model of `urllib.parse`

`urlsplit` / `urlparse` / `urlunparse` / `parse_qs` / `urlencode` /
`quote_plus` / `unquote`, as used by `url_utils.normalize_url` and the two
`is_valid_url` functions.  The model follows CPython's `urllib/parse.py`:
tab, CR and LF are removed up front; a scheme is recognised before the first
`:` when it starts with an ASCII letter and uses only scheme characters; the
network location follows `//` up to the first `/`, `?` or `#` and raises
`ValueError` on unbalanced square brackets; the fragment is split at the
first `#` and the query at the first `?`; `urlparse` additionally splits the
`;params` of the last path segment. -/

def isAsciiAlphaC (c : Nat) : Bool := (65 ≤ c ∧ c ≤ 90) ∨ (97 ≤ c ∧ c ≤ 122)

def isAsciiDigitC (c : Nat) : Bool := 48 ≤ c ∧ c ≤ 57

def isAsciiAlnumC (c : Nat) : Bool := isAsciiAlphaC c || isAsciiDigitC c

/-- Characters allowed in a URL scheme (`scheme_chars`). -/
def isSchemeChar (c : Nat) : Bool :=
  isAsciiAlnumC c || c = 43 || c = 45 || c = 46

/-- Result of `urllib.parse.urlsplit`. -/
structure SplitResult where
  scheme : PyStr
  netloc : PyStr
  path : PyStr
  query : PyStr
  fragment : PyStr
deriving DecidableEq

/-- Result of `urllib.parse.urlparse`. -/
structure ParseResult where
  scheme : PyStr
  netloc : PyStr
  path : PyStr
  params : PyStr
  query : PyStr
  fragment : PyStr
deriving DecidableEq

/-- `_splitnetloc`: cut the string at the first `/`, `?` or `#`. -/
def splitNetloc (s : PyStr) : PyStr × PyStr :=
  match s.findIdx? (fun c => c = 47 ∨ c = 63 ∨ c = 35) with
  | none => (s, [])
  | some i => (s.take i, s.drop i)

/-- Scheme recognition of `urlsplit`: if the first `:` is preceded by a valid
scheme, return the lower-cased scheme and the rest. -/
def splitScheme (u : PyStr) : PyStr × PyStr :=
  match findChar u 58 with
  | none => ([], u)
  | some i =>
    if 0 < i ∧ (u.head?.elim false isAsciiAlphaC) = true
       ∧ (u.take i).all isSchemeChar = true
    then (pyLower (u.take i), u.drop (i + 1))
    else ([], u)

/-- Model of `urllib.parse.urlsplit` (raises on unbalanced brackets in the
netloc; the `_check_bracketed_host` and NFKC netloc checks of newer CPython
are not modelled). -/
def pyUrlsplit (url : PyStr) : Except Unit SplitResult := do
  -- _UNSAFE_URL_BYTES_TO_REMOVE = ["\t", "\r", "\n"]
  let u := url.filter (fun c => ¬ (c = 9 ∨ c = 13 ∨ c = 10))
  let (scheme, rest) := splitScheme u
  let (netloc, rest) :=
    if startsWithP rest (pstr "//") then splitNetloc (rest.drop 2)
    else ([], rest)
  if (hasChar netloc 91 ∧ ¬ hasChar netloc 93)
     ∨ (hasChar netloc 93 ∧ ¬ hasChar netloc 91) then
    throw ()
  let (rest, fragment) :=
    match splitFirst 35 rest with
    | some (a, b) => (a, b)
    | none => (rest, [])
  let (path, query) :=
    match splitFirst 63 rest with
    | some (a, b) => (a, b)
    | none => (rest, [])
  return ⟨scheme, netloc, path, query, fragment⟩

/-- `_splitparams`: split `;params` off the last path segment. -/
def splitParams (p : PyStr) : PyStr × PyStr :=
  let i :=
    if hasChar p 47 then
      match rfindChar p 47 with
      | some j => findCharFrom p 59 j
      | none => findChar p 59
    else findChar p 59
  match i with
  | none => (p, [])
  | some i => (p.take i, p.drop (i + 1))

/-- Model of `urllib.parse.urlparse`. -/
def pyUrlparse (url : PyStr) : Except Unit ParseResult := do
  let s ← pyUrlsplit url
  let (path, params) := splitParams s.path
  return ⟨s.scheme, s.netloc, path, params, s.query, s.fragment⟩

/-- Model of `urllib.parse.urlunsplit`. -/
def pyUrlunsplit (scheme netloc path query fragment : PyStr) : PyStr :=
  let url :=
    if netloc ≠ [] ∨ (path ≠ [] ∧ startsWithP path (pstr "//")) then
      let p := if path ≠ [] ∧ ¬ startsWithP path (pstr "/") then 47 :: path else path
      pstr "//" ++ netloc ++ p
    else path
  let url := if scheme ≠ [] then scheme ++ 58 :: url else url
  let url := if query ≠ [] then url ++ 63 :: query else url
  if fragment ≠ [] then url ++ 35 :: fragment else url

/-- Model of `urllib.parse.urlunparse`. -/
def pyUrlunparse (pr : ParseResult) : PyStr :=
  let u := if pr.params ≠ [] then pr.path ++ 59 :: pr.params else pr.path
  pyUrlunsplit pr.scheme pr.netloc u pr.query pr.fragment

/-! ## UTF-8 and percent-coding

`quote_plus` / `unquote` work on the UTF-8 encoding of the text, so we model
the codec.  A Unicode scalar value is a code point below `0x110000` that is
not a surrogate; `str.encode("utf-8")` (and hence `normalize_url`) raises on
lone surrogates, which is reflected in the hypotheses of the theorems. -/

/-- A valid Unicode scalar value (encodable to UTF-8). -/
def ValidScalar (c : Nat) : Prop := c < 0x110000 ∧ ¬ (0xD800 ≤ c ∧ c ≤ 0xDFFF)

instance (c : Nat) : Decidable (ValidScalar c) := by
  unfold ValidScalar; infer_instance

/-- Every code point of the string is a scalar value
(i.e. the Python string can be UTF-8 encoded). -/
def ValidPyStr (s : PyStr) : Prop := ∀ c ∈ s, ValidScalar c

instance (s : PyStr) : Decidable (ValidPyStr s) := by
  unfold ValidPyStr; infer_instance

/-- UTF-8 encoding of one scalar value. -/
def utf8EncodeChar (c : Nat) : List Nat :=
  if c < 0x80 then [c]
  else if c < 0x800 then [0xC0 + c / 64, 0x80 + c % 64]
  else if c < 0x10000 then [0xE0 + c / 4096, 0x80 + c / 64 % 64, 0x80 + c % 64]
  else [0xF0 + c / 262144, 0x80 + c / 4096 % 64, 0x80 + c / 64 % 64, 0x80 + c % 64]

/-- UTF-8 encoding of a string (`str.encode("utf-8")`). -/
def utf8Encode (s : PyStr) : List Nat := s.flatMap utf8EncodeChar

/-- Is the byte a UTF-8 continuation byte? -/
def isContByte (b : Nat) : Bool := 0x80 ≤ b ∧ b ≤ 0xBF

/-- The U+FFFD replacement character. -/
def replChar : Nat := 0xFFFD

/-- One step of UTF-8 decoding: given the lead byte and the following bytes,
return the decoded code point (or the replacement character) and the number
of continuation bytes consumed. -/
def utf8Step (b : Nat) (bs : List Nat) : Nat × Nat :=
  if b < 0x80 then (b, 0)
  else if 0xC2 ≤ b ∧ b ≤ 0xDF then
    match bs with
    | b2 :: _ =>
      if isContByte b2 then ((b - 0xC0) * 64 + (b2 - 0x80), 1) else (replChar, 0)
    | [] => (replChar, 0)
  else if 0xE0 ≤ b ∧ b ≤ 0xEF then
    match bs with
    | b2 :: b3 :: _ =>
      if (isContByte b2 ∧ isContByte b3)
         ∧ (b = 0xE0 → 0xA0 ≤ b2) ∧ (b = 0xED → b2 ≤ 0x9F) then
        ((b - 0xE0) * 4096 + (b2 - 0x80) * 64 + (b3 - 0x80), 2)
      else (replChar, 0)
    | _ => (replChar, 0)
  else if 0xF0 ≤ b ∧ b ≤ 0xF4 then
    match bs with
    | b2 :: b3 :: b4 :: _ =>
      if (isContByte b2 ∧ isContByte b3 ∧ isContByte b4)
         ∧ (b = 0xF0 → 0x90 ≤ b2) ∧ (b = 0xF4 → b2 ≤ 0x8F) then
        ((b - 0xF0) * 262144 + (b2 - 0x80) * 4096 + (b3 - 0x80) * 64 + (b4 - 0x80), 3)
      else (replChar, 0)
    | _ => (replChar, 0)
  else (replChar, 0)

/-- UTF-8 decoding with replacement on error
(model of `bytes.decode("utf-8", errors="replace")`; the exact number of
replacement characters emitted for malformed input is irrelevant here, only
that valid encodings decode exactly). -/
def utf8Decode : List Nat → PyStr
  | [] => []
  | b :: bs => (utf8Step b bs).1 :: utf8Decode (bs.drop (utf8Step b bs).2)
termination_by l => l.length
decreasing_by simp [List.length_drop]; omega

/-- Bytes never percent-encoded by `quote` (`_ALWAYS_SAFE`). -/
def alwaysSafeByte (b : Nat) : Bool :=
  isAsciiAlnumC b || b = 95 || b = 46 || b = 45 || b = 126

/-- Upper-case hex digit of a value below 16. -/
def hexUpper (n : Nat) : Nat := if n < 10 then 48 + n else 55 + n

/-- Model of `urllib.parse.quote_plus(s, safe="")`: UTF-8 encode; keep safe
bytes, turn spaces into `+`, percent-encode the rest upper-case. -/
def quotePlus (s : PyStr) : PyStr :=
  (utf8Encode s).flatMap (fun b =>
    if alwaysSafeByte b then [b]
    else if b = 32 then [43]
    else [37, hexUpper (b / 16), hexUpper (b % 16)])

/-- Is the code point an ASCII hex digit? -/
def isHexDigitC (c : Nat) : Bool :=
  isAsciiDigitC c || (65 ≤ c ∧ c ≤ 70) || (97 ≤ c ∧ c ≤ 102)

/-- Numeric value of an ASCII hex digit. -/
def hexVal (c : Nat) : Nat :=
  if isAsciiDigitC c then c - 48
  else if 65 ≤ c ∧ c ≤ 70 then c - 55
  else c - 87

/-- `unquote_to_bytes` on an ASCII run: replace every `%XX` (valid hex) by
the byte `XX`, pass other characters through as their byte values. -/
def unquoteToBytes : PyStr → List Nat
  | [] => []
  | 37 :: h1 :: h2 :: rest =>
    if isHexDigitC h1 ∧ isHexDigitC h2 then
      (hexVal h1 * 16 + hexVal h2) :: unquoteToBytes rest
    else 37 :: unquoteToBytes (h1 :: h2 :: rest)
  | c :: rest => c :: unquoteToBytes rest

/-- Model of `urllib.parse.unquote(s, errors="replace")`: maximal ASCII runs
are percent-decoded to bytes and UTF-8 decoded; non-ASCII characters pass
through unchanged. -/
def pyUnquote : PyStr → PyStr
  | [] => []
  | c :: t =>
    if h : c < 0x80 then
      utf8Decode (unquoteToBytes ((c :: t).takeWhile (fun x => decide (x < 0x80))))
        ++ pyUnquote ((c :: t).dropWhile (fun x => decide (x < 0x80)))
    else c :: pyUnquote t
termination_by s => s.length
decreasing_by
  · rw [List.dropWhile_cons, if_pos (by simpa using h)]
    exact Nat.lt_succ_of_le (List.dropWhile_sublist _).length_le
  · simp

/-- Model of `urllib.parse.unquote_plus`. -/
def unquotePlus (s : PyStr) : PyStr :=
  pyUnquote (replaceChar s 43 32)

/-! ## `parse_qs` and `urlencode`

`parse_qs(query, keep_blank_values=True)` returns a dict from decoded key to
the list of decoded values in order of appearance, keys ordered by first
appearance.  `normalize_url` turns singleton value lists back into plain
strings before sorting; since `urlencode(..., doseq=True)` emits the same
output for a one-element list as for the plain string, and since the sort
never compares values (dict keys are distinct), the dict is modelled directly
as an association list from key to value list. -/

/-- One field of a query string: split at the first `=`; a field without `=`
gets a blank value (`keep_blank_values=True`). -/
def qslField (piece : PyStr) : PyStr × PyStr :=
  match splitFirst 61 piece with
  | some (n, v) => (n, v)
  | none => (piece, [])

/-- Model of `urllib.parse.parse_qsl(q, keep_blank_values=True)`. -/
def parseQsl (q : PyStr) : List (PyStr × PyStr) :=
  (pySplitChar 38 q).filterMap (fun piece =>
    if piece = [] then none
    else
      let nv := qslField piece
      some (unquotePlus nv.1, unquotePlus nv.2))

/-- Add one (key, value) pair to the grouped association list, appending to
an existing key's list or appending a new key at the end. -/
def addPair : List (PyStr × List PyStr) → PyStr × PyStr → List (PyStr × List PyStr)
  | [], (k, v) => [(k, [v])]
  | (k0, vs) :: rest, (k, v) =>
    if k0 = k then (k0, vs ++ [v]) :: rest
    else (k0, vs) :: addPair rest (k, v)

/-- Model of `urllib.parse.parse_qs(q, keep_blank_values=True)` as an ordered
association list. -/
def parseQs (q : PyStr) : List (PyStr × List PyStr) :=
  (parseQsl q).foldl addPair []

/-- Lexicographic (code-point) order on Python strings, as a Bool
(model of `str.__le__`). -/
def pyStrLe : PyStr → PyStr → Bool
  | [], _ => true
  | _ :: _, [] => false
  | a :: as, b :: bs => if a < b then true else if a = b then pyStrLe as bs else false

/-- Insert into a key-sorted association list (used to model `sorted` on the
items of the `parse_qs` dict; keys are distinct so values never compare). -/
def insertByKey (p : PyStr × List PyStr) :
    List (PyStr × List PyStr) → List (PyStr × List PyStr)
  | [] => [p]
  | q :: rest =>
    if pyStrLe p.1 q.1 then p :: q :: rest else q :: insertByKey p rest

/-- Model of `sorted` on the items of the `parse_qs` dict. -/
def sortByKey (l : List (PyStr × List PyStr)) : List (PyStr × List PyStr) :=
  l.foldr insertByKey []

/-- Model of `urllib.parse.urlencode(items, doseq=True)` on the grouped
items: each value yields one `key=value` field, fields joined with `&`. -/
def urlencodeItems (items : List (PyStr × List PyStr)) : PyStr :=
  pyJoin [38] (items.flatMap (fun p =>
    p.2.map (fun v => quotePlus p.1 ++ 61 :: quotePlus v)))

/-! ## `rag_crawler.url_utils` -/

/-- The default-port removal of `normalize_url` (lines 42–45 of
`url_utils.py`), on the already lower-cased scheme and netloc. -/
def dropDefaultPort (scheme netloc : PyStr) : PyStr :=
  if endsWithP netloc (pstr ":80") ∧ scheme = pstr "http" then
    netloc.take (netloc.length - 3)
  else if endsWithP netloc (pstr ":443") ∧ scheme = pstr "https" then
    netloc.take (netloc.length - 4)
  else netloc

/-- The path normalization of `normalize_url` (lines 48–52 of
`url_utils.py`): strip trailing slashes but keep the root. -/
def normPath (path : PyStr) : PyStr :=
  let path := if path ≠ pstr "/" ∧ endsWithP path (pstr "/") then rstripChar path 47 else path
  if path = [] then pstr "/" else path

/-- The query normalization of `normalize_url` (lines 55–61 of
`url_utils.py`): parse, sort, re-encode. -/
def normalizeQuery (q : PyStr) : PyStr :=
  urlencodeItems (sortByKey (parseQs q))

/-- `normalize_url` from `rag_crawler/rag_crawler/url_utils.py`.  Exceptions
raised by `urlparse` propagate (`Except.error`). -/
def normalize_url (url : PyStr) : Except Unit PyStr := do
  let parsed ← pyUrlparse url
  -- Lowercase scheme and host; remove default ports
  let scheme := pyLower parsed.scheme
  let netloc := dropDefaultPort scheme (pyLower parsed.netloc)
  -- Normalize path (remove trailing slash, but keep root)
  let path := normPath parsed.path
  -- Sort query parameters
  let sortedQuery := normalizeQuery parsed.query
  -- Reconstruct URL without fragment
  return pyUrlunparse ⟨scheme, netloc, path, parsed.params, sortedQuery, []⟩

/-- `is_valid_url` from `rag_crawler/rag_crawler/url_utils.py`. -/
def rag_is_valid_url (url : PyStr) : Bool :=
  match pyUrlparse url with
  | Except.ok parsed =>
    (parsed.scheme = pstr "http" ∨ parsed.scheme = pstr "https") ∧ parsed.netloc ≠ []
  | Except.error _ => false

/-- `get_domain` from `rag_crawler/rag_crawler/url_utils.py`
(total: the crawler only calls it on URLs that already parsed). -/
def get_domain (url : PyStr) : PyStr :=
  match pyUrlparse url with
  | Except.ok parsed => pyLower parsed.netloc
  | Except.error _ => []

/-! ## Hash functions (`hashlib.sha256`, `hashlib.md5`)

Genuine implementations over byte lists, with 32-bit words as `Nat` reduced
`% 2^32`. -/

/-- Reduce to a 32-bit word. -/
def w32 (x : Nat) : Nat := x % 4294967296

/-- Rotate a 32-bit word right by `n` (for `x < 2^32`, `n ≤ 32`). -/
def rotr32 (x n : Nat) : Nat := w32 (x / 2 ^ n + x % 2 ^ n * 2 ^ (32 - n))

/-- Rotate a 32-bit word left by `n`. -/
def rotl32 (x n : Nat) : Nat := rotr32 x (32 - n)

/-- Split a byte list into chunks of size `m + 1`. -/
def chunksSucc (m : Nat) : List Nat → List (List Nat)
  | [] => []
  | x :: xs => ((x :: xs).take (m + 1)) :: chunksSucc m ((x :: xs).drop (m + 1))
termination_by l => l.length
decreasing_by simp [List.drop_drop]; omega

/-- Big-endian word from bytes. -/
def beWord (bytes : List Nat) : Nat := bytes.foldl (fun a b => a * 256 + b) 0

/-- Little-endian 32-bit word from 4 bytes. -/
def leWord (bytes : List Nat) : Nat := bytes.foldr (fun b a => a * 256 + b) 0

/-- 8-byte big-endian encoding. -/
def be64 (n : Nat) : List Nat :=
  [n / 2 ^ 56 % 256, n / 2 ^ 48 % 256, n / 2 ^ 40 % 256, n / 2 ^ 32 % 256,
   n / 2 ^ 24 % 256, n / 2 ^ 16 % 256, n / 2 ^ 8 % 256, n % 256]

/-- 8-byte little-endian encoding. -/
def le64 (n : Nat) : List Nat := (be64 n).reverse

/-- Merkle–Damgård padding: `0x80`, zeros to 56 mod 64, then the bit length. -/
def mdPad (lenBytes : List Nat) (msg : List Nat) : List Nat :=
  msg ++ 128 :: List.replicate ((120 - (msg.length + 1) % 64) % 64) 0 ++ lenBytes

/-- The SHA-256 round constants. -/
def sha256K : List Nat :=
  [1116352408, 1899447441, 3049323471, 3921009573, 961987163, 1508970993, 2453635748, 2870763221,
   3624381080, 310598401, 607225278, 1426881987, 1925078388, 2162078206, 2614888103, 3248222580,
   3835390401, 4022224774, 264347078, 604807628, 770255983, 1249150122, 1555081692, 1996064986,
   2554220882, 2821834349, 2952996808, 3210313671, 3336571891, 3584528711, 113926993, 338241895,
   666307205, 773529912, 1294757372, 1396182291, 1695183700, 1986661051, 2177026350, 2456956037,
   2730485921, 2820302411, 3259730800, 3345764771, 3516065817, 3600352804, 4094571909, 275423344,
   430227734, 506948616, 659060556, 883997877, 958139571, 1322822218, 1537002063, 1747873779,
   1955562222, 2024104815, 2227730452, 2361852424, 2428436474, 2756734187, 3204031479, 3329325298]

/-- The SHA-256 initial state. -/
def sha256Init : List Nat :=
  [1779033703, 3144134277, 1013904242, 2773480762, 1359893119, 2600822924, 528734635, 1541459225]

/-- Extend the 16 message words to the 64-word schedule. -/
def sha256Extend (w : List Nat) : List Nat :=
  (List.range 48).foldl (fun w _ =>
    let n := w.length
    let x15 := w.getD (n - 15) 0
    let x2 := w.getD (n - 2) 0
    let s0 := rotr32 x15 7 ^^^ rotr32 x15 18 ^^^ x15 / 2 ^ 3
    let s1 := rotr32 x2 17 ^^^ rotr32 x2 19 ^^^ x2 / 2 ^ 10
    w ++ [w32 (w.getD (n - 16) 0 + s0 + w.getD (n - 7) 0 + s1)]) w

/-- One SHA-256 round on the 8-word state. -/
def sha256Round (st : List Nat) (kw : Nat) : List Nat :=
  match st with
  | [a, b, c, d, e, f, g, h] =>
    let s1 := rotr32 e 6 ^^^ rotr32 e 11 ^^^ rotr32 e 25
    let ch := (e &&& f) ^^^ ((4294967295 - e) &&& g)
    let t1 := w32 (h + s1 + ch + kw)
    let s0 := rotr32 a 2 ^^^ rotr32 a 13 ^^^ rotr32 a 22
    let mj := (a &&& b) ^^^ (a &&& c) ^^^ (b &&& c)
    let t2 := w32 (s0 + mj)
    [w32 (t1 + t2), a, b, c, w32 (d + t1), e, f, g]
  | st => st

/-- SHA-256 compression of one 64-byte chunk. -/
def sha256Compress (h : List Nat) (chunk : List Nat) : List Nat :=
  let w := sha256Extend ((chunksSucc 3 chunk).map beWord)
  let kws := List.zipWith (fun k wi => w32 (k + wi)) sha256K w
  let st := kws.foldl sha256Round h
  List.zipWith (fun a b => w32 (a + b)) h st

/-- SHA-256 digest bytes of a message. -/
def sha256Bytes (msg : List Nat) : List Nat :=
  let h := (chunksSucc 63 (mdPad (be64 (8 * msg.length)) msg)).foldl sha256Compress sha256Init
  h.flatMap (fun x => [x / 2 ^ 24 % 256, x / 2 ^ 16 % 256, x / 2 ^ 8 % 256, x % 256])

/-- Lower-case hex digit. -/
def hexLowerDigit (n : Nat) : Nat := if n < 10 then 48 + n else 87 + n

/-- Lower-case hex string of a byte list (`hexdigest`). -/
def bytesToHex (bs : List Nat) : PyStr :=
  bs.flatMap (fun b => [hexLowerDigit (b / 16), hexLowerDigit (b % 16)])

/-- `hashlib.sha256(bytes).hexdigest()`. -/
def sha256Hex (msg : List Nat) : PyStr := bytesToHex (sha256Bytes msg)

/-- The MD5 sine-table constants. -/
def md5K : List Nat :=
  [3614090360, 3905402710, 606105819, 3250441966,
   4118548399, 1200080426, 2821735955, 4249261313,
   1770035416, 2336552879, 4294925233, 2304563134,
   1804603682, 4254626195, 2792965006, 1236535329,
   4129170786, 3225465664, 643717713, 3921069994,
   3593408605, 38016083, 3634488961, 3889429448,
   568446438, 3275163606, 4107603335, 1163531501,
   2850285829, 4243563512, 1735328473, 2368359562,
   4294588738, 2272392833, 1839030562, 4259657740,
   2763975236, 1272893353, 4139469664, 3200236656,
   681279174, 3936430074, 3572445317, 76029189,
   3654602809, 3873151461, 530742520, 3299628645,
   4096336452, 1126891415, 2878612391, 4237533241,
   1700485571, 2399980690, 4293915773, 2240044497,
   1873313359, 4264355552, 2734768916, 1309151649,
   4149444226, 3174756917, 718787259, 3951481745]

/-- The MD5 per-round left-rotation amounts. -/
def md5S : List Nat :=
  [7, 12, 17, 22, 7, 12, 17, 22, 7, 12, 17, 22, 7, 12, 17, 22,
   5, 9, 14, 20, 5, 9, 14, 20, 5, 9, 14, 20, 5, 9, 14, 20,
   4, 11, 16, 23, 4, 11, 16, 23, 4, 11, 16, 23, 4, 11, 16, 23,
   6, 10, 15, 21, 6, 10, 15, 21, 6, 10, 15, 21, 6, 10, 15, 21]

/-- One MD5 step. -/
def md5Step (m : List Nat) (st : List Nat) (i : Nat) : List Nat :=
  match st with
  | [a, b, c, d] =>
    let f :=
      if i < 16 then (b &&& c) ^^^ ((4294967295 - b) &&& d)
      else if i < 32 then (d &&& b) ^^^ ((4294967295 - d) &&& c)
      else if i < 48 then b ^^^ c ^^^ d
      else c ^^^ (b ||| (4294967295 - d))
    let g :=
      if i < 16 then i
      else if i < 32 then (5 * i + 1) % 16
      else if i < 48 then (3 * i + 5) % 16
      else (7 * i) % 16
    let x := w32 (f + a + md5K.getD i 0 + m.getD g 0)
    [d, w32 (b + rotl32 x (md5S.getD i 0)), b, c]
  | st => st

/-- MD5 compression of one 64-byte chunk. -/
def md5Compress (h : List Nat) (chunk : List Nat) : List Nat :=
  let m := (chunksSucc 3 chunk).map leWord
  let st := (List.range 64).foldl (md5Step m) h
  List.zipWith (fun a b => w32 (a + b)) h st

/-- MD5 digest bytes of a message. -/
def md5Bytes (msg : List Nat) : List Nat :=
  let init := [1732584193, 4023233417, 2562383102, 271733878]
  let h := (chunksSucc 63 (mdPad (le64 (8 * msg.length)) msg)).foldl md5Compress init
  h.flatMap (fun x => [x % 256, x / 2 ^ 8 % 256, x / 2 ^ 16 % 256, x / 2 ^ 24 % 256])

/-- `hashlib.md5(bytes).hexdigest()`. -/
def md5Hex (msg : List Nat) : PyStr := bytesToHex (md5Bytes msg)

/-- Model of the regex class `\w` (ASCII). -/
def isWordChar (c : Nat) : Bool := isAsciiAlnumC c || c = 95

/-- `url_to_filename` from `rag_crawler/rag_crawler/url_utils.py`. -/
def url_to_filename (url : PyStr) (maxLength : Nat := 100) : Except Unit PyStr := do
  let parsed ← pyUrlparse url
  -- Combine host and path
  let parts := parsed.netloc :: (pySplitChar 47 parsed.path).filter (· ≠ [])
  -- Create slug
  let slug := pyJoin [95] parts
  -- Remove unsafe characters (re.sub(r"[^\w\-]", "_", slug))
  let slug := slug.map (fun c => if isWordChar c || c = 45 then c else 95)
  -- Remove multiple underscores
  let slug := collapseRuns 95 slug
  -- Truncate if necessary, keeping a hash suffix for uniqueness
  let slug :=
    if maxLength < slug.length then
      slug.take (maxLength - 9) ++ 95 :: (md5Hex (utf8Encode url)).take 8
    else slug
  return stripChar slug 95

/-- `get_url_extension` from `rag_crawler/rag_crawler/url_utils.py`. -/
def get_url_extension (url : PyStr) : Except Unit PyStr := do
  let parsed ← pyUrlparse url
  let path := parsed.path
  if hasChar ((pySplitChar 47 path).getLastD []) 46 then
    return 46 :: pyLower ((pySplitChar 46 path).getLastD [])
  else
    return []

/-! ## `rag_crawler.change_detector` and `rag_crawler.storage`

The file system is a map from path to optional contents; the output
directory prefix is constant and omitted from paths.  `yaml.dump` /
`yaml.safe_load` are modelled for the flat mapping this program writes: each
scalar is emitted on one line as `key: value`, a value that is empty, begins
with an indicator character, or contains a newline, quote, backslash, colon
or `#` being double-quoted with `\\`, `\"`, `\n` escapes; `headings` (kept
only when the list has between 1 and 10 items) is a block sequence of `- `
items.  `datetime.now(timezone.utc).isoformat()` is passed in explicitly as
`now`. -/

/-- `compute_hash` from `rag_crawler/rag_crawler/change_detector.py`. -/
def compute_hash (content : PyStr) : PyStr := sha256Hex (utf8Encode content)

/-- `PageMetadata` from `rag_crawler/rag_crawler/storage.py`. -/
structure PageMetadata where
  source_url : PyStr
  title : PyStr
  crawl_timestamp : PyStr
  content_hash : PyStr
  word_count : Nat
  headings : List PyStr

/-- Does a YAML scalar need double-quoting in our `yaml.dump` model? -/
def yamlNeedsQuote (v : PyStr) : Bool :=
  v = [] ∨ hasChar v 10 ∨ hasChar v 34 ∨ hasChar v 92 ∨ hasChar v 58 ∨ hasChar v 35 ∨
    (v.head?.elim true (fun c =>
      c = 45 ∨ c = 32 ∨ c = 39 ∨ c = 91 ∨ c = 123 ∨ c = 38 ∨ c = 42 ∨ c = 63 ∨
      c = 124 ∨ c = 62 ∨ c = 64 ∨ c = 96 ∨ c = 33 ∨ c = 44 ∨ c = 93 ∨ c = 125))

/-- Double-quoted-style escaping. -/
def yamlEscape (v : PyStr) : PyStr :=
  v.flatMap (fun c =>
    if c = 92 then [92, 92] else if c = 34 then [92, 34]
    else if c = 10 then [92, 110] else [c])

/-- Inverse of `yamlEscape`. -/
def yamlUnescape : PyStr → PyStr
  | [] => []
  | 92 :: 92 :: rest => 92 :: yamlUnescape rest
  | 92 :: 34 :: rest => 34 :: yamlUnescape rest
  | 92 :: 110 :: rest => 10 :: yamlUnescape rest
  | c :: rest => c :: yamlUnescape rest

/-- Render one YAML scalar (model of `yaml.dump`'s scalar output). -/
def yamlRenderScalar (v : PyStr) : PyStr :=
  if yamlNeedsQuote v then 34 :: (yamlEscape v ++ [34]) else v

/-- Read one YAML scalar back (model of `yaml.safe_load`'s scalar reading). -/
def yamlParseScalar (v : PyStr) : PyStr :=
  match v with
  | 34 :: rest => yamlUnescape (rest.take (rest.length - 1))
  | v => v

/-- Decimal digits accumulator. -/
def natToPyStrAux : Nat → PyStr → PyStr
  | 0, acc => acc
  | n + 1, acc => natToPyStrAux ((n + 1) / 10) (((n + 1) % 10 + 48) :: acc)
decreasing_by exact Nat.div_lt_self (Nat.succ_pos n) (by omega)

/-- Decimal rendering of an integer (`str(n)`). -/
def natToPyStr (n : Nat) : PyStr :=
  if n = 0 then [48] else natToPyStrAux n []

/-- The lines (without trailing newlines) of `PageMetadata.to_yaml`:
keys in insertion order, `headings` only when `1 ≤ length ≤ 10`. -/
def toYamlLines (m : PageMetadata) : List PyStr :=
  [pstr "source_url: " ++ yamlRenderScalar m.source_url,
   pstr "title: " ++ yamlRenderScalar m.title,
   pstr "crawl_timestamp: " ++ yamlRenderScalar m.crawl_timestamp,
   pstr "content_hash: " ++ yamlRenderScalar m.content_hash,
   pstr "word_count: " ++ natToPyStr m.word_count] ++
  (if m.headings ≠ [] ∧ m.headings.length ≤ 10 then
    pstr "headings:" :: m.headings.map (fun hd => pstr "- " ++ yamlRenderScalar hd)
  else [])

/-- Terminate every line with a newline and concatenate. -/
def joinLines (ls : List PyStr) : PyStr := ls.flatMap (· ++ [10])

/-- `PageMetadata.to_yaml` (model of `yaml.dump(data, default_flow_style=False,
allow_unicode=True, sort_keys=False)`). -/
def to_yaml (m : PageMetadata) : PyStr := joinLines (toYamlLines m)

/-- First index at which `pat` occurs in the string
(model of `re.search(pat, s).start()` for a literal pattern). -/
def findSubIdx (pat : PyStr) : PyStr → Option Nat
  | [] => if pat = [] then some 0 else none
  | x :: xs =>
    if List.isPrefixOf pat (x :: xs) then some 0
    else (findSubIdx pat xs).map (· + 1)

/-- Look a key up among front-matter lines (`yaml.safe_load` followed by the
`content_hash` access, for the flat mapping written by `to_yaml`). -/
def yamlLookup (key : PyStr) : List PyStr → Option PyStr
  | [] => none
  | l :: rest =>
    if startsWithP l (key ++ pstr ": ") then
      some (yamlParseScalar (l.drop (key.length + 2)))
    else yamlLookup key rest

/-- `extract_hash_from_file` from `rag_crawler/rag_crawler/change_detector.py`,
applied to the contents of the file. -/
def extract_hash_from_file (content : PyStr) : Option PyStr :=
  if ¬ startsWithP content (pstr "---") then none
  else
    match findSubIdx (pstr "\n---\n") (content.drop 3) with
    | none => none
    | some i =>
      let front_matter := (content.drop 3).take i
      yamlLookup (pstr "content_hash") (pySplitChar 10 front_matter)

/-- The body of a stored page file as §6 of the specification reads it: the
text after the closing `---` delimiter line and the blank line. -/
def bodyAfterFrontMatter (content : PyStr) : Option PyStr :=
  if ¬ startsWithP content (pstr "---") then none
  else
    match findSubIdx (pstr "\n---\n") (content.drop 3) with
    | none => none
    | some i =>
      match (content.drop 3).drop (i + 5) with
      | 10 :: body => some body
      | _ => none

/-- A file system: map from path to optional contents. -/
def FS := PyStr → Option PyStr

/-- Write/delete one path. -/
def fsSet (fs : FS) (p : PyStr) (v : Option PyStr) : FS :=
  fun q => if q = p then v else fs q

/-- `ChangeDetector.get_file_hash` from
`rag_crawler/rag_crawler/change_detector.py` (reads the file, `None` when it
does not exist). -/
def get_file_hash (fs : FS) (p : PyStr) : Option PyStr :=
  (fs p).bind extract_hash_from_file

/-- The full file content composed by `MarkdownStorage.save` (line 146 of
`storage.py`). -/
def composedFile (m : PageMetadata) (markdown_content : PyStr) : PyStr :=
  pstr "---\n" ++ to_yaml m ++ pstr "---\n\n" ++ markdown_content

/-- Which steps of the `try` block of `MarkdownStorage.save` raise, and how
many characters a failing temp-file write got out. -/
structure FailSched where
  failWrite : Bool
  failUnlink : Bool
  failRename : Bool
  partialLen : Nat

/-- The schedule on which every step succeeds. -/
def noFail : FailSched := ⟨false, false, false, 0⟩

/-- Outcome of `MarkdownStorage.save`. -/
inductive SaveOutcome where
  /-- returned `(False, path)` -/
  | skipped (path : PyStr) (fs : FS)
  /-- returned `(True, path)` -/
  | saved (path : PyStr) (fs : FS)
  /-- an exception was re-raised to the caller after temp-file cleanup -/
  | raised (fs : FS)
  /-- `urlparse` raised inside `get_filepath`, before any file activity -/
  | parseFailed

/-- The final file system of an outcome (`parseFailed` leaves it unchanged). -/
def SaveOutcome.finalFS (fs0 : FS) : SaveOutcome → FS
  | .skipped _ fs => fs
  | .saved _ fs => fs
  | .raised fs => fs
  | .parseFailed => fs0

/-- `MarkdownStorage.save` from `rag_crawler/rag_crawler/storage.py`, with
failure injection for the three file-system steps of its `try` block (write
temp, unlink existing target, rename temp onto target).  On a failure the
`except` branch deletes the temp file when it exists and re-raises. -/
def MarkdownStorage.save (fs : FS) (url title markdown_content : PyStr)
    (word_count : Nat) (headings : List PyStr) (now : PyStr) (force : Bool)
    (sched : FailSched) : SaveOutcome :=
  match url_to_filename url with
  | Except.error _ => .parseFailed
  | Except.ok fname =>
    let filepath := fname ++ pstr ".md"
    -- Compute content hash
    let content_hash := compute_hash markdown_content
    -- Check for changes unless forcing
    if ¬ force ∧ (fs filepath).isSome ∧ get_file_hash fs filepath = some content_hash then
      .skipped filepath fs
    else
      -- Create metadata and compose full file content
      let metadata : PageMetadata := ⟨url, title, now, content_hash, word_count, headings⟩
      let file_content := composedFile metadata markdown_content
      -- Write atomically (write to temp, then rename)
      let temp_filepath := filepath ++ pstr ".tmp"
      if sched.failWrite then
        -- the write raised partway; cleanup removes the partial temp file
        .raised (fsSet (fsSet fs temp_filepath (some (file_content.take sched.partialLen)))
          temp_filepath none)
      else
        let fs1 := fsSet fs temp_filepath (some file_content)
        if (fs filepath).isSome then
          if sched.failUnlink then .raised (fsSet fs1 temp_filepath none)
          else
            let fs2 := fsSet fs1 filepath none
            if sched.failRename then .raised (fsSet fs2 temp_filepath none)
            else .saved filepath (fsSet (fsSet fs2 filepath (some file_content)) temp_filepath none)
        else
          if sched.failRename then .raised (fsSet fs1 temp_filepath none)
          else .saved filepath (fsSet (fsSet fs1 filepath (some file_content)) temp_filepath none)

/-! ## `URLQueue` from `rag_crawler/rag_crawler/url_utils.py`

The seen set is modelled as a list with membership; the lock serialises each
operation, so an execution is a sequence of atomic operations. -/

/-- The mutable state of a `URLQueue`. -/
structure URLQueueState where
  queue : List (PyStr × Nat)
  seen : List PyStr
deriving DecidableEq

/-- A fresh `URLQueue`. -/
def URLQueue.empty : URLQueueState := ⟨[], []⟩

/-- `URLQueue.add`: normalize, test seen, insert into both if new, return
whether it inserted.  An exception from `normalize_url` propagates before
the state is touched. -/
def URLQueue.add (st : URLQueueState) (url : PyStr) (depth : Nat) :
    Except Unit (Bool × URLQueueState) := do
  let normalized ← normalize_url url
  if normalized ∈ st.seen then
    return (false, st)
  else
    return (true, ⟨st.queue ++ [(url, depth)], st.seen ++ [normalized]⟩)

/-- `URLQueue.get`: pop the head, or `none` when empty. -/
def URLQueue.get (st : URLQueueState) : Option ((PyStr × Nat) × URLQueueState) :=
  match st.queue with
  | [] => none
  | x :: rest => some (x, ⟨rest, st.seen⟩)

/-- `URLQueue.mark_seen`. -/
def URLQueue.mark_seen (st : URLQueueState) (url : PyStr) : Except Unit URLQueueState := do
  let normalized ← normalize_url url
  if normalized ∈ st.seen then return st
  else return ⟨st.queue, st.seen ++ [normalized]⟩

/-- One operation of a `URLQueue` execution. -/
inductive QOp where
  | add (url : PyStr) (depth : Nat)
  | get
  | markSeen (url : PyStr)

/-- Execute one operation; the second component is the item a successful
`get()` yielded.  An operation whose `normalize_url` raises leaves the state
unchanged (the exception is thrown before the lock is taken). -/
def qstep (st : URLQueueState) : QOp → URLQueueState × Option (PyStr × Nat)
  | .add url depth =>
    match URLQueue.add st url depth with
    | Except.ok (_, st') => (st', none)
    | Except.error _ => (st, none)
  | .get =>
    match URLQueue.get st with
    | some (x, st') => (st', some x)
    | none => (st, none)
  | .markSeen url =>
    match URLQueue.mark_seen st url with
    | Except.ok st' => (st', none)
    | Except.error _ => (st, none)

/-- Run a sequence of operations, collecting the dequeued items. -/
def qrun : URLQueueState → List QOp → URLQueueState × List (PyStr × Nat)
  | st, [] => (st, [])
  | st, op :: ops =>
    let s := qstep st op
    let r := qrun s.1 ops
    (r.1, s.2.toList ++ r.2)

/-- The execution invariant of a `URLQueue`: the canonical forms of the
items dequeued so far together with the queued items are pairwise distinct,
and each such item's canonical form is recorded in the seen set. -/
def QInv (st : URLQueueState) (outs : List (PyStr × Nat)) : Prop :=
  List.Pairwise (fun a b => normalize_url a.1 ≠ normalize_url b.1) (outs ++ st.queue)
  ∧ ∀ x ∈ outs ++ st.queue, ∃ n, normalize_url x.1 = Except.ok n ∧ n ∈ st.seen

/-! ## `LinkExtractor._categorize_link` from
`rag_crawler/rag_crawler/link_extractor.py` -/

/-- The container of categorized links (only the fields `_categorize_link`
touches; `email`/`phone`/`image` links are handled before it is called). -/
structure ExtractedLinks where
  source_url : PyStr
  title : PyStr
  internal_links : List PyStr
  external_links : List PyStr
  pdf_links : List PyStr
  document_links : List PyStr
  video_links : List PyStr
  social_links : List (PyStr × PyStr)
  event_links : List PyStr

/-- `LinkExtractor.DOC_EXTENSIONS` (a Python `set`; no two entries are
suffix-comparable, so the iteration order of the membership loop is
irrelevant and a fixed order is used). -/
def DOC_EXTENSIONS : List PyStr :=
  [pstr ".pdf", pstr ".doc", pstr ".docx", pstr ".xls", pstr ".xlsx",
   pstr ".ppt", pstr ".pptx", pstr ".csv", pstr ".txt", pstr ".rtf"]

/-- `LinkExtractor.VIDEO_DOMAINS`. -/
def VIDEO_DOMAINS : List PyStr :=
  [pstr "youtube.com", pstr "youtu.be", pstr "vimeo.com", pstr "dailymotion.com",
   pstr "facebook.com/watch", pstr "twitter.com/i/status", pstr "tiktok.com"]

/-- `LinkExtractor.SOCIAL_PLATFORMS` (insertion-ordered dict). -/
def SOCIAL_PLATFORMS : List (PyStr × PyStr) :=
  [(pstr "facebook.com", pstr "facebook"), (pstr "twitter.com", pstr "twitter"),
   (pstr "x.com", pstr "twitter"), (pstr "linkedin.com", pstr "linkedin"),
   (pstr "instagram.com", pstr "instagram"), (pstr "tiktok.com", pstr "tiktok"),
   (pstr "youtube.com", pstr "youtube"), (pstr "github.com", pstr "github"),
   (pstr "pinterest.com", pstr "pinterest")]

/-- `LinkExtractor.EVENT_KEYWORDS`. -/
def EVENT_KEYWORDS : List PyStr :=
  [pstr "event", pstr "calendar", pstr "schedule", pstr "workshop",
   pstr "conference", pstr "seminar", pstr "webinar", pstr "training"]

/-- Append unless already present (the `if url not in ...: append` idiom). -/
def appendIfNew (l : List PyStr) (u : PyStr) : List PyStr :=
  if u ∈ l then l else l ++ [u]

/-- Dict assignment `d[k] = v` on an insertion-ordered dict. -/
def dictSet (d : List (PyStr × PyStr)) (k v : PyStr) : List (PyStr × PyStr) :=
  if d.any (fun p => p.1 = k) then
    d.map (fun p => if p.1 = k then (k, v) else p)
  else d ++ [(k, v)]

/-- `LinkExtractor._categorize_link`. -/
def categorize_link (links : ExtractedLinks) (url url_domain url_path base_domain : PyStr) :
    ExtractedLinks :=
  -- Check for documents
  match DOC_EXTENSIONS.find? (fun ext => endsWithP url_path ext) with
  | some ext =>
    if ext = pstr ".pdf" then { links with pdf_links := appendIfNew links.pdf_links url }
    else { links with document_links := appendIfNew links.document_links url }
  | none =>
    -- Check for videos
    if VIDEO_DOMAINS.any (fun d => containsSub d url_domain) then
      { links with video_links := appendIfNew links.video_links url }
    else
      -- Check for social media
      match SOCIAL_PLATFORMS.find? (fun p => containsSub p.1 url_domain) with
      | some p => { links with social_links := dictSet links.social_links p.2 url }
      | none =>
        -- Check for events (non-exclusive)
        let links :=
          if EVENT_KEYWORDS.any (fun k => containsSub k url_path) then
            { links with event_links := appendIfNew links.event_links url }
          else links
        -- Internal vs external
        if containsSub base_domain url_domain ∨ containsSub url_domain base_domain then
          { links with internal_links := appendIfNew links.internal_links url }
        else
          { links with external_links := appendIfNew links.external_links url }

/-! ## `WebCrawler` from `rag_crawler/rag_crawler/crawler.py`

The orchestration loop, abstracted over what the environment does for each
dequeued URL.  Robots gating, rate limiting and the queue itself are not
relevant to the error-locality property and are folded into the outcome. -/

/-- `CrawlStats`. -/
structure CrawlStats where
  pages_crawled : Nat := 0
  pages_saved : Nat := 0
  pages_skipped : Nat := 0
  pages_failed : Nat := 0
  total_words : Nat := 0
  errors : List PyStr := []
deriving DecidableEq

/-- What happens while `_process_url` handles one dequeued URL:

* `robotsBlocked` — `can_fetch` returned false;
* `fetchError` — `session.get`/`raise_for_status` raised `RequestException`;
* `nonHtml` — the response content type did not contain `text/html`;
* `extractError` — extraction, conversion or `storage.save` raised;
* `processed saved words harvest` — the extract/convert/save block succeeded
  (`saved` is the first component of `storage.save`'s result); when
  `depth < max_depth` the link harvest runs and `harvest = some e` means
  `_discover_links` raised `e`. -/
inductive PageOutcome where
  | robotsBlocked
  | fetchError (msg : PyStr)
  | nonHtml
  | extractError (msg : PyStr)
  | processed (saved : Bool) (words : Nat) (harvest : Option PyStr)
deriving DecidableEq

/-- `WebCrawler._process_url`: the statistics update and the exception (if
any) that escapes to the caller. -/
def process_url (st : CrawlStats) : PageOutcome → CrawlStats × Option PyStr
  | .robotsBlocked => (st, none)
  | .fetchError m =>
    ({ st with pages_failed := st.pages_failed + 1, errors := st.errors ++ [m] }, none)
  | .nonHtml => (st, none)
  | .extractError m =>
    ({ st with pages_failed := st.pages_failed + 1, errors := st.errors ++ [m] }, none)
  | .processed saved words harvest =>
    let st := { st with pages_crawled := st.pages_crawled + 1,
                        total_words := st.total_words + words }
    let st :=
      if saved then { st with pages_saved := st.pages_saved + 1 }
      else { st with pages_skipped := st.pages_skipped + 1 }
    (st, harvest)

/-- The `while` loop of `WebCrawler.crawl` over the per-URL outcomes: an
exception escaping `_process_url` is caught by the loop's
`except Exception` handler, which records it in `stats.errors` and ends the
loop. -/
def crawl_loop (st : CrawlStats) : List PageOutcome → CrawlStats
  | [] => st
  | o :: rest =>
    match process_url st o with
    | (st', none) => crawl_loop st' rest
    | (st', some e) => { st' with errors := st'.errors ++ [e] }

/-- `status_forcelist` of the `Retry` configured by
`WebCrawler._create_session`. -/
def session_retry_statuses : List Nat := [429, 500, 502, 503, 504]

/-- One request outcome seen by the session adapter. -/
inductive SessOutcome where
  | ok (status : Nat)
  | transportError
deriving DecidableEq

/-- The retry behaviour `WebCrawler._create_session` configures (model of
`urllib3.util.retry.Retry(total=n, backoff_factor=1,
status_forcelist=[429, 500, 502, 503, 504])`): the request is retried on a
transport error or a forcelist status while retries remain (first argument:
retries left); the first component of the result is the finally returned
status (`none` when the retries were exhausted and the error surfaced), the
second the number of requests issued beyond `req`. -/
def session_fetch (outcomes : List SessOutcome) : Nat → Nat → Option Nat × Nat
  | 0, req =>
    match outcomes.getD req .transportError with
    | .ok s => if s ∈ session_retry_statuses then (none, req + 1) else (some s, req + 1)
    | .transportError => (none, req + 1)
  | retries + 1, req =>
    match outcomes.getD req .transportError with
    | .ok s =>
      if s ∈ session_retry_statuses then session_fetch outcomes retries (req + 1)
      else (some s, req + 1)
    | .transportError => session_fetch outcomes retries (req + 1)

/-! ## `Crawler` from `crawler/crawler.py` -/

/-- One attempt outcome inside `Crawler._fetch_page`:

* `ok` — the GET returned with `raise_for_status` passing;
* `timeout` — `requests.exceptions.Timeout`;
* `httpError s` — `raise_for_status` raised `HTTPError` with status `s`;
* `otherError` — any other exception. -/
inductive AttemptOutcome where
  | ok (contentType html : PyStr)
  | timeout
  | httpError (status : Nat)
  | otherError
deriving DecidableEq

/-- The trace of one `_fetch_page` call: the returned value, the number of
attempts performed, and the seconds slept between attempts. -/
structure FetchTrace where
  result : Option PyStr
  attempts : Nat
  sleeps : List Nat
deriving DecidableEq

/-- The `for attempt in range(max_retries)` loop of `Crawler._fetch_page`
with `rem` attempts remaining and `attempt` the current attempt number
(`rem = max_retries - attempt`).  `break` (non-HTML content, or status in
`[404, 403, 410]`) skips the backoff sleep and falls through to
`return None`; other exceptions sleep `2 ** attempt` seconds when another
attempt remains (`attempt < max_retries - 1`, i.e. `rem ≥ 2`). -/
def fetch_page_go (outcomes : List AttemptOutcome) : Nat → Nat → FetchTrace
  | 0, attempt => ⟨none, attempt, []⟩
  | rem + 1, attempt =>
    let next :=
      fun (_ : Unit) =>
        let rest := fetch_page_go outcomes rem (attempt + 1)
        if rem ≠ 0 then { rest with sleeps := 2 ^ attempt :: rest.sleeps }
        else rest
    match outcomes.getD attempt .otherError with
    | .ok contentType html =>
      if ¬ containsSub (pstr "text/html") contentType then ⟨none, attempt + 1, []⟩
      else ⟨some html, attempt + 1, []⟩
    | .timeout => next ()
    | .httpError s =>
      if s = 404 ∨ s = 403 ∨ s = 410 then ⟨none, attempt + 1, []⟩
      else next ()
    | .otherError => next ()

/-- `Crawler._fetch_page`. -/
def fetch_page (outcomes : List AttemptOutcome) (max_retries : Nat := 3) : FetchTrace :=
  fetch_page_go outcomes max_retries 0

/-- The in-memory checkpoint state of `Crawler`. -/
structure CrawlerState where
  visited : List PyStr
  queue : List PyStr
  content_hashes : List PyStr

/-- JSON string literal with the escapes `json.dump` emits for the
characters appearing here. -/
def jsonStr (s : PyStr) : PyStr :=
  34 :: s.flatMap (fun c =>
    if c = 34 then [92, 34] else if c = 92 then [92, 92]
    else if c = 10 then [92, 110] else [c]) ++ [34]

/-- JSON array of strings, `json.dump` default separators. -/
def jsonStrList (l : List PyStr) : PyStr :=
  91 :: pyJoin (pstr ", ") (l.map jsonStr) ++ [93]

/-- The serialization `json.dump(state, f)` writes in `Crawler.save_state`. -/
def stateJson (st : CrawlerState) : PyStr :=
  123 :: (jsonStr (pstr "visited") ++ pstr ": " ++ jsonStrList st.visited ++
    pstr ", " ++ jsonStr (pstr "queue") ++ pstr ": " ++ jsonStrList st.queue ++
    pstr ", " ++ jsonStr (pstr "content_hashes") ++ pstr ": " ++
    jsonStrList st.content_hashes) ++ [125]

/-- The checkpoint path. -/
def statePath : PyStr := pstr "crawler_state.json"

/-- `Crawler.save_state`, with failure injection: `open('w')` truncates the
file in place, then `json.dump` writes; `failAfter = some k` means the write
raised after `k` characters reached the file.  Returns the final file system
and whether an exception was raised. -/
def save_state (fs : FS) (st : CrawlerState) (failAfter : Option Nat) : FS × Bool :=
  match failAfter with
  | some k => (fsSet fs statePath (some ((stateJson st).take k)), true)
  | none => (fsSet fs statePath (some (stateJson st)), false)

/-! ## `is_valid_url` from `crawler/utils.py` -/

/-- `is_valid_url(url, start_url)` from `crawler/utils.py` (the bare
`except` turns any `urlparse` error into `False`). -/
def crawler_is_valid_url (url start_url : PyStr) : Bool :=
  if url = [] then false
  else if hasChar url 91 ∨ hasChar url 93 then false
  else
    match pyUrlparse url, pyUrlparse start_url with
    | Except.ok parsed, Except.ok base_parsed =>
      if ¬ (parsed.scheme = pstr "http" ∨ parsed.scheme = pstr "https") then false
      else parsed.netloc = base_parsed.netloc
    | _, _ => false

/-- Did `MarkdownStorage.save` re-raise an exception? -/
def SaveOutcome.isRaised : SaveOutcome → Bool
  | .raised _ => true
  | _ => false

/-! # Theorems -/

/-! ## C10 — bracket URLs and the validity predicates -/

/-- C10 (counterexample): the claim says every URL containing `[` or `]` is
rejected by the URL validity predicate, but `is_valid_url` from
`rag_crawler/rag_crawler/url_utils.py` accepts `http://example.com/a[1]`,
which contains both brackets. -/
theorem C10_counterexample :
    rag_is_valid_url (pstr "http://example.com/a[1]") = true
      ∧ hasChar (pstr "http://example.com/a[1]") 91 = true
      ∧ hasChar (pstr "http://example.com/a[1]") 93 = true := by
  refine ⟨?_, by decide, by decide⟩
  decide

/-- C10 (amended): `is_valid_url` from `crawler/utils.py` rejects every URL
containing `[` or `]`; the `rag_crawler` validity predicate performs no such
check and can accept bracket-containing URLs (the brackets only make it
reject when `urlparse` raises, i.e. when they sit unbalanced in the host
part). -/
theorem C10_amended (url start_url : PyStr)
    (h : hasChar url 91 = true ∨ hasChar url 93 = true) :
    crawler_is_valid_url url start_url = false := by
  unfold crawler_is_valid_url
  by_cases he : url = []
  · simp [he]
  · rw [if_neg he, if_pos]
    rcases h with h | h
    · exact Or.inl h
    · exact Or.inr h

/-- C10 (witness): the amended theorem applied to a concrete bracket URL. -/
theorem C10_witness :
    crawler_is_valid_url (pstr "http://example.com/a[1]") (pstr "http://example.com") = false :=
  C10_amended _ _ (Or.inl (by decide))

/-! ## C9 — the checkpoint file is not written atomically -/

/-- C9 (counterexample): the claim says `crawler_state.json` is written by
tempfile-rename so that a failed write leaves the previous checkpoint
intact; but `Crawler.save_state` opens the file for writing in place, so a
write that fails after 0 characters leaves an empty file where the previous
checkpoint `"OLDSTATE"` was. -/
theorem C9_counterexample :
    (save_state (fsSet (fun _ => none) statePath (some (pstr "OLDSTATE")))
        ⟨[pstr "http://site.test"], [], []⟩ (some 0)).2 = true
      ∧ (save_state (fsSet (fun _ => none) statePath (some (pstr "OLDSTATE")))
        ⟨[pstr "http://site.test"], [], []⟩ (some 0)).1 statePath = some []
      ∧ (save_state (fsSet (fun _ => none) statePath (some (pstr "OLDSTATE")))
        ⟨[pstr "http://site.test"], [], []⟩ (some 0)).1 statePath
          ≠ some (pstr "OLDSTATE") := by
  refine ⟨rfl, ?_, ?_⟩ <;> decide

/-- C9 (amended): `Crawler.save_state` writes the checkpoint by truncating
`crawler_state.json` in place and writing the JSON serialization directly
(no temp file, no rename): a successful write stores exactly the
serialization, a write failing after `k` characters leaves the `k`-character
prefix (destroying the previous checkpoint), and no other path is touched. -/
theorem C9_amended (fs : FS) (st : CrawlerState) (k : Nat) :
    (∀ p, p ≠ statePath →
        (save_state fs st (some k)).1 p = fs p ∧ (save_state fs st none).1 p = fs p)
      ∧ (save_state fs st none).1 statePath = some (stateJson st)
      ∧ (save_state fs st none).2 = false
      ∧ (save_state fs st (some k)).1 statePath = some ((stateJson st).take k)
      ∧ (save_state fs st (some k)).2 = true := by
  refine ⟨fun p hp => ⟨by simp [save_state, fsSet, hp], by simp [save_state, fsSet, hp]⟩,
    by simp [save_state, fsSet], rfl, by simp [save_state, fsSet], rfl⟩

/-- C9 (witness): the amended theorem at a concrete state, failure point and
other path. -/
theorem C9_witness :
    (save_state (fun _ => none) ⟨[pstr "http://h"], [], []⟩ (some 3)).1 (pstr "other.md")
        = (fun _ => none : FS) (pstr "other.md")
      ∧ (save_state (fun _ => none) ⟨[pstr "http://h"], [], []⟩ (some 3)).1 statePath
        = some ((stateJson ⟨[pstr "http://h"], [], []⟩).take 3) :=
  ⟨((C9_amended (fun _ => none) ⟨[pstr "http://h"], [], []⟩ 3).1 (pstr "other.md")
      (by decide)).1,
   (C9_amended (fun _ => none) ⟨[pstr "http://h"], [], []⟩ 3).2.2.2.1⟩

/-! ## C7 — error locality of the crawl loop -/

/-- C7 (counterexample): the claim says an exception raised while harvesting
links for a single page increments `pages_failed` and the loop continues;
but `_discover_links` sits outside the `try` of `_process_url`, so its
exception escapes to `crawl`'s `except Exception` handler: in a run whose
first page raises during link harvest and whose second page is fine, the
loop stops after the first page (`pages_crawled = 1`), `pages_failed` stays
0, and only the error list records the exception. -/
theorem C7_counterexample :
    crawl_loop {} [PageOutcome.processed true 5 (some (pstr "boom")),
                   PageOutcome.processed true 7 none] =
      { pages_crawled := 1, pages_saved := 1, pages_skipped := 0,
        pages_failed := 0, total_words := 5, errors := [pstr "boom"] } := by
  decide

/-- C7 (amended): an exception while fetching, extracting, converting or
storing a single page is local — it increments `pages_failed`, appends the
error string and the loop continues with the remaining URLs; but an
exception in the link harvest (`_discover_links`) escapes `_process_url`,
is recorded in the error list by `crawl`'s outer handler without touching
`pages_failed`, and terminates the loop. -/
theorem C7_amended (st : CrawlStats) (m : PyStr) (rest : List PageOutcome)
    (saved : Bool) (words : Nat) :
    crawl_loop st (PageOutcome.extractError m :: rest) =
      crawl_loop { st with pages_failed := st.pages_failed + 1,
                           errors := st.errors ++ [m] } rest
    ∧ crawl_loop st (PageOutcome.fetchError m :: rest) =
      crawl_loop { st with pages_failed := st.pages_failed + 1,
                           errors := st.errors ++ [m] } rest
    ∧ crawl_loop st (PageOutcome.processed saved words (some m) :: rest) =
      { (process_url st (PageOutcome.processed saved words (some m))).1 with
        errors := (process_url st (PageOutcome.processed saved words (some m))).1.errors
          ++ [m] }
    ∧ (process_url st (PageOutcome.processed saved words (some m))).1.pages_failed
      = st.pages_failed := by
  refine ⟨rfl, rfl, ?_, ?_⟩ <;> cases saved <;> rfl

/-! ## C6 — the retry policy -/

/-- C6 (counterexample): the claim says the HTTP fetch retries *only*
transport errors and the statuses {429, 500, 502, 503, 504}; but
`Crawler._fetch_page` with `max_retries = 3` performs three attempts
(sleeping 1 s and 2 s between them) against a server that keeps answering
status 400, which is in neither set. -/
theorem C6_counterexample :
    fetch_page [AttemptOutcome.httpError 400, AttemptOutcome.httpError 400,
        AttemptOutcome.httpError 400] 3 =
      ⟨none, 3, [1, 2]⟩
    ∧ (400 ∈ session_retry_statuses) = False := by
  refine ⟨by decide, by decide⟩

/-- C6 (amended): both fetch paths refuse to retry 404/403/410, with
exponential backoff where they do retry, but their retryable sets differ:

* `Crawler._fetch_page` stops immediately (no further attempt, no sleep) on
  an `HTTPError` whose status is 404, 403 or 410, and otherwise retries
  *any* `HTTPError` status (e.g. 400), as well as timeouts and other
  transport errors, sleeping `2 ** attempt` (1, 2, 4, …) seconds when
  another attempt remains;
* the session configured by `WebCrawler._create_session` retries (up to its
  retry budget) exactly on transport errors and on the `status_forcelist`
  {429, 500, 502, 503, 504}, and returns any other status — 404, 403 and
  410 in particular — without retrying. -/
theorem C6_amended (outcomes : List AttemptOutcome) (soutcomes : List SessOutcome)
    (rem attempt retries req s : Nat) :
    (outcomes.getD attempt .otherError = .httpError s →
      ((s = 404 ∨ s = 403 ∨ s = 410) →
        fetch_page_go outcomes (rem + 1) attempt = ⟨none, attempt + 1, []⟩)
      ∧ (¬ (s = 404 ∨ s = 403 ∨ s = 410) →
        fetch_page_go outcomes (rem + 1) attempt =
          (let rest := fetch_page_go outcomes rem (attempt + 1)
           if rem ≠ 0 then { rest with sleeps := 2 ^ attempt :: rest.sleeps }
           else rest)))
    ∧ (soutcomes.getD req .transportError = .ok s →
      ((s ∈ session_retry_statuses →
        session_fetch soutcomes (retries + 1) req = session_fetch soutcomes retries (req + 1))
      ∧ (s ∉ session_retry_statuses →
        session_fetch soutcomes retries req = (some s, req + 1))))
    ∧ (soutcomes.getD req .transportError = .transportError →
      session_fetch soutcomes (retries + 1) req = session_fetch soutcomes retries (req + 1)) := by
  refine ⟨fun hout => ⟨fun hs => ?_, fun hs => ?_⟩,
    fun hout => ⟨fun hs => ?_, fun hs => ?_⟩, fun hout => ?_⟩
  · rw [fetch_page_go, hout]
    simp only [if_pos hs]
  · rw [fetch_page_go, hout]
    simp only [if_neg hs]
  · rw [session_fetch, hout]; simp only [if_pos hs]
  · cases retries with
    | zero => rw [session_fetch, hout]; simp only [if_neg hs]
    | succ r => rw [session_fetch, hout]; simp only [if_neg hs]
  · rw [session_fetch, hout]

/-- C6 (witness): the amended theorem at a 404 first attempt for the legacy
fetcher and a 404 response for the session. -/
theorem C6_witness :
    (fetch_page_go [AttemptOutcome.httpError 404] 3 0 = ⟨none, 1, []⟩)
    ∧ session_fetch [SessOutcome.ok 404] 3 0 = (some 404, 1) := by
  refine ⟨?_, ?_⟩
  · exact ((C6_amended [AttemptOutcome.httpError 404] [SessOutcome.ok 404]
      2 0 3 0 404).1 (by decide)).1 (by decide)
  · exact (((C6_amended [AttemptOutcome.httpError 404] [SessOutcome.ok 404]
      2 0 3 0 404).2.1 (by decide)).2 (by decide))

/-! ## C8 — internal versus external links -/

/-- C8 (counterexample): the claim says a non-document, non-video,
non-social link goes to `internal_links` iff its lowercased host equals the
page's lowercased host exactly (no subdomain rollup); but
`_categorize_link` compares by substring containment, so a link on host
`sub.example.com` seen from a page on host `example.com` is filed as
internal although the hosts differ. -/
theorem C8_counterexample :
    (categorize_link ⟨pstr "https://example.com/", [], [], [], [], [], [], [], []⟩
        (pstr "https://sub.example.com/page") (pstr "sub.example.com")
        (pstr "/page") (pstr "example.com")).internal_links =
      [pstr "https://sub.example.com/page"]
    ∧ pstr "sub.example.com" ≠ pstr "example.com" := by
  refine ⟨by decide, by decide⟩

/-- C8 (amended): a hyperlink not categorized as a document, video or social
link is placed in `internal_links` iff one lowercased host is a substring of
the other (`base_domain in url_domain or url_domain in base_domain`, so
subdomains do roll up), and in `external_links` otherwise. -/
theorem C8_amended (links : ExtractedLinks) (url url_domain url_path base_domain : PyStr)
    (hdoc : DOC_EXTENSIONS.find? (fun ext => endsWithP url_path ext) = none)
    (hvid : VIDEO_DOMAINS.any (fun d => containsSub d url_domain) = false)
    (hsoc : SOCIAL_PLATFORMS.find? (fun p => containsSub p.1 url_domain) = none)
    (hext : url ∉ links.external_links) :
    (url ∈ (categorize_link links url url_domain url_path base_domain).internal_links ↔
      (url ∈ links.internal_links ∨
        containsSub base_domain url_domain = true ∨ containsSub url_domain base_domain = true))
    ∧ (url ∈ (categorize_link links url url_domain url_path base_domain).external_links ↔
      ¬ (containsSub base_domain url_domain = true ∨ containsSub url_domain base_domain = true)) := by
  have hmemiff : ∀ (l : List PyStr) (u v : PyStr), v ∈ appendIfNew l u ↔ (v ∈ l ∨ v = u) := by
    intro l u v
    unfold appendIfNew
    split <;> rename_i hu
    · constructor
      · exact fun hv => Or.inl hv
      · rintro (hv | rfl)
        · exact hv
        · exact hu
    · simp [List.mem_append]
  unfold categorize_link
  rw [hdoc, hvid, hsoc]
  dsimp only
  split_ifs with hev hin hin <;> constructor <;> simp_all [hmemiff]

/-- C8 (witness): the amended theorem at a fresh external link. -/
theorem C8_witness :
    pstr "https://other.org/x" ∈
      (categorize_link ⟨pstr "https://example.com/", [], [], [], [], [], [], [], []⟩
        (pstr "https://other.org/x") (pstr "other.org")
        (pstr "/x") (pstr "example.com")).external_links :=
  ((C8_amended ⟨pstr "https://example.com/", [], [], [], [], [], [], [], []⟩
      (pstr "https://other.org/x") (pstr "other.org") (pstr "/x") (pstr "example.com")
      (by decide) (by decide) (by decide) (by decide)).2).mpr (by decide)

/-! ## Front-matter round trip

The chain of lemmas showing that the file composed by `MarkdownStorage.save`
is read back correctly: the YAML block written between the `---` delimiters
contains no newline inside a line and no `---` line, so the first `\n---\n`
found from offset 3 is exactly the closing delimiter, the front matter
parses back, and the body is the original markdown. -/

theorem hasChar_iff_mem (s : PyStr) (c : Nat) : hasChar s c = true ↔ c ∈ s := by
  simp [hasChar, List.contains_iff_exists_mem_beq, beq_iff_eq, eq_comm]

theorem yamlEscape_no_newline (v : PyStr) : ∀ c ∈ yamlEscape v, c ≠ 10 := by
  induction v with
  | nil => intro c hc; simp [yamlEscape] at hc
  | cons x xs ih =>
    intro c hc
    have hx : yamlEscape (x :: xs) =
        (if x = 92 then [92, 92] else if x = 34 then [92, 34]
         else if x = 10 then [92, 110] else [x]) ++ yamlEscape xs := rfl
    rw [hx] at hc
    rcases List.mem_append.mp hc with hc | hc
    · split at hc <;> try (split at hc) <;> try (split at hc)
      all_goals simp at hc
      all_goals omega
    · exact ih c hc

theorem yamlNeedsQuote_of_mem_newline (v : PyStr) (h : 10 ∈ v) :
    yamlNeedsQuote v = true := by
  unfold yamlNeedsQuote
  rw [decide_eq_true_iff]
  exact Or.inr (Or.inl ((hasChar_iff_mem v 10).mpr h))

theorem yamlRenderScalar_no_newline (v : PyStr) : ∀ c ∈ yamlRenderScalar v, c ≠ 10 := by
  intro c hc
  unfold yamlRenderScalar at hc
  split at hc <;> rename_i hq
  · rcases List.mem_cons.mp hc with rfl | hc
    · omega
    · rcases List.mem_append.mp hc with hc | hc
      · exact yamlEscape_no_newline v c hc
      · simp at hc; omega
  · intro hc10
    subst hc10
    exact hq (yamlNeedsQuote_of_mem_newline v hc)

theorem natToPyStrAux_digits (n : Nat) (acc : PyStr)
    (hacc : ∀ c ∈ acc, 48 ≤ c ∧ c ≤ 57) :
    ∀ c ∈ natToPyStrAux n acc, 48 ≤ c ∧ c ≤ 57 := by
  induction n, acc using natToPyStrAux.induct with
  | case1 acc => simpa [natToPyStrAux] using hacc
  | case2 n acc ih =>
    rw [natToPyStrAux]
    refine ih ?_
    intro c hc
    rcases List.mem_cons.mp hc with rfl | hc
    · have := Nat.mod_lt (n + 1) (y := 10) (by omega)
      omega
    · exact hacc c hc

theorem natToPyStr_no_newline (n : Nat) : ∀ c ∈ natToPyStr n, c ≠ 10 := by
  intro c hc
  unfold natToPyStr at hc
  split at hc
  · simp at hc; omega
  · have := natToPyStrAux_digits n [] (by simp) c hc
    omega

theorem toYamlLines_no_newline (m : PageMetadata) :
    ∀ l ∈ toYamlLines m, ∀ c ∈ l, c ≠ 10 := by
  intro l hl
  unfold toYamlLines at hl
  have hlit : ∀ s : String, (∀ c ∈ (pstr s).filter (· = 10), False) →
      ∀ (X : PyStr), (∀ c ∈ X, c ≠ 10) → ∀ c ∈ pstr s ++ X, c ≠ 10 := by
    intro s hs X hX c hc
    rcases List.mem_append.mp hc with hc | hc
    · intro h10; subst h10
      exact hs 10 (List.mem_filter.mpr ⟨hc, by simp⟩)
    · exact hX c hc
  rcases List.mem_append.mp hl with hl | hl
  · simp only [List.mem_cons, List.not_mem_nil, or_false] at hl
    rcases hl with rfl | rfl | rfl | rfl | rfl
    · exact hlit _ (by decide) _ (yamlRenderScalar_no_newline _)
    · exact hlit _ (by decide) _ (yamlRenderScalar_no_newline _)
    · exact hlit _ (by decide) _ (yamlRenderScalar_no_newline _)
    · exact hlit _ (by decide) _ (yamlRenderScalar_no_newline _)
    · exact hlit _ (by decide) _ (natToPyStr_no_newline _)
  · split at hl
    · rcases List.mem_cons.mp hl with rfl | hl
      · intro c hc h10; subst h10; revert hc; decide
      · obtain ⟨hd, _, rfl⟩ := List.mem_map.mp hl
        exact hlit _ (by decide) _ (yamlRenderScalar_no_newline _)
    · simp at hl

theorem toYamlLines_ne_dash (m : PageMetadata) :
    ∀ l ∈ toYamlLines m, l ≠ pstr "---" := by
  have hdash : pstr "---" = [45, 45, 45] := by decide
  have hhead : ∀ (a : Nat) (t : PyStr), a ≠ 45 → a :: t ≠ pstr "---" := by
    intro a t ha h
    rw [hdash] at h
    exact ha (List.head_eq_of_cons_eq h)
  have hsecond : ∀ (b : Nat) (t : PyStr), b ≠ 45 → 45 :: b :: t ≠ pstr "---" := by
    intro b t hb h
    rw [hdash] at h
    have := List.tail_eq_of_cons_eq h
    exact hb (List.head_eq_of_cons_eq this)
  intro l hl
  unfold toYamlLines at hl
  rcases List.mem_append.mp hl with hl | hl
  · simp only [List.mem_cons, List.not_mem_nil, or_false] at hl
    rcases hl with rfl | rfl | rfl | rfl | rfl
    · exact hhead 115 _ (by omega)
    · exact hhead 116 _ (by omega)
    · exact hhead 99 _ (by omega)
    · exact hhead 99 _ (by omega)
    · exact hhead 119 _ (by omega)
  · split at hl
    · rcases List.mem_cons.mp hl with rfl | hl
      · decide
      · obtain ⟨hd, _, rfl⟩ := List.mem_map.mp hl
        exact hsecond 32 _ (by omega)
    · simp at hl

theorem findSubIdx_nl_append (l t : PyStr) (hnl : ∀ c ∈ l, c ≠ 10) :
    findSubIdx (pstr "\n---\n") (l ++ t) =
      (findSubIdx (pstr "\n---\n") t).map (· + l.length) := by
  have hpat : pstr "\n---\n" = 10 :: pstr "---\n" := by decide
  induction l with
  | nil =>
    simp only [List.nil_append, List.length_nil]
    cases findSubIdx (pstr "\n---\n") t <;> simp
  | cons x xs ih =>
    have hx : x ≠ 10 := hnl x (List.mem_cons_self x xs)
    rw [List.cons_append, findSubIdx, if_neg ?hpre]
    case hpre =>
      intro hpre
      rw [List.isPrefixOf_iff_prefix, hpat] at hpre
      exact hx ((List.cons_prefix_cons.mp hpre).1).symm
    case _ =>
      rw [ih (fun c hc => hnl c (List.mem_cons_of_mem x hc))]
      cases findSubIdx (pstr "\n---\n") t <;> simp <;> omega

theorem not_dash_nl_prefix (l rest : PyStr) (hnl : ∀ c ∈ l, c ≠ 10)
    (hne : l ≠ pstr "---") :
    ¬ (List.isPrefixOf (pstr "---\n") (l ++ 10 :: rest) = true) := by
  have hpat : pstr "---\n" = [45, 45, 45, 10] := by decide
  have hdash : pstr "---" = [45, 45, 45] := by decide
  rw [hpat]
  match l with
  | [] =>
    intro h
    simp [List.isPrefixOf] at h
  | [a] =>
    intro h
    simp [List.isPrefixOf] at h
  | [a, b] =>
    intro h
    simp [List.isPrefixOf] at h
  | [a, b, c] =>
    intro h
    simp [List.isPrefixOf] at h
    obtain ⟨h1, h2, h3⟩ := h
    subst h1; subst h2; subst h3
    exact hne (by rw [hdash])
  | a :: b :: c :: d :: t =>
    intro h
    simp [List.isPrefixOf] at h
    exact hnl d (by simp) h.2.2.2.symm

theorem findSubIdx_joinLines (L : List PyStr) (t : PyStr)
    (h10 : ∀ l ∈ L, ∀ c ∈ l, c ≠ 10) (hd : ∀ l ∈ L, l ≠ pstr "---") :
    findSubIdx (pstr "\n---\n") (10 :: (joinLines L ++ (pstr "---\n" ++ t)))
      = some (joinLines L).length := by
  have hpat : pstr "\n---\n" = 10 :: pstr "---\n" := by decide
  induction L with
  | nil =>
    rw [findSubIdx, if_pos]
    · simp [joinLines]
    · rw [List.isPrefixOf_iff_prefix, hpat]
      simp only [joinLines, List.flatMap_nil, List.nil_append]
      exact List.cons_prefix_cons.mpr ⟨rfl, List.prefix_append _ _⟩
  | cons l ls ih =>
    have hl10 : ∀ c ∈ l, c ≠ 10 := h10 l (by simp)
    have hJ : joinLines (l :: ls) = l ++ 10 :: joinLines ls := by
      simp [joinLines]
    rw [hJ]
    have hassoc : (l ++ 10 :: joinLines ls) ++ (pstr "---\n" ++ t) =
        l ++ 10 :: (joinLines ls ++ (pstr "---\n" ++ t)) := by
      simp [List.append_assoc]
    rw [hassoc, findSubIdx, if_neg ?hpre]
    case hpre =>
      intro hpre
      rw [List.isPrefixOf_iff_prefix, hpat] at hpre
      have h2 := (List.cons_prefix_cons.mp hpre).2
      exact not_dash_nl_prefix l _ hl10 (hd l (by simp))
        (by rw [List.isPrefixOf_iff_prefix]; exact h2)
    case _ =>
      rw [findSubIdx_nl_append l _ hl10,
        ih (fun x hx => h10 x (List.mem_cons_of_mem l hx))
           (fun x hx => hd x (List.mem_cons_of_mem l hx))]
      simp [List.length_append]
      omega

theorem pySplitChar_ne_nil (c : Nat) (s : PyStr) : pySplitChar c s ≠ [] := by
  induction s with
  | nil => simp [pySplitChar]
  | cons x xs ih =>
    rw [pySplitChar]
    cases hsp : pySplitChar c xs with
    | nil => exact absurd hsp ih
    | cons hh tt =>
      simp only []
      split <;> simp

theorem pySplitChar_no_sep (c : Nat) (l : PyStr) (h : ∀ x ∈ l, x ≠ c) :
    pySplitChar c l = [l] := by
  induction l with
  | nil => rfl
  | cons x xs ih =>
    rw [pySplitChar, ih (fun y hy => h y (List.mem_cons_of_mem _ hy))]
    simp only []
    rw [if_neg (h x (List.mem_cons_self x xs))]

theorem pySplitChar_append_line (l t : PyStr) (h : ∀ x ∈ l, x ≠ 10) :
    pySplitChar 10 (l ++ 10 :: t) = l :: pySplitChar 10 t := by
  induction l with
  | nil =>
    rw [List.nil_append, pySplitChar]
    cases h' : pySplitChar 10 t with
    | nil => exact absurd h' (pySplitChar_ne_nil _ _)
    | cons hh tt => simp
  | cons x xs ih =>
    rw [List.cons_append, pySplitChar, ih (fun y hy => h y (List.mem_cons_of_mem _ hy))]
    simp only []
    rw [if_neg (h x (List.mem_cons_self x xs))]

theorem pySplitChar_dropLast_joinLines (L : List PyStr) (hne : L ≠ [])
    (h : ∀ l ∈ L, ∀ c ∈ l, c ≠ 10) :
    pySplitChar 10 ((joinLines L).dropLast) = L := by
  induction L with
  | nil => exact absurd rfl hne
  | cons l ls ih =>
    cases ls with
    | nil =>
      have hJ : joinLines [l] = l ++ [10] := by simp [joinLines]
      rw [hJ, List.dropLast_concat]
      exact pySplitChar_no_sep 10 l (h l (by simp))
    | cons l2 ls2 =>
      have hJ : joinLines (l :: l2 :: ls2) = l ++ 10 :: joinLines (l2 :: ls2) := by
        simp [joinLines]
      have hJne : joinLines (l2 :: ls2) ≠ [] := by
        simp [joinLines]
      rw [hJ, List.dropLast_append_of_ne_nil _ (by simp),
        List.dropLast_cons_of_ne_nil hJne,
        pySplitChar_append_line l _ (h l (by simp)),
        ih (by simp) (fun x hx => h x (List.mem_cons_of_mem l hx))]

theorem yamlUnescape_cons_of_ne (c : Nat) (rest : PyStr) (h : c ≠ 92) :
    yamlUnescape (c :: rest) = c :: yamlUnescape rest := by
  rw [yamlUnescape.eq_def]
  split
  · rename_i heq; exact absurd heq (by simp)
  · rename_i heq; exact absurd (List.cons_eq_cons.mp heq).1 h
  · rename_i heq; exact absurd (List.cons_eq_cons.mp heq).1 h
  · rename_i heq; exact absurd (List.cons_eq_cons.mp heq).1 h
  · rename_i heq
    obtain ⟨h1, h2⟩ := List.cons_eq_cons.mp heq
    rw [← h1, ← h2]

theorem yamlUnescape_escape (v : PyStr) : yamlUnescape (yamlEscape v) = v := by
  induction v with
  | nil => rfl
  | cons c t ih =>
    have hstep : yamlEscape (c :: t) =
        (if c = 92 then [92, 92] else if c = 34 then [92, 34]
         else if c = 10 then [92, 110] else [c]) ++ yamlEscape t := rfl
    rw [hstep]
    by_cases h92 : c = 92
    · subst h92
      simpa [yamlUnescape] using ih
    · by_cases h34 : c = 34
      · subst h34
        simpa [h92, yamlUnescape] using ih
      · by_cases h10 : c = 10
        · subst h10
          simpa [h92, h34, yamlUnescape] using ih
        · rw [if_neg h92, if_neg h34, if_neg h10, List.cons_append, List.nil_append,
            yamlUnescape_cons_of_ne c _ h92, ih]

theorem yamlParseScalar_cons_of_ne (c : Nat) (rest : PyStr) (h : c ≠ 34) :
    yamlParseScalar (c :: rest) = c :: rest := by
  rw [yamlParseScalar.eq_def]
  split
  · rename_i heq; exact absurd (List.cons_eq_cons.mp heq).1 h
  · rfl

theorem yamlParseScalar_render (v : PyStr) : yamlParseScalar (yamlRenderScalar v) = v := by
  unfold yamlRenderScalar
  split <;> rename_i hq
  · show yamlParseScalar (34 :: (yamlEscape v ++ [34])) = v
    rw [yamlParseScalar]
    have hlen : (yamlEscape v ++ [34]).length - 1 = (yamlEscape v).length := by
      simp
    rw [hlen, List.take_left]
    exact yamlUnescape_escape v
  · match v, hq with
    | [], hq => rfl
    | c :: t, hq =>
      have hc : c ≠ 34 := by
        intro h
        subst h
        exact hq (by
          unfold yamlNeedsQuote
          rw [decide_eq_true_iff]
          exact Or.inr (Or.inr (Or.inl ((hasChar_iff_mem _ 34).mpr (by simp)))))
      exact yamlParseScalar_cons_of_ne c t hc

theorem startsWithP_append_self (a x : PyStr) : startsWithP (a ++ x) a = true := by
  unfold startsWithP
  rw [List.isPrefixOf_iff_prefix]
  exact List.prefix_append a x

theorem yamlLookup_toYamlLines (m : PageMetadata) :
    yamlLookup (pstr "content_hash") ([] :: toYamlLines m) = some m.content_hash := by
  have hnil : startsWithP [] (pstr "content_hash" ++ pstr ": ") = false := by decide
  have hkey : pstr "content_hash" ++ pstr ": " = pstr "content_hash: " := by decide
  rw [yamlLookup, hnil]
  show yamlLookup (pstr "content_hash") (toYamlLines m) = some m.content_hash
  unfold toYamlLines
  rw [List.cons_append, yamlLookup,
    show startsWithP (pstr "source_url: " ++ yamlRenderScalar m.source_url)
      (pstr "content_hash" ++ pstr ": ") = false from rfl]
  rw [List.cons_append, yamlLookup,
    show startsWithP (pstr "title: " ++ yamlRenderScalar m.title)
      (pstr "content_hash" ++ pstr ": ") = false from rfl]
  rw [List.cons_append, yamlLookup,
    show startsWithP (pstr "crawl_timestamp: " ++ yamlRenderScalar m.crawl_timestamp)
      (pstr "content_hash" ++ pstr ": ") = false from rfl]
  rw [List.cons_append, yamlLookup, hkey, startsWithP_append_self]
  simp only [if_true]
  have hdrop : (pstr "content_hash: " ++ yamlRenderScalar m.content_hash).drop
      ((pstr "content_hash").length + 2) = yamlRenderScalar m.content_hash := by
    have h14 : (pstr "content_hash").length + 2 = (pstr "content_hash: ").length := by decide
    rw [h14, List.drop_left]
  rw [hdrop, yamlParseScalar_render]
  simp

theorem pySplitChar_cons_sep (c : Nat) (z : PyStr) :
    pySplitChar c (c :: z) = [] :: pySplitChar c z := by
  rw [pySplitChar]
  cases hsp : pySplitChar c z with
  | nil => exact absurd hsp (pySplitChar_ne_nil _ _)
  | cons hh tt => simp

/-- The round trip at the heart of C1 and C2: the file composed by
`MarkdownStorage.save` parses back to its `content_hash` and its body. -/
theorem composedFile_roundtrip (m : PageMetadata) (md : PyStr) :
    extract_hash_from_file (composedFile m md) = some m.content_hash ∧
    bodyAfterFrontMatter (composedFile m md) = some md := by
  have h10 := toYamlLines_no_newline m
  have hdash := toYamlLines_ne_dash m
  have hLne : toYamlLines m ≠ [] := by simp [toYamlLines]
  have hYne : to_yaml m ≠ [] := by
    unfold to_yaml
    rcases hL : toYamlLines m with _ | ⟨l, ls⟩
    · exact absurd hL hLne
    · simp [joinLines]
  have hshape : composedFile m md =
      pstr "---" ++ (10 :: (to_yaml m ++ (pstr "---\n" ++ (10 :: md)))) := by
    unfold composedFile
    rw [show pstr "---\n\n" = pstr "---\n" ++ [10] from by decide,
      show pstr "---\n" = pstr "---" ++ [10] from by decide]
    simp [List.append_assoc]
  have hsw : startsWithP (composedFile m md) (pstr "---") = true := by
    rw [hshape]; exact startsWithP_append_self _ _
  have hdrop3 : (composedFile m md).drop 3 =
      10 :: (to_yaml m ++ (pstr "---\n" ++ (10 :: md))) := by
    rw [hshape, show (3 : Nat) = (pstr "---").length from by decide, List.drop_left]
  have hfind : findSubIdx (pstr "\n---\n") ((composedFile m md).drop 3)
      = some (to_yaml m).length := by
    rw [hdrop3]
    exact findSubIdx_joinLines (toYamlLines m) (10 :: md) h10 hdash
  have hYpos : 1 ≤ (to_yaml m).length := List.length_pos.mpr hYne
  have htake : (10 :: (to_yaml m ++ (pstr "---\n" ++ (10 :: md)))).take (to_yaml m).length
      = 10 :: (to_yaml m).dropLast := by
    rw [show (to_yaml m).length = ((to_yaml m).length - 1) + 1 from by omega,
      List.take_succ_cons,
      List.take_append_of_le_length (by omega),
      ← List.dropLast_eq_take]
  have hsplit : pySplitChar 10 (10 :: (to_yaml m).dropLast) = [] :: toYamlLines m := by
    rw [pySplitChar_cons_sep]
    show [] :: pySplitChar 10 ((joinLines (toYamlLines m)).dropLast) = _
    rw [pySplitChar_dropLast_joinLines (toYamlLines m) hLne h10]
  constructor
  · unfold extract_hash_from_file
    rw [hsw, hfind]
    simp only [Bool.true_eq_false, not_true, if_false, ite_false, not_true_eq_false]
    rw [hdrop3, htake, hsplit, yamlLookup_toYamlLines]
  · unfold bodyAfterFrontMatter
    rw [hsw, hfind]
    simp only [Bool.true_eq_false, not_true, if_false, ite_false, not_true_eq_false]
    rw [hdrop3]
    have hdropbody : (10 :: (to_yaml m ++ (pstr "---\n" ++ (10 :: md)))).drop
        ((to_yaml m).length + 5) = 10 :: md := by
      rw [show (to_yaml m).length + 5 = ((to_yaml m).length + 4) + 1 from by omega,
        List.drop_succ_cons,
        show (to_yaml m).length + 4 = (to_yaml m).length + 4 from rfl]
      rw [show ((to_yaml m ++ (pstr "---\n" ++ (10 :: md))).drop ((to_yaml m).length + 4)
            = (pstr "---\n" ++ (10 :: md)).drop 4) from List.drop_append 4,
        show (4 : Nat) = (pstr "---\n").length from by decide, List.drop_left]
    rw [hdropbody]

theorem fsSet_same (fs : FS) (p : PyStr) (v : Option PyStr) : fsSet fs p v p = v := by
  simp [fsSet]

theorem fsSet_other (fs : FS) (p : PyStr) (v : Option PyStr) (q : PyStr) (h : q ≠ p) :
    fsSet fs p v q = fs q := by
  simp [fsSet, h]

theorem ne_append_tmp (l : PyStr) : l ≠ l ++ pstr ".tmp" := by
  intro h
  have hlen := congrArg List.length h
  rw [List.length_append] at hlen
  have h4 : (pstr ".tmp").length = 4 := by decide
  omega

/-- Unfolding of `MarkdownStorage.save` once the filename is computed. -/
theorem save_unfold (fs : FS) (url title md now : PyStr) (wc : Nat) (hs : List PyStr)
    (force : Bool) (sched : FailSched) (fname : PyStr)
    (hname : url_to_filename url = Except.ok fname) :
    MarkdownStorage.save fs url title md wc hs now force sched =
      (let filepath := fname ++ pstr ".md"
       let content_hash := compute_hash md
       if ¬ force ∧ (fs filepath).isSome ∧ get_file_hash fs filepath = some content_hash then
         .skipped filepath fs
       else
         let file_content := composedFile ⟨url, title, now, content_hash, wc, hs⟩ md
         let temp := filepath ++ pstr ".tmp"
         if sched.failWrite then
           .raised (fsSet (fsSet fs temp (some (file_content.take sched.partialLen))) temp none)
         else
           let fs1 := fsSet fs temp (some file_content)
           if (fs filepath).isSome then
             if sched.failUnlink then .raised (fsSet fs1 temp none)
             else
               let fs2 := fsSet fs1 filepath none
               if sched.failRename then .raised (fsSet fs2 temp none)
               else .saved filepath (fsSet (fsSet fs2 filepath (some file_content)) temp none)
           else
             if sched.failRename then .raised (fsSet fs1 temp none)
             else .saved filepath (fsSet (fsSet fs1 filepath (some file_content)) temp none)) := by
  unfold MarkdownStorage.save
  rw [hname]

/-! ## C1 — content-hash agreement -/

/-- C1 (confirmed): every page file written by `MarkdownStorage.save` stores
in `content_hash` exactly the SHA-256 hex digest of the UTF-8 encoding of
the body that follows the closing `---` line and the blank line: the file
written at `path` is the composed file, its extracted front-matter hash is
`compute_hash markdown_content` (the SHA-256 of the UTF-8 body), and the
body read back after the closing delimiter and blank line is byte-for-byte
the stored markdown. -/
theorem C1_content_hash_agreement (fs : FS) (url title md now : PyStr) (wc : Nat)
    (hs : List PyStr) (force : Bool) (sched : FailSched) (fname path : PyStr) (fs' : FS)
    (hname : url_to_filename url = Except.ok fname)
    (hsave : MarkdownStorage.save fs url title md wc hs now force sched =
      .saved path fs') :
    fs' path = some (composedFile ⟨url, title, now, compute_hash md, wc, hs⟩ md)
    ∧ extract_hash_from_file (composedFile ⟨url, title, now, compute_hash md, wc, hs⟩ md)
      = some (compute_hash md)
    ∧ bodyAfterFrontMatter (composedFile ⟨url, title, now, compute_hash md, wc, hs⟩ md)
      = some md := by
  rw [save_unfold fs url title md now wc hs force sched fname hname] at hsave
  simp only [] at hsave
  refine ⟨?_, (composedFile_roundtrip _ md).1, (composedFile_roundtrip _ md).2⟩
  split at hsave
  · exact (SaveOutcome.noConfusion hsave)
  · split at hsave
    · exact (SaveOutcome.noConfusion hsave)
    · split at hsave
      · split at hsave
        · exact (SaveOutcome.noConfusion hsave)
        · split at hsave
          · exact (SaveOutcome.noConfusion hsave)
          · obtain ⟨hp, hf⟩ := SaveOutcome.saved.inj hsave
            subst hp
            rw [← hf, fsSet_other _ _ _ _ (ne_append_tmp _), fsSet_same]
      · split at hsave
        · exact (SaveOutcome.noConfusion hsave)
        · obtain ⟨hp, hf⟩ := SaveOutcome.saved.inj hsave
          subst hp
          rw [← hf, fsSet_other _ _ _ _ (ne_append_tmp _), fsSet_same]

/-! ## C2 — unchanged content is skipped and the file untouched -/

/-- C2 (confirmed): when the page file exists and its stored `content_hash`
equals the SHA-256 of the new body, `MarkdownStorage.save` without `force`
returns `(False, path)` and performs no file-system operation at all (the
returned file system is the input one); consequently the file is overwritten
only when the stored hash differs from the new body's hash. -/
theorem C2_skip_unchanged (fs : FS) (url title md now : PyStr) (wc : Nat)
    (hs : List PyStr) (sched : FailSched) (fname c : PyStr)
    (hname : url_to_filename url = Except.ok fname)
    (hex : fs (fname ++ pstr ".md") = some c)
    (hhash : extract_hash_from_file c = some (compute_hash md)) :
    MarkdownStorage.save fs url title md wc hs now false sched =
      .skipped (fname ++ pstr ".md") fs := by
  rw [save_unfold fs url title md now wc hs false sched fname hname]
  simp only []
  rw [if_pos]
  exact ⟨by simp, by simp [hex], by simp [get_file_hash, hex, hhash]⟩

/-- C2 (witness): the skip theorem applied to a file system holding exactly the
previously composed page for the same body. -/
theorem C2_witness :
    MarkdownStorage.save
      (fsSet (fun _ => none) (pstr "h_x.md")
        (some (composedFile ⟨pstr "http://h/x", pstr "T", pstr "now",
          compute_hash (pstr "B"), 1, []⟩ (pstr "B"))))
      (pstr "http://h/x") (pstr "T") (pstr "B") 1 [] (pstr "now2") false noFail =
      .skipped (pstr "h_x" ++ pstr ".md")
        (fsSet (fun _ => none) (pstr "h_x.md")
          (some (composedFile ⟨pstr "http://h/x", pstr "T", pstr "now",
            compute_hash (pstr "B"), 1, []⟩ (pstr "B")))) :=
  C2_skip_unchanged _ _ _ _ _ _ _ noFail (pstr "h_x") _
    (by rfl)
    (by rw [show pstr "h_x" ++ pstr ".md" = pstr "h_x.md" from by decide, fsSet_same])
    ((composedFile_roundtrip _ (pstr "B")).1)

/-- C1 (witness): the agreement theorem applied to a concrete successful
save on an empty file system. -/
theorem C1_witness :
    bodyAfterFrontMatter (composedFile ⟨pstr "http://h/x", pstr "T", pstr "now",
        compute_hash (pstr "B"), 1, []⟩ (pstr "B")) = some (pstr "B") :=
  (C1_content_hash_agreement (fun _ => none) (pstr "http://h/x") (pstr "T") (pstr "B")
    (pstr "now") 1 [] false noFail (pstr "h_x") _ _ (by rfl) rfl).2.2

/-! ## C3 — the save path is fail-closed but not atomic -/

/-- C3 (counterexample): the claim says that when an error occurs during a
save the previously stored target file is left intact (commit or roll
back); but `MarkdownStorage.save` deletes the target *before* the rename,
so when the rename raises, the cleanup deletes the temp file and the old
target `"old"` is gone: the save raised yet the target path holds nothing. -/
theorem C3_counterexample :
    (MarkdownStorage.save
        (fsSet (fun _ => none) (pstr "h_x.md") (some (pstr "old")))
        (pstr "http://h/x") (pstr "T") (pstr "new body") 2 [] (pstr "now") false
        ⟨false, false, true, 0⟩).isRaised = true
    ∧ (MarkdownStorage.save
        (fsSet (fun _ => none) (pstr "h_x.md") (some (pstr "old")))
        (pstr "http://h/x") (pstr "T") (pstr "new body") 2 [] (pstr "now") false
        ⟨false, false, true, 0⟩).finalFS
        (fsSet (fun _ => none) (pstr "h_x.md") (some (pstr "old"))) (pstr "h_x.md")
      = none := by
  refine ⟨by decide, by decide⟩

/-- C3 (amended): `MarkdownStorage.save` writes to `path + ".tmp"`, deletes
any existing target, renames, and on error deletes the temp file and
re-raises — so the temp file never survives and an error before the target
deletion (during the temp write, or at the unlink itself) leaves the target
intact; but the save is not atomic: an error at the rename step, after an
existing target was deleted, loses the previous file (the target holds
nothing, neither old nor new content). -/
theorem C3_amended (fs : FS) (url title md now : PyStr) (wc : Nat) (hs : List PyStr)
    (force : Bool) (sched : FailSched) (fname : PyStr)
    (hname : url_to_filename url = Except.ok fname)
    (hnoskip : ¬ (¬ force = true ∧ (fs (fname ++ pstr ".md")).isSome = true ∧
      get_file_hash fs (fname ++ pstr ".md") = some (compute_hash md))) :
    (MarkdownStorage.save fs url title md wc hs now force sched).finalFS fs
      ((fname ++ pstr ".md") ++ pstr ".tmp") = none
    ∧ (sched.failWrite = false → sched.failRename = false →
        (sched.failUnlink = false ∨ (fs (fname ++ pstr ".md")).isSome = false) →
        (MarkdownStorage.save fs url title md wc hs now force sched).isRaised = false
        ∧ (MarkdownStorage.save fs url title md wc hs now force sched).finalFS fs
            (fname ++ pstr ".md")
          = some (composedFile ⟨url, title, now, compute_hash md, wc, hs⟩ md))
    ∧ (sched.failWrite = true →
        (MarkdownStorage.save fs url title md wc hs now force sched).isRaised = true
        ∧ (MarkdownStorage.save fs url title md wc hs now force sched).finalFS fs
            (fname ++ pstr ".md")
          = fs (fname ++ pstr ".md"))
    ∧ (sched.failWrite = false → sched.failUnlink = true →
        (fs (fname ++ pstr ".md")).isSome = true →
        (MarkdownStorage.save fs url title md wc hs now force sched).isRaised = true
        ∧ (MarkdownStorage.save fs url title md wc hs now force sched).finalFS fs
            (fname ++ pstr ".md")
          = fs (fname ++ pstr ".md"))
    ∧ (sched.failWrite = false → sched.failUnlink = false → sched.failRename = true →
        (fs (fname ++ pstr ".md")).isSome = true →
        (MarkdownStorage.save fs url title md wc hs now force sched).isRaised = true
        ∧ (MarkdownStorage.save fs url title md wc hs now force sched).finalFS fs
            (fname ++ pstr ".md")
          = none) := by
  have hft : (fname ++ pstr ".md") ≠ ((fname ++ pstr ".md") ++ pstr ".tmp") :=
    ne_append_tmp _
  rw [save_unfold fs url title md now wc hs force sched fname hname]
  simp only []
  rw [if_neg hnoskip]
  by_cases hW : sched.failWrite = true
  · simp only [hW, if_true]
    refine ⟨by rw [SaveOutcome.finalFS, fsSet_same], ?_, ?_, ?_, ?_⟩
    · intro h _ _; simp [hW] at h
    · intro _
      refine ⟨rfl, ?_⟩
      rw [SaveOutcome.finalFS, fsSet_other _ _ _ _ hft, fsSet_other _ _ _ _ hft]
    · intro h _ _; simp [hW] at h
    · intro h _ _ _; simp [hW] at h
  · rw [Bool.not_eq_true] at hW
    simp only [hW, Bool.false_eq_true, if_false]
    by_cases hex : (fs (fname ++ pstr ".md")).isSome = true
    · simp only [hex, if_true]
      by_cases hU : sched.failUnlink = true
      · simp only [hU, if_true]
        refine ⟨by rw [SaveOutcome.finalFS, fsSet_same], ?_, ?_, ?_, ?_⟩
        · intro _ _ hor
          rcases hor with h | h
          · simp [hU] at h
          · simp [hex] at h
        · intro h; simp [hW] at h
        · intro _ _ _
          refine ⟨rfl, ?_⟩
          rw [SaveOutcome.finalFS, fsSet_other _ _ _ _ hft, fsSet_other _ _ _ _ hft]
        · intro _ h _ _; simp [hU] at h
      · rw [Bool.not_eq_true] at hU
        simp only [hU, Bool.false_eq_true, if_false]
        by_cases hR : sched.failRename = true
        · simp only [hR, if_true]
          refine ⟨by rw [SaveOutcome.finalFS, fsSet_same], ?_, ?_, ?_, ?_⟩
          · intro _ h _; simp [hR] at h
          · intro h; simp [hW] at h
          · intro _ h _; simp [hU] at h
          · intro _ _ _ _
            refine ⟨rfl, ?_⟩
            rw [SaveOutcome.finalFS, fsSet_other _ _ _ _ hft, fsSet_same]
        · rw [Bool.not_eq_true] at hR
          simp only [hR, Bool.false_eq_true, if_false]
          refine ⟨?_, ?_, ?_, ?_, ?_⟩
          · rw [SaveOutcome.finalFS, fsSet_same]
          · intro _ _ _
            refine ⟨rfl, ?_⟩
            rw [SaveOutcome.finalFS, fsSet_other _ _ _ _ hft, fsSet_same]
          · intro h; simp [hW] at h
          · intro _ h _; simp [hU] at h
          · intro _ _ h _; simp [hR] at h
    · rw [Bool.not_eq_true] at hex
      simp only [hex, Bool.false_eq_true, if_false]
      by_cases hR : sched.failRename = true
      · simp only [hR, if_true]
        refine ⟨by rw [SaveOutcome.finalFS, fsSet_same], ?_, ?_, ?_, ?_⟩
        · intro _ h _; simp [hR] at h
        · intro h; simp [hW] at h
        · intro _ _ h; simp [hex] at h
        · intro _ _ _ h; simp [hex] at h
      · rw [Bool.not_eq_true] at hR
        simp only [hR, Bool.false_eq_true, if_false]
        refine ⟨?_, ?_, ?_, ?_, ?_⟩
        · rw [SaveOutcome.finalFS, fsSet_same]
        · intro _ _ _
          refine ⟨rfl, ?_⟩
          rw [SaveOutcome.finalFS, fsSet_other _ _ _ _ hft, fsSet_same]
        · intro h; simp [hW] at h
        · intro _ _ h; simp [hex] at h
        · intro _ _ _ h; simp [hex] at h

/-! ## C4 — frontier uniqueness -/

theorem URLQueue.add_ok (st : URLQueueState) (url : PyStr) (depth : Nat) (n : PyStr)
    (hn : normalize_url url = Except.ok n) :
    URLQueue.add st url depth =
      (if n ∈ st.seen then Except.ok (false, st)
       else Except.ok (true, ⟨st.queue ++ [(url, depth)], st.seen ++ [n]⟩)) := by
  unfold URLQueue.add
  rw [hn]
  rfl

theorem URLQueue.add_err (st : URLQueueState) (url : PyStr) (depth : Nat) (e : Unit)
    (hn : normalize_url url = Except.error e) :
    URLQueue.add st url depth = Except.error e := by
  unfold URLQueue.add
  rw [hn]
  rfl

theorem URLQueue.mark_seen_ok (st : URLQueueState) (url : PyStr) (n : PyStr)
    (hn : normalize_url url = Except.ok n) :
    URLQueue.mark_seen st url =
      (if n ∈ st.seen then Except.ok st
       else Except.ok ⟨st.queue, st.seen ++ [n]⟩) := by
  unfold URLQueue.mark_seen
  rw [hn]
  rfl

theorem URLQueue.mark_seen_err (st : URLQueueState) (url : PyStr) (e : Unit)
    (hn : normalize_url url = Except.error e) :
    URLQueue.mark_seen st url = Except.error e := by
  unfold URLQueue.mark_seen
  rw [hn]
  rfl

theorem qstep_inv (st : URLQueueState) (outs : List (PyStr × Nat)) (op : QOp)
    (h : QInv st outs) : QInv (qstep st op).1 (outs ++ (qstep st op).2.toList) := by
  obtain ⟨hpw, hseen⟩ := h
  cases op with
  | add url depth =>
    rw [qstep]
    cases hn : normalize_url url with
    | error e =>
      rw [URLQueue.add_err st url depth e hn]
      simp only [Option.toList, List.append_nil]
      exact ⟨by simpa using hpw, fun x hx => hseen x (by simpa using hx)⟩
    | ok n =>
      rw [URLQueue.add_ok st url depth n hn]
      by_cases hmem : n ∈ st.seen
      · rw [if_pos hmem]
        simp only [Option.toList, List.append_nil]
        exact ⟨by simpa using hpw, fun x hx => hseen x (by simpa using hx)⟩
      · rw [if_neg hmem]
        simp only [Option.toList, List.append_nil]
        constructor
        · show List.Pairwise _ (outs ++ (st.queue ++ [(url, depth)]))
          rw [← List.append_assoc, List.pairwise_append]
          refine ⟨hpw, by simp, ?_⟩
          intro a ha b hb
          simp only [List.mem_singleton] at hb
          subst hb
          obtain ⟨na, hna, hnaseen⟩ := hseen a ha
          rw [hna, hn]
          intro hcontra
          exact hmem (by rwa [← Except.ok.inj hcontra])
        · intro x hx
          show ∃ n2, normalize_url x.1 = Except.ok n2 ∧ n2 ∈ st.seen ++ [n]
          rw [← List.append_assoc] at hx
          rcases List.mem_append.mp hx with hx | hx
          · obtain ⟨nx, hnx, hnxseen⟩ := hseen x hx
            exact ⟨nx, hnx, List.mem_append_left _ hnxseen⟩
          · simp only [List.mem_singleton] at hx
            subst hx
            exact ⟨n, hn, List.mem_append_right _ (by simp)⟩
  | get =>
    rw [qstep]
    unfold URLQueue.get
    cases hq : st.queue with
    | nil =>
      constructor
      · simpa [hq] using hpw
      · intro x hx
        exact hseen x (by simpa [hq] using hx)
    | cons y rest =>
      constructor
      · show List.Pairwise _ ((outs ++ [y]) ++ rest)
        rw [List.append_assoc]
        simpa [hq] using hpw
      · intro x hx
        refine hseen x ?_
        rw [hq]
        rw [List.append_assoc] at hx
        simpa using hx
  | markSeen url =>
    rw [qstep]
    cases hn : normalize_url url with
    | error e =>
      rw [URLQueue.mark_seen_err st url e hn]
      simp only [Option.toList, List.append_nil]
      exact ⟨by simpa using hpw, fun x hx => hseen x (by simpa using hx)⟩
    | ok n =>
      rw [URLQueue.mark_seen_ok st url n hn]
      by_cases hmem : n ∈ st.seen
      · rw [if_pos hmem]
        simp only [Option.toList, List.append_nil]
        exact ⟨by simpa using hpw, fun x hx => hseen x (by simpa using hx)⟩
      · rw [if_neg hmem]
        simp only [Option.toList, List.append_nil]
        refine ⟨by simpa using hpw, ?_⟩
        intro x hx
        obtain ⟨nx, hnx, hnxseen⟩ := hseen x (by simpa using hx)
        exact ⟨nx, hnx, List.mem_append_left _ hnxseen⟩

theorem qrun_inv (ops : List QOp) (st : URLQueueState) (outs : List (PyStr × Nat))
    (h : QInv st outs) : QInv (qrun st ops).1 (outs ++ (qrun st ops).2) := by
  induction ops generalizing st outs with
  | nil => simpa [qrun] using h
  | cons op ops ih =>
    rw [qrun]
    have := ih (qstep st op).1 (outs ++ (qstep st op).2.toList) (qstep_inv st outs op h)
    simpa [List.append_assoc] using this

/-- C4 (confirmed): `URLQueue.add` normalizes the URL, tests the seen set,
inserts into both the seen set and the queue exactly when the normalized
form was not already seen, and returns `True` iff it inserted; consequently,
over any sequence of queue operations starting from an empty queue, the
canonical (normalized) forms of the successfully dequeued URLs are pairwise
distinct — each canonical URL is dequeued at most once. -/
theorem C4_frontier_uniqueness (ops : List QOp) (st : URLQueueState)
    (url n : PyStr) (depth : Nat) (hn : normalize_url url = Except.ok n) :
    List.Pairwise (fun a b => normalize_url a.1 ≠ normalize_url b.1)
      (qrun URLQueue.empty ops).2
    ∧ URLQueue.add st url depth =
        (if n ∈ st.seen then Except.ok (false, st)
         else Except.ok (true, ⟨st.queue ++ [(url, depth)], st.seen ++ [n]⟩)) := by
  constructor
  · have h0 : QInv URLQueue.empty [] := by
      constructor
      · simp [URLQueue.empty]
      · intro x hx
        simp [URLQueue.empty] at hx
    have := (qrun_inv ops URLQueue.empty [] h0).1
    simp only [List.nil_append] at this
    exact (List.pairwise_append.mp this).1
  · exact URLQueue.add_ok st url depth n hn

/-! ## C5 — canonicalization: UTF-8 and percent-coding round trips -/

theorem utf8Decode_cons (b : Nat) (bs : List Nat) :
    utf8Decode (b :: bs) = (utf8Step b bs).1 :: utf8Decode (bs.drop (utf8Step b bs).2) := by
  rw [utf8Decode]

theorem utf8Decode_encodeChar (c : Nat) (h : ValidScalar c) (rest : List Nat) :
    utf8Decode (utf8EncodeChar c ++ rest) = c :: utf8Decode rest := by
  obtain ⟨hlt, hsur⟩ := h
  by_cases h1 : c < 0x80
  · rw [show utf8EncodeChar c = [c] from by rw [utf8EncodeChar, if_pos h1]]
    rw [List.cons_append, List.nil_append, utf8Decode_cons,
      show utf8Step c rest = (c, 0) from by rw [utf8Step.eq_def, if_pos h1]]
    simp
  · by_cases h2 : c < 0x800
    · rw [show utf8EncodeChar c = [0xC0 + c / 64, 0x80 + c % 64] from by
        rw [utf8EncodeChar, if_neg h1, if_pos h2]]
      rw [List.cons_append, List.cons_append, List.nil_append, utf8Decode_cons,
        show utf8Step (0xC0 + c / 64) ((0x80 + c % 64) :: rest) = (c, 1) from by
          rw [utf8Step, if_neg (by omega), if_pos (by omega)]
          rw [if_pos (by simp only [isContByte, decide_eq_true_iff]; omega)]
          exact congrArg (fun x => (x, 1)) (by omega)]
      simp
    · by_cases h3 : c < 0x10000
      · rw [show utf8EncodeChar c =
            [0xE0 + c / 4096, 0x80 + c / 64 % 64, 0x80 + c % 64] from by
          rw [utf8EncodeChar, if_neg h1, if_neg h2, if_pos h3]]
        rw [List.cons_append, List.cons_append, List.cons_append, List.nil_append,
          utf8Decode_cons,
          show utf8Step (0xE0 + c / 4096) ((0x80 + c / 64 % 64) :: (0x80 + c % 64) :: rest)
              = (c, 2) from by
            rw [utf8Step, if_neg (by omega), if_neg (by omega), if_pos (by omega)]
            show (if ((isContByte (0x80 + c / 64 % 64) ∧ isContByte (0x80 + c % 64))
                ∧ (0xE0 + c / 4096 = 0xE0 → 0xA0 ≤ 0x80 + c / 64 % 64)
                ∧ (0xE0 + c / 4096 = 0xED → 0x80 + c / 64 % 64 ≤ 0x9F)) then
                ((0xE0 + c / 4096 - 0xE0) * 4096 + (0x80 + c / 64 % 64 - 0x80) * 64
                  + (0x80 + c % 64 - 0x80), 2)
              else (replChar, 0)) = (c, 2)
            rw [if_pos ?hcond]
            case hcond =>
              refine ⟨⟨?_, ?_⟩, ?_, ?_⟩
              · simp only [isContByte, decide_eq_true_iff]; omega
              · simp only [isContByte, decide_eq_true_iff]; omega
              · intro hE0; omega
              · intro hED; omega
            exact congrArg (fun x => (x, 2)) (by omega)]
        simp
      · rw [show utf8EncodeChar c =
            [0xF0 + c / 262144, 0x80 + c / 4096 % 64, 0x80 + c / 64 % 64, 0x80 + c % 64]
            from by rw [utf8EncodeChar, if_neg h1, if_neg h2, if_neg h3]]
        rw [List.cons_append, List.cons_append, List.cons_append, List.cons_append,
          List.nil_append, utf8Decode_cons,
          show utf8Step (0xF0 + c / 262144)
              ((0x80 + c / 4096 % 64) :: (0x80 + c / 64 % 64) :: (0x80 + c % 64) :: rest)
              = (c, 3) from by
            rw [utf8Step, if_neg (by omega), if_neg (by omega), if_neg (by omega),
              if_pos (by omega)]
            show (if ((isContByte (0x80 + c / 4096 % 64) ∧ isContByte (0x80 + c / 64 % 64)
                  ∧ isContByte (0x80 + c % 64))
                ∧ (0xF0 + c / 262144 = 0xF0 → 0x90 ≤ 0x80 + c / 4096 % 64)
                ∧ (0xF0 + c / 262144 = 0xF4 → 0x80 + c / 4096 % 64 ≤ 0x8F)) then
                ((0xF0 + c / 262144 - 0xF0) * 262144 + (0x80 + c / 4096 % 64 - 0x80) * 4096
                  + (0x80 + c / 64 % 64 - 0x80) * 64 + (0x80 + c % 64 - 0x80), 3)
              else (replChar, 0)) = (c, 3)
            rw [if_pos ?hcond4]
            case hcond4 =>
              refine ⟨⟨?_, ?_, ?_⟩, ?_, ?_⟩
              · simp only [isContByte, decide_eq_true_iff]; omega
              · simp only [isContByte, decide_eq_true_iff]; omega
              · simp only [isContByte, decide_eq_true_iff]; omega
              · intro hF0; omega
              · intro hF4; omega
            exact congrArg (fun x => (x, 3)) (by omega)]
        simp

theorem splitFirst_some (c : Nat) (s : PyStr) : ∀ (a b : PyStr),
    splitFirst c s = some (a, b) → s = a ++ c :: b ∧ c ∉ a := by
  induction s with
  | nil => intro a b h; simp [splitFirst] at h
  | cons x xs ih =>
    intro a b h
    rw [splitFirst] at h
    by_cases hx : x = c
    · rw [if_pos hx] at h
      simp only [Option.some.injEq, Prod.mk.injEq] at h
      obtain ⟨rfl, rfl⟩ := h
      exact ⟨by simp [hx], by simp⟩
    · rw [if_neg hx] at h
      rcases hs : splitFirst c xs with _ | ⟨a', b'⟩
      · rw [hs] at h; simp at h
      · rw [hs] at h
        have h' : x :: a' = a ∧ b' = b := by simpa using h
        obtain ⟨rfl, rfl⟩ := h'
        obtain ⟨ih1, ih2⟩ := ih a' b' hs
        refine ⟨by simp [ih1], ?_⟩
        intro hmem
        rcases List.mem_cons.mp hmem with h | h
        · exact hx h.symm
        · exact ih2 h

theorem splitFirst_none (c : Nat) (s : PyStr) :
    splitFirst c s = none ↔ c ∉ s := by
  induction s with
  | nil => simp [splitFirst]
  | cons x xs ih =>
    rw [splitFirst]
    by_cases hx : x = c
    · simp [hx]
    · rw [if_neg hx]
      simp only [List.mem_cons, not_or]
      constructor
      · intro h
        rcases hs : splitFirst c xs with _ | p
        · exact ⟨fun hc => hx hc.symm, ih.mp hs⟩
        · rw [hs] at h; simp at h
      · intro ⟨_, h2⟩
        rw [ih.mpr h2]
        rfl

theorem splitFirst_append (c : Nat) (a b : PyStr) (ha : c ∉ a) :
    splitFirst c (a ++ c :: b) = some (a, b) := by
  induction a with
  | nil => simp [splitFirst]
  | cons x xs ih =>
    have hx : x ≠ c := fun h => ha (h ▸ List.mem_cons_self x xs)
    have ha' : c ∉ xs := fun h => ha (List.mem_cons_of_mem x h)
    rw [List.cons_append, splitFirst, if_neg hx, ih ha']
    rfl

theorem findIdx?_take_false (p : Nat → Bool) (s : PyStr) : ∀ i,
    s.findIdx? p = some i → ∀ c ∈ s.take i, p c = false := by
  induction s with
  | nil => intro i h; simp at h
  | cons x xs ih =>
    intro i h
    rw [List.findIdx?_cons] at h
    by_cases hx : p x
    · rw [if_pos hx] at h
      simp only [Option.some.injEq] at h
      subst h
      simp
    · rw [if_neg hx, List.findIdx?_succ] at h
      rcases hs : xs.findIdx? p with _ | j
      · rw [hs] at h; simp at h
      · rw [hs] at h
        have h' : j + 1 = i := by simpa using h
        subst h'
        intro c hc
        rw [List.take_succ_cons] at hc
        rcases List.mem_cons.mp hc with rfl | hc
        · simpa using hx
        · exact ih j hs c hc

theorem rstripChar_prefix (s : PyStr) (c : Nat) : (rstripChar s c) <+: s := by
  have h : s.reverse.dropWhile (· = c) <:+ s.reverse := List.dropWhile_suffix _
  obtain ⟨t, ht⟩ := h
  refine ⟨t.reverse, ?_⟩
  have := congrArg List.reverse ht
  simpa [rstripChar] using this

theorem dropWhile_head_not (p : Nat → Bool) (l : PyStr) (a : Nat)
    (h : (l.dropWhile p).head? = some a) : p a = false := by
  induction l with
  | nil => simp at h
  | cons x xs ih =>
    rw [List.dropWhile_cons] at h
    by_cases hx : p x
    · rw [if_pos hx] at h; exact ih h
    · rw [if_neg hx] at h
      simp only [List.head?_cons, Option.some.injEq] at h
      subst h
      simpa using hx

theorem rstripChar_not_endsWith (s : PyStr) (c : Nat) (hne : rstripChar s c ≠ []) :
    endsWithP (rstripChar s c) [c] = false := by
  set t := s.reverse.dropWhile (· = c) with hT
  have hrs : rstripChar s c = t.reverse := rfl
  rcases hh : t.head? with _ | a
  · rw [List.head?_eq_none_iff] at hh
    rw [hrs, hh] at hne
    simp at hne
  · have hpa : (a = c) = False := by
      have := dropWhile_head_not (· = c) s.reverse a (hT ▸ hh)
      simpa using this
    rw [hrs]
    by_contra hend
    have hsuf : [c] <:+ t.reverse := by
      have := Bool.not_eq_false _ |>.mp hend
      exact List.isSuffixOf_iff_suffix.mp this
    have hpre : [c] <+: t := by
      refine (List.reverse_suffix).mp ?_
      simpa using hsuf
    obtain ⟨r, hr⟩ := hpre
    rw [← hr] at hh
    simp only [List.cons_append, List.head?_cons, Option.some.injEq] at hh
    exact hpa ▸ (hh ▸ rfl)

theorem pySplitChar_cons_eq (c x : Nat) (xs : PyStr) (h : PyStr) (t : List PyStr)
    (hs : pySplitChar c xs = h :: t) :
    pySplitChar c (x :: xs) = if x = c then [] :: h :: t else (x :: h) :: t := by
  rw [pySplitChar, hs]

theorem pySplitChar_sep_append (c : Nat) (a t : PyStr) (ha : c ∉ a) :
    pySplitChar c (a ++ c :: t) = a :: pySplitChar c t := by
  induction a with
  | nil =>
    rcases hs : pySplitChar c t with _ | ⟨h, t'⟩
    · exact absurd hs (pySplitChar_ne_nil c t)
    · rw [List.nil_append, pySplitChar_cons_eq c c t h t' hs, if_pos rfl]
  | cons x xs ih =>
    have hx : x ≠ c := fun h => ha (h ▸ List.mem_cons_self x xs)
    have ha' : c ∉ xs := fun h => ha (List.mem_cons_of_mem x h)
    rcases hs : pySplitChar c (xs ++ c :: t) with _ | ⟨h, t'⟩
    · exact absurd hs (pySplitChar_ne_nil c _)
    · rw [List.cons_append, pySplitChar_cons_eq c x _ h t' hs, if_neg hx]
      rw [ih ha'] at hs
      have h1 : h = xs := (List.cons_eq_cons.mp hs).1.symm
      have h2 : t' = pySplitChar c t := (List.cons_eq_cons.mp hs).2.symm
      rw [h1, h2]

theorem pySplitChar_intercalate (c : Nat) (fs : List PyStr) (hne : fs ≠ [])
    (hf : ∀ f ∈ fs, c ∉ f) :
    pySplitChar c (List.intercalate [c] fs) = fs := by
  induction fs with
  | nil => exact absurd rfl hne
  | cons f fs ih =>
    rcases fs with _ | ⟨g, gs⟩
    · rw [show List.intercalate [c] [f] = f from by simp [List.intercalate]]
      exact pySplitChar_no_sep c f (fun x hx hc => hf f (by simp) (hc ▸ hx))
    · rw [show List.intercalate [c] (f :: g :: gs) = f ++ c :: List.intercalate [c] (g :: gs)
        from by simp [List.intercalate, List.intersperse]]
      rw [pySplitChar_sep_append c f _ (hf f (by simp))]
      rw [ih (by simp) (fun x hx => hf x (List.mem_cons_of_mem f hx))]

theorem mem_pySplitChar (c : Nat) (s : PyStr) : ∀ piece ∈ pySplitChar c s,
    ∀ x ∈ piece, x ∈ s := by
  induction s with
  | nil => intro piece hp x hx; simp [pySplitChar] at hp; subst hp; simp at hx
  | cons y ys ih =>
    intro piece hp x hx
    rcases hs : pySplitChar c ys with _ | ⟨h, t⟩
    · exact absurd hs (pySplitChar_ne_nil c ys)
    · rw [pySplitChar_cons_eq c y ys h t hs] at hp
      by_cases hy : y = c
      · rw [if_pos hy] at hp
        rcases List.mem_cons.mp hp with rfl | hp
        · simp at hx
        · exact List.mem_cons_of_mem y (ih piece (hs ▸ hp) x hx)
      · rw [if_neg hy] at hp
        rcases List.mem_cons.mp hp with rfl | hp
        · rcases List.mem_cons.mp hx with rfl | hx
          · simp
          · exact List.mem_cons_of_mem y (ih h (hs ▸ List.mem_cons_self h t) x hx)
        · exact List.mem_cons_of_mem y (ih piece (hs ▸ List.mem_cons_of_mem h hp) x hx)

theorem lowerChar_eq_of (c d : Nat) (hd : ¬ (97 ≤ d ∧ d ≤ 122))
    (h : lowerChar c = d) : c = d := by
  unfold lowerChar at h
  split at h <;> omega

theorem lowerChar_idem (c : Nat) : lowerChar (lowerChar c) = lowerChar c := by
  unfold lowerChar
  split_ifs <;> omega

theorem pyLower_idem (s : PyStr) : pyLower (pyLower s) = pyLower s := by
  simp only [pyLower, List.map_map, Function.comp]
  exact List.map_congr_left (fun c _ => lowerChar_idem c)

theorem utf8EncodeChar_lt_256 (c : Nat) (hc : c < 0x110000) :
    ∀ b ∈ utf8EncodeChar c, b < 256 := by
  unfold utf8EncodeChar
  split_ifs <;> intro b hb <;> simp at hb <;> omega

theorem utf8Encode_lt_256 (x : PyStr) (hx : ValidPyStr x) :
    ∀ b ∈ utf8Encode x, b < 256 := by
  intro b hb
  obtain ⟨c, hc, hb⟩ := List.mem_flatMap.mp hb
  exact utf8EncodeChar_lt_256 c (hx c hc).1 b hb

theorem alwaysSafe_ranges (c : Nat) (h : alwaysSafeByte c = true) :
    (48 ≤ c ∧ c ≤ 57) ∨ (65 ≤ c ∧ c ≤ 90) ∨ (97 ≤ c ∧ c ≤ 122)
    ∨ c = 95 ∨ c = 46 ∨ c = 45 ∨ c = 126 := by
  simp only [alwaysSafeByte, isAsciiAlnumC, isAsciiAlphaC, isAsciiDigitC,
    Bool.or_eq_true, decide_eq_true_eq] at h
  omega

theorem hexUpper_ranges (n : Nat) (h : n < 16) :
    (48 ≤ hexUpper n ∧ hexUpper n ≤ 57) ∨ (65 ≤ hexUpper n ∧ hexUpper n ≤ 70) := by
  unfold hexUpper
  split <;> omega

theorem quotePlus_mem (x : PyStr) (hx : ValidPyStr x) :
    ∀ c ∈ quotePlus x, alwaysSafeByte c = true ∨ c = 43 ∨ c = 37
      ∨ (48 ≤ c ∧ c ≤ 57) ∨ (65 ≤ c ∧ c ≤ 70) := by
  intro c hc
  obtain ⟨b, hb, hc⟩ := List.mem_flatMap.mp hc
  have hb256 : b < 256 := utf8Encode_lt_256 x hx b hb
  by_cases hs : alwaysSafeByte b
  · rw [if_pos hs] at hc
    simp at hc
    exact Or.inl (hc ▸ hs)
  · rw [if_neg hs] at hc
    by_cases h32 : b = 32
    · rw [if_pos h32] at hc
      simp at hc
      exact Or.inr (Or.inl hc)
    · rw [if_neg h32] at hc
      simp only [List.mem_cons, List.not_mem_nil, or_false] at hc
      rcases hc with rfl | rfl | rfl
      · exact Or.inr (Or.inr (Or.inl rfl))
      · rcases hexUpper_ranges (b / 16) (by omega) with h | h
        · exact Or.inr (Or.inr (Or.inr (Or.inl h)))
        · exact Or.inr (Or.inr (Or.inr (Or.inr h)))
      · rcases hexUpper_ranges (b % 16) (by omega) with h | h
        · exact Or.inr (Or.inr (Or.inr (Or.inl h)))
        · exact Or.inr (Or.inr (Or.inr (Or.inr h)))

theorem quotePlus_charset (x : PyStr) (hx : ValidPyStr x) :
    ∀ c ∈ quotePlus x, c < 128 ∧ c ≠ 38 ∧ c ≠ 61 ∧ c ≠ 35 ∧ c ≠ 63 ∧ c ≠ 59
      ∧ c ≠ 9 ∧ c ≠ 13 ∧ c ≠ 10 := by
  intro c hc
  rcases quotePlus_mem x hx c hc with h | h | h | h | h
  · rcases alwaysSafe_ranges c h with h | h | h | h | h | h | h <;> omega
  all_goals omega

theorem hexVal_hexUpper (n : Nat) (h : n < 16) :
    isHexDigitC (hexUpper n) = true ∧ hexVal (hexUpper n) = n := by
  interval_cases n <;> exact ⟨rfl, rfl⟩

theorem unquoteToBytes_cons_ne (c : Nat) (r : PyStr) (hc : c ≠ 37) :
    unquoteToBytes (c :: r) = c :: unquoteToBytes r := by
  rw [unquoteToBytes.eq_def]
  split <;> rename_i heq
  · exact absurd heq (List.cons_ne_nil c r)
  · exact absurd (List.cons_eq_cons.mp heq).1 hc
  · obtain ⟨h1, h2⟩ := List.cons_eq_cons.mp heq
    rw [← h1, ← h2]

theorem unquoteToBytes_encode (B : List Nat) (hB : ∀ b ∈ B, b < 256) :
    unquoteToBytes (replaceChar (B.flatMap (fun b =>
      if alwaysSafeByte b then [b]
      else if b = 32 then [43]
      else [37, hexUpper (b / 16), hexUpper (b % 16)])) 43 32) = B := by
  induction B with
  | nil => rfl
  | cons b B' ih =>
    have hb256 : b < 256 := hB b (by simp)
    have ih' := ih (fun x hx => hB x (List.mem_cons_of_mem b hx))
    rw [List.flatMap_cons]
    rw [show ∀ (u v : PyStr), replaceChar (u ++ v) 43 32
        = replaceChar u 43 32 ++ replaceChar v 43 32 from fun u v => List.map_append _ u v]
    by_cases hs : alwaysSafeByte b
    · rw [if_pos hs]
      have hb43 : b ≠ 43 := fun h => by rw [h] at hs; exact absurd hs (by decide)
      have hb37 : b ≠ 37 := fun h => by rw [h] at hs; exact absurd hs (by decide)
      rw [show replaceChar [b] 43 32 = [b] from by simp [replaceChar, hb43]]
      rw [List.cons_append, List.nil_append, unquoteToBytes_cons_ne b _ hb37, ih']
    · rw [if_neg hs]
      by_cases h32 : b = 32
      · rw [if_pos h32]
        rw [show replaceChar [43] 43 32 = [32] from by simp [replaceChar]]
        rw [List.cons_append, List.nil_append, unquoteToBytes_cons_ne 32 _ (by omega), ih', h32]
      · rw [if_neg h32]
        have hu1 : hexUpper (b / 16) ≠ 43 := by
          rcases hexUpper_ranges (b / 16) (by omega) with h | h <;> omega
        have hu2 : hexUpper (b % 16) ≠ 43 := by
          rcases hexUpper_ranges (b % 16) (by omega) with h | h <;> omega
        rw [show replaceChar [37, hexUpper (b / 16), hexUpper (b % 16)] 43 32
            = [37, hexUpper (b / 16), hexUpper (b % 16)] from by
          simp [replaceChar, hu1, hu2]]
        rw [List.cons_append, List.cons_append, List.cons_append, List.nil_append]
        rw [unquoteToBytes]
        rw [if_pos ⟨(hexVal_hexUpper (b / 16) (by omega)).1,
          (hexVal_hexUpper (b % 16) (by omega)).1⟩]
        rw [(hexVal_hexUpper (b / 16) (by omega)).2, (hexVal_hexUpper (b % 16) (by omega)).2]
        rw [ih']
        congr 1
        omega

theorem pyUnquote_ascii (s : PyStr) (h : ∀ c ∈ s, c < 0x80) :
    pyUnquote s = utf8Decode (unquoteToBytes s) := by
  cases s with
  | nil => rw [pyUnquote, show unquoteToBytes [] = [] from rfl, utf8Decode]
  | cons c t =>
    rw [pyUnquote, dif_pos (h c (by simp))]
    rw [List.takeWhile_eq_self_iff.mpr (fun a ha => by simpa using h a ha)]
    rw [List.dropWhile_eq_nil_iff.mpr (fun a ha => by simpa using h a ha)]
    rw [pyUnquote, List.append_nil]

theorem utf8Decode_utf8Encode (x : PyStr) (hx : ValidPyStr x) :
    utf8Decode (utf8Encode x) = x := by
  induction x with
  | nil => rw [show utf8Encode [] = [] from rfl, utf8Decode]
  | cons c t ih =>
    rw [show utf8Encode (c :: t) = utf8EncodeChar c ++ utf8Encode t from
      List.flatMap_cons c t _]
    rw [utf8Decode_encodeChar c (hx c (by simp)) _]
    rw [ih (fun a ha => hx a (List.mem_cons_of_mem c ha))]

theorem unquotePlus_quotePlus (x : PyStr) (hx : ValidPyStr x) :
    unquotePlus (quotePlus x) = x := by
  rw [unquotePlus]
  rw [pyUnquote_ascii _ (fun c hc => by
    rcases List.mem_map.mp hc with ⟨a, ha, rfl⟩
    by_cases h43 : a = 43
    · simp only [replaceChar, if_pos h43]
      omega
    · simp only [replaceChar, if_neg h43]
      exact (quotePlus_charset x hx a ha).1)]
  rw [show replaceChar (quotePlus x) 43 32
      = replaceChar ((utf8Encode x).flatMap (fun b =>
          if alwaysSafeByte b then [b]
          else if b = 32 then [43]
          else [37, hexUpper (b / 16), hexUpper (b % 16)])) 43 32 from rfl]
  rw [unquoteToBytes_encode (utf8Encode x) (utf8Encode_lt_256 x hx)]
  exact utf8Decode_utf8Encode x hx

theorem pyStrLe_total (a : PyStr) : ∀ b, pyStrLe a b = true ∨ pyStrLe b a = true := by
  induction a with
  | nil => intro b; left; rw [pyStrLe]
  | cons x xs ih =>
    intro b
    cases b with
    | nil => right; rw [pyStrLe]
    | cons y ys =>
      rw [pyStrLe, pyStrLe]
      by_cases hxy : x < y
      · left; rw [if_pos hxy]
      · by_cases hyx : y < x
        · right; rw [if_pos hyx]
        · have hxe : x = y := by omega
          subst hxe
          rw [if_neg hxy, if_pos rfl, if_neg hxy, if_pos rfl]
          exact ih ys

theorem pyStrLe_trans (a : PyStr) : ∀ b c, pyStrLe a b = true → pyStrLe b c = true →
    pyStrLe a c = true := by
  induction a with
  | nil => intro b c _ _; rw [pyStrLe]
  | cons x xs ih =>
    intro b c h1 h2
    cases b with
    | nil => rw [pyStrLe] at h1; exact absurd h1 (by simp)
    | cons y ys =>
      cases c with
      | nil => rw [pyStrLe] at h2; exact absurd h2 (by simp)
      | cons z zs =>
        rw [pyStrLe] at h1 h2 ⊢
        by_cases hxy : x < y
        · rw [if_pos hxy] at h1
          by_cases hyz : y < z
          · rw [if_pos (show x < z by omega)]
          · by_cases hyz2 : y = z
            · rw [if_pos (show x < z by omega)]
            · rw [if_neg hyz, if_neg hyz2] at h2
              exact absurd h2 (by simp)
        · by_cases hxy2 : x = y
          · subst hxy2
            rw [if_neg hxy, if_pos rfl] at h1
            by_cases hyz : x < z
            · rw [if_pos hyz]
            · by_cases hyz2 : x = z
              · subst hyz2
                rw [if_neg hyz, if_pos rfl] at h2 ⊢
                exact ih ys zs h1 h2
              · rw [if_neg hyz, if_neg hyz2] at h2
                exact absurd h2 (by simp)
          · rw [if_neg hxy, if_neg hxy2] at h1
            exact absurd h1 (by simp)

theorem insertByKey_eq_orderedInsert (p : PyStr × List PyStr)
    (l : List (PyStr × List PyStr)) :
    insertByKey p l = List.orderedInsert (fun a b => pyStrLe a.1 b.1 = true) p l := by
  induction l with
  | nil => rfl
  | cons q rest ih =>
    rw [insertByKey, List.orderedInsert]
    by_cases h : pyStrLe p.1 q.1 = true
    · rw [if_pos h, if_pos h]
    · rw [if_neg h, if_neg h, ih]

theorem sortByKey_eq_insertionSort (l : List (PyStr × List PyStr)) :
    sortByKey l = List.insertionSort (fun a b => pyStrLe a.1 b.1 = true) l := by
  induction l with
  | nil => rfl
  | cons p rest ih =>
    show insertByKey p (sortByKey rest) = _
    rw [List.insertionSort, ih, insertByKey_eq_orderedInsert]

theorem sortByKey_idem (l : List (PyStr × List PyStr)) :
    sortByKey (sortByKey l) = sortByKey l := by
  rw [sortByKey_eq_insertionSort (sortByKey l), sortByKey_eq_insertionSort l]
  haveI h1 : IsTotal (PyStr × List PyStr) (fun a b => pyStrLe a.1 b.1 = true) :=
    ⟨fun a b => pyStrLe_total a.1 b.1⟩
  haveI h2 : IsTrans (PyStr × List PyStr) (fun a b => pyStrLe a.1 b.1 = true) :=
    ⟨fun a b c => pyStrLe_trans a.1 b.1 c.1⟩
  exact List.Sorted.insertionSort_eq (List.sorted_insertionSort _ l)

theorem sortByKey_perm (l : List (PyStr × List PyStr)) : List.Perm (sortByKey l) l := by
  rw [sortByKey_eq_insertionSort]
  exact List.perm_insertionSort _ l

theorem addPair_not_mem (acc : List (PyStr × List PyStr)) (k v : PyStr)
    (h : k ∉ acc.map Prod.fst) : addPair acc (k, v) = acc ++ [(k, [v])] := by
  induction acc with
  | nil => rfl
  | cons g rest ih =>
    obtain ⟨k0, vs⟩ := g
    simp only [List.map_cons, List.mem_cons, not_or] at h
    obtain ⟨h1, h2⟩ := h
    rw [addPair, if_neg (fun he => h1 he.symm), ih h2, List.cons_append]

theorem addPair_update (acc₁ acc₂ : List (PyStr × List PyStr)) (k : PyStr)
    (ws : List PyStr) (v : PyStr) (h : k ∉ acc₁.map Prod.fst) :
    addPair (acc₁ ++ (k, ws) :: acc₂) (k, v) = acc₁ ++ (k, ws ++ [v]) :: acc₂ := by
  induction acc₁ with
  | nil => rw [List.nil_append, addPair, if_pos rfl, List.nil_append]
  | cons g rest ih =>
    obtain ⟨k0, vs⟩ := g
    simp only [List.map_cons, List.mem_cons, not_or] at h
    obtain ⟨h1, h2⟩ := h
    rw [List.cons_append, addPair, if_neg (fun he => h1 he.symm), ih h2, List.cons_append]

theorem foldl_addPair_ext (vs : List PyStr) : ∀ (acc₁ acc₂ : List (PyStr × List PyStr))
    (k : PyStr) (ws : List PyStr), k ∉ acc₁.map Prod.fst →
    List.foldl addPair (acc₁ ++ (k, ws) :: acc₂) (vs.map (fun v => (k, v)))
      = acc₁ ++ (k, ws ++ vs) :: acc₂ := by
  induction vs with
  | nil => intro acc₁ acc₂ k ws _; simp
  | cons v vs ih =>
    intro acc₁ acc₂ k ws h
    rw [List.map_cons, List.foldl_cons, addPair_update acc₁ acc₂ k ws v h, ih acc₁ acc₂ k _ h]
    simp

theorem addPair_keys (acc : List (PyStr × List PyStr)) (k v : PyStr) :
    ∀ g ∈ addPair acc (k, v), g.1 ∈ acc.map Prod.fst ∨ g.1 = k := by
  induction acc with
  | nil =>
    intro g hg
    rw [show addPair [] (k, v) = [(k, [v])] from rfl] at hg
    simp at hg
    simp [hg]
  | cons g0 rest ih =>
    obtain ⟨k0, vs⟩ := g0
    intro g hg
    rw [addPair] at hg
    by_cases he : k0 = k
    · rw [if_pos he] at hg
      rcases List.mem_cons.mp hg with rfl | hg
      · simp
      · left
        simp only [List.map_cons, List.mem_cons]
        right
        exact List.mem_map.mpr ⟨g, hg, rfl⟩
    · rw [if_neg he] at hg
      rcases List.mem_cons.mp hg with rfl | hg
      · simp
      · rcases ih g hg with h | h
        · left; simp only [List.map_cons, List.mem_cons]; right; exact h
        · right; exact h

theorem addPair_pairwise (acc : List (PyStr × List PyStr)) (k v : PyStr)
    (hpw : List.Pairwise (fun a b => a.1 ≠ b.1) acc) :
    List.Pairwise (fun a b => a.1 ≠ b.1) (addPair acc (k, v)) := by
  induction acc with
  | nil => simp [show addPair [] (k, v) = [(k, [v])] from rfl]
  | cons g0 rest ih =>
    obtain ⟨k0, vs⟩ := g0
    rw [addPair]
    obtain ⟨hhead, htail⟩ := List.pairwise_cons.mp hpw
    by_cases he : k0 = k
    · rw [if_pos he]
      exact List.pairwise_cons.mpr ⟨fun b hb => hhead b hb, htail⟩
    · rw [if_neg he]
      refine List.pairwise_cons.mpr ⟨?_, ih htail⟩
      intro b hb
      rcases addPair_keys rest k v b hb with h | h
      · obtain ⟨g', hg', he'⟩ := List.mem_map.mp h
        exact he' ▸ hhead g' hg'
      · exact h ▸ he

theorem addPair_nonempty (acc : List (PyStr × List PyStr)) (k v : PyStr)
    (h : ∀ g ∈ acc, g.2 ≠ []) : ∀ g ∈ addPair acc (k, v), g.2 ≠ [] := by
  induction acc with
  | nil =>
    intro g hg
    rw [show addPair [] (k, v) = [(k, [v])] from rfl] at hg
    simp at hg
    simp [hg]
  | cons g0 rest ih =>
    obtain ⟨k0, vs⟩ := g0
    intro g hg
    rw [addPair] at hg
    by_cases he : k0 = k
    · rw [if_pos he] at hg
      rcases List.mem_cons.mp hg with rfl | hg
      · simp
      · exact h g (List.mem_cons_of_mem _ hg)
    · rw [if_neg he] at hg
      rcases List.mem_cons.mp hg with rfl | hg
      · exact h (k0, vs) (by simp)
      · exact ih (fun g' hg' => h g' (List.mem_cons_of_mem _ hg')) g hg

theorem addPair_valid (acc : List (PyStr × List PyStr)) (k v : PyStr)
    (hacc : ∀ g ∈ acc, ValidPyStr g.1 ∧ ∀ w ∈ g.2, ValidPyStr w)
    (hk : ValidPyStr k) (hv : ValidPyStr v) :
    ∀ g ∈ addPair acc (k, v), ValidPyStr g.1 ∧ ∀ w ∈ g.2, ValidPyStr w := by
  induction acc with
  | nil =>
    intro g hg
    rw [show addPair [] (k, v) = [(k, [v])] from rfl] at hg
    simp at hg
    subst hg
    exact ⟨hk, fun w hw => by simp at hw; exact hw ▸ hv⟩
  | cons g0 rest ih =>
    obtain ⟨k0, vs⟩ := g0
    intro g hg
    rw [addPair] at hg
    by_cases he : k0 = k
    · rw [if_pos he] at hg
      rcases List.mem_cons.mp hg with rfl | hg
      · refine ⟨(hacc (k0, vs) (by simp)).1, ?_⟩
        intro w hw
        rcases List.mem_append.mp hw with hw | hw
        · exact (hacc (k0, vs) (by simp)).2 w hw
        · simp at hw; exact hw ▸ hv
      · exact hacc g (List.mem_cons_of_mem _ hg)
    · rw [if_neg he] at hg
      rcases List.mem_cons.mp hg with rfl | hg
      · exact hacc (k0, vs) (by simp)
      · exact ih (fun g' hg' => hacc g' (List.mem_cons_of_mem _ hg')) g hg

theorem parseQs_foldl_facts (pairs : List (PyStr × PyStr)) :
    ∀ acc, List.Pairwise (fun a b => a.1 ≠ b.1) acc →
    (∀ g ∈ acc, g.2 ≠ []) →
    (∀ g ∈ acc, ValidPyStr g.1 ∧ ∀ w ∈ g.2, ValidPyStr w) →
    (∀ pr ∈ pairs, ValidPyStr pr.1 ∧ ValidPyStr pr.2) →
    List.Pairwise (fun a b => a.1 ≠ b.1) (List.foldl addPair acc pairs)
    ∧ (∀ g ∈ List.foldl addPair acc pairs, g.2 ≠ [])
    ∧ (∀ g ∈ List.foldl addPair acc pairs, ValidPyStr g.1 ∧ ∀ w ∈ g.2, ValidPyStr w) := by
  induction pairs with
  | nil => intro acc h1 h2 h3 _; exact ⟨h1, h2, h3⟩
  | cons pr rest ih =>
    obtain ⟨k, v⟩ := pr
    intro acc h1 h2 h3 h4
    rw [List.foldl_cons]
    exact ih (addPair acc (k, v))
      (addPair_pairwise acc k v h1)
      (addPair_nonempty acc k v h2)
      (addPair_valid acc k v h3 (h4 (k, v) (by simp)).1 (h4 (k, v) (by simp)).2)
      (fun pr' hpr' => h4 pr' (List.mem_cons_of_mem _ hpr'))

theorem utf8Step_fst_valid (b : Nat) (bs : List Nat) : ValidScalar (utf8Step b bs).1 := by
  have hrepl : ValidScalar replChar := ⟨by decide, by decide⟩
  rw [utf8Step.eq_def]
  split_ifs with h1 h2 h3 h4
  · exact ⟨by omega, by omega⟩
  · rcases bs with _ | ⟨b2, rest⟩
    · exact hrepl
    · show ValidScalar (if isContByte b2 = true
        then ((b - 0xC0) * 64 + (b2 - 0x80), 1) else (replChar, 0)).1
      split_ifs with hc
      · simp only [isContByte, decide_eq_true_eq] at hc
        exact ⟨by omega, by omega⟩
      · exact hrepl
  · rcases bs with _ | ⟨b2, _ | ⟨b3, rest⟩⟩
    · exact hrepl
    · exact hrepl
    · show ValidScalar (if ((isContByte b2 = true ∧ isContByte b3 = true)
          ∧ (b = 0xE0 → 0xA0 ≤ b2) ∧ (b = 0xED → b2 ≤ 0x9F))
        then ((b - 0xE0) * 4096 + (b2 - 0x80) * 64 + (b3 - 0x80), 2)
        else (replChar, 0)).1
      split_ifs with hc
      · obtain ⟨⟨hc2, hc3⟩, hE0, hED⟩ := hc
        simp only [isContByte, decide_eq_true_eq] at hc2 hc3
        refine ⟨by omega, ?_⟩
        by_cases hb : b = 0xED
        · have := hED hb
          omega
        · omega
      · exact hrepl
  · rcases bs with _ | ⟨b2, _ | ⟨b3, _ | ⟨b4, rest⟩⟩⟩
    · exact hrepl
    · exact hrepl
    · exact hrepl
    · show ValidScalar (if ((isContByte b2 = true ∧ isContByte b3 = true
            ∧ isContByte b4 = true)
          ∧ (b = 0xF0 → 0x90 ≤ b2) ∧ (b = 0xF4 → b2 ≤ 0x8F))
        then ((b - 0xF0) * 262144 + (b2 - 0x80) * 4096 + (b3 - 0x80) * 64 + (b4 - 0x80), 3)
        else (replChar, 0)).1
      split_ifs with hc
      · obtain ⟨⟨hc2, hc3, hc4⟩, hF0, hF4⟩ := hc
        simp only [isContByte, decide_eq_true_eq] at hc2 hc3 hc4
        constructor
        · by_cases hb : b = 0xF4
          · have := hF4 hb
            omega
          · omega
        · by_cases hb : b = 0xF0
          · have := hF0 hb
            omega
          · omega
      · exact hrepl
  · exact hrepl

theorem utf8Decode_valid_aux (n : Nat) : ∀ B : List Nat, B.length ≤ n →
    ∀ x ∈ utf8Decode B, ValidScalar x := by
  induction n with
  | zero =>
    intro B hB x hx
    have hB0 : B = [] := List.length_eq_zero.mp (Nat.le_zero.mp hB)
    subst hB0
    rw [utf8Decode] at hx
    simp at hx
  | succ m ih =>
    intro B hB x hx
    cases B with
    | nil => rw [utf8Decode] at hx; simp at hx
    | cons b bs =>
      rw [utf8Decode_cons] at hx
      rcases List.mem_cons.mp hx with rfl | hx
      · exact utf8Step_fst_valid b bs
      · refine ih _ ?_ x hx
        rw [List.length_drop]
        simp only [List.length_cons] at hB
        omega

theorem utf8Decode_valid (B : List Nat) : ∀ x ∈ utf8Decode B, ValidScalar x :=
  utf8Decode_valid_aux B.length B le_rfl

theorem pyUnquote_valid_aux (n : Nat) : ∀ s : PyStr, s.length ≤ n →
    ValidPyStr s → ValidPyStr (pyUnquote s) := by
  induction n with
  | zero =>
    intro s hlen hs
    have hs0 : s = [] := List.length_eq_zero.mp (Nat.le_zero.mp hlen)
    subst hs0
    rw [pyUnquote]
    intro c hc
    simp at hc
  | succ m ih =>
    intro s hlen hs
    cases s with
    | nil =>
      rw [pyUnquote]
      intro c hc
      simp at hc
    | cons c t =>
      rw [pyUnquote]
      by_cases hc : c < 0x80
      · rw [dif_pos hc]
        intro x hx
        rcases List.mem_append.mp hx with hx | hx
        · exact utf8Decode_valid _ x hx
        · have hlen2 : ((c :: t).dropWhile (fun x => decide (x < 0x80))).length ≤ m := by
            rw [List.dropWhile_cons, if_pos (by simpa using hc)]
            have := (List.dropWhile_sublist (l := t)
              (p := fun x => decide (x < 0x80))).length_le
            simp only [List.length_cons] at hlen
            omega
          have hvalid2 : ValidPyStr ((c :: t).dropWhile (fun x => decide (x < 0x80))) :=
            fun y hy => hs y ((List.dropWhile_sublist _).subset hy)
          exact ih _ hlen2 hvalid2 x hx
      · rw [dif_neg hc]
        intro x hx
        rcases List.mem_cons.mp hx with rfl | hx
        · exact hs x (by simp)
        · have hlen2 : t.length ≤ m := by
            simp only [List.length_cons] at hlen
            omega
          exact ih t hlen2 (fun y hy => hs y (List.mem_cons_of_mem c hy)) x hx

theorem pyUnquote_valid (s : PyStr) (hs : ValidPyStr s) : ValidPyStr (pyUnquote s) :=
  pyUnquote_valid_aux s.length s le_rfl hs

theorem unquotePlus_valid (s : PyStr) (hs : ValidPyStr s) :
    ValidPyStr (unquotePlus s) := by
  rw [unquotePlus]
  refine pyUnquote_valid _ ?_
  intro c hc
  obtain ⟨a, ha, hac⟩ := List.mem_map.mp hc
  by_cases h43 : a = 43
  · rw [if_pos h43] at hac
    exact hac ▸ ⟨by decide, by decide⟩
  · rw [if_neg h43] at hac
    exact hac ▸ hs a ha

theorem parseQsl_valid (q : PyStr) (hq : ValidPyStr q) :
    ∀ pr ∈ parseQsl q, ValidPyStr pr.1 ∧ ValidPyStr pr.2 := by
  intro pr hpr
  obtain ⟨piece, hpiece, hsome⟩ := List.mem_filterMap.mp hpr
  by_cases hp : piece = []
  · rw [if_pos hp] at hsome; simp at hsome
  · rw [if_neg hp] at hsome
    simp only [Option.some.injEq] at hsome
    have hvp : ValidPyStr piece :=
      fun x hx => hq x (mem_pySplitChar 38 q piece hpiece x hx)
    have h1 : ValidPyStr (qslField piece).1 ∧ ValidPyStr (qslField piece).2 := by
      rw [qslField]
      rcases hsf : splitFirst 61 piece with _ | ⟨a, b⟩
      · exact ⟨hvp, fun x hx => by simp at hx⟩
      · obtain ⟨heq, _⟩ := splitFirst_some 61 piece a b hsf
        constructor
        · intro x hx
          exact hvp x (heq ▸ List.mem_append.mpr (Or.inl hx))
        · intro x hx
          exact hvp x (heq ▸ List.mem_append.mpr (Or.inr (List.mem_cons_of_mem 61 hx)))
    rw [← hsome]
    exact ⟨unquotePlus_valid _ h1.1, unquotePlus_valid _ h1.2⟩

theorem foldl_addPair_flatten (items : List (PyStr × List PyStr)) :
    ∀ acc, List.Pairwise (fun a b => a.1 ≠ b.1) items →
    (∀ g ∈ items, g.2 ≠ []) →
    (∀ g ∈ items, g.1 ∉ acc.map Prod.fst) →
    List.foldl addPair acc (items.flatMap (fun p => p.2.map (fun v => (p.1, v))))
      = acc ++ items := by
  induction items with
  | nil => intro acc _ _ _; simp
  | cons g rest ih =>
    obtain ⟨k, vs⟩ := g
    intro acc hpw hne hdisj
    rw [List.flatMap_cons, List.foldl_append]
    rcases vs with _ | ⟨v, vs'⟩
    · exact absurd rfl (hne (k, []) (by simp))
    · rw [List.map_cons, List.foldl_cons,
        addPair_not_mem acc k v (hdisj (k, v :: vs') (by simp))]
      rw [show acc ++ [(k, [v])] = acc ++ (k, [v]) :: [] from rfl]
      rw [foldl_addPair_ext vs' acc [] k [v] (hdisj (k, v :: vs') (by simp))]
      obtain ⟨hhead, htail⟩ := List.pairwise_cons.mp hpw
      rw [ih (acc ++ (k, [v] ++ vs') :: []) htail
        (fun g' hg' => hne g' (List.mem_cons_of_mem _ hg'))
        (fun g' hg' => by
          simp only [List.map_append, List.map_cons, List.map_nil, List.mem_append,
            List.mem_cons, List.not_mem_nil, or_false, not_or]
          exact ⟨fun hm => hdisj g' (List.mem_cons_of_mem _ hg')
            (by simpa using hm), fun he => (hhead g' hg') he.symm⟩)]
      simp

theorem mem_pyJoin_sep (sep : Nat) (fields : List PyStr) :
    ∀ c ∈ pyJoin [sep] fields, c = sep ∨ ∃ f ∈ fields, c ∈ f := by
  induction fields with
  | nil => intro c hc; simp [pyJoin, List.intercalate] at hc
  | cons f fs ih =>
    intro c hc
    rcases fs with _ | ⟨g, gs⟩
    · rw [show pyJoin [sep] [f] = f from by simp [pyJoin, List.intercalate]] at hc
      exact Or.inr ⟨f, by simp, hc⟩
    · rw [show pyJoin [sep] (f :: g :: gs) = f ++ sep :: pyJoin [sep] (g :: gs) from by
        simp [pyJoin, List.intercalate, List.intersperse]] at hc
      rcases List.mem_append.mp hc with hc | hc
      · exact Or.inr ⟨f, by simp, hc⟩
      · rcases List.mem_cons.mp hc with rfl | hc
        · exact Or.inl rfl
        · rcases ih c hc with h | ⟨f', hf', hc'⟩
          · exact Or.inl h
          · exact Or.inr ⟨f', List.mem_cons_of_mem f hf', hc'⟩

theorem parseQsl_encode (pairs : List (PyStr × PyStr))
    (hvalid : ∀ pr ∈ pairs, ValidPyStr pr.1 ∧ ValidPyStr pr.2) :
    parseQsl (List.intercalate [38]
        (pairs.map (fun pr => quotePlus pr.1 ++ 61 :: quotePlus pr.2)))
      = pairs := by
  rcases hps0 : pairs with _ | ⟨pr0, prs⟩
  · rfl
  · rw [show parseQsl (List.intercalate [38] ((pr0 :: prs).map
        (fun pr => quotePlus pr.1 ++ 61 :: quotePlus pr.2)))
      = (pySplitChar 38 (List.intercalate [38] ((pr0 :: prs).map
          (fun pr => quotePlus pr.1 ++ 61 :: quotePlus pr.2)))).filterMap
        (fun piece => if piece = [] then none
          else some (unquotePlus (qslField piece).1, unquotePlus (qslField piece).2))
      from rfl]
    subst hps0
    rw [pySplitChar_intercalate 38 _ (by simp) ?hnosep]
    case hnosep =>
      intro f hf
      obtain ⟨pr, hpr, rfl⟩ := List.mem_map.mp hf
      intro hmem
      rcases List.mem_append.mp hmem with h | h
      · exact (quotePlus_charset pr.1 (hvalid pr hpr).1 38 h).2.1 rfl
      · rcases List.mem_cons.mp h with h | h
        · exact absurd h (by omega)
        · exact (quotePlus_charset pr.2 (hvalid pr hpr).2 38 h).2.1 rfl
    suffices h : ∀ ps : List (PyStr × PyStr),
        (∀ pr ∈ ps, ValidPyStr pr.1 ∧ ValidPyStr pr.2) →
        (ps.map (fun pr => quotePlus pr.1 ++ 61 :: quotePlus pr.2)).filterMap
          (fun piece => if piece = [] then none
            else some (unquotePlus (qslField piece).1, unquotePlus (qslField piece).2))
          = ps from h (pr0 :: prs) hvalid
    intro ps
    induction ps with
    | nil => intro _; rfl
    | cons pr prs' ih =>
      intro hps
      rw [List.map_cons]
      have hne : quotePlus pr.1 ++ 61 :: quotePlus pr.2 ≠ [] := by simp
      have h61 : (61 : Nat) ∉ quotePlus pr.1 := fun hm =>
        (quotePlus_charset pr.1 (hps pr (by simp)).1 61 hm).2.2.1 rfl
      have hqf : qslField (quotePlus pr.1 ++ 61 :: quotePlus pr.2)
          = (quotePlus pr.1, quotePlus pr.2) := by
        rw [qslField, splitFirst_append 61 _ _ h61]
      have hdec : (fun piece => if piece = [] then none
            else some (unquotePlus (qslField piece).1, unquotePlus (qslField piece).2))
          (quotePlus pr.1 ++ 61 :: quotePlus pr.2) = some pr := by
        show (if (quotePlus pr.1 ++ 61 :: quotePlus pr.2) = [] then none
          else some (unquotePlus (qslField (quotePlus pr.1 ++ 61 :: quotePlus pr.2)).1,
            unquotePlus (qslField (quotePlus pr.1 ++ 61 :: quotePlus pr.2)).2)) = some pr
        rw [if_neg hne, hqf]
        rw [show ((quotePlus pr.1, quotePlus pr.2) : PyStr × PyStr).1
          = quotePlus pr.1 from rfl]
        rw [show ((quotePlus pr.1, quotePlus pr.2) : PyStr × PyStr).2
          = quotePlus pr.2 from rfl]
        rw [unquotePlus_quotePlus pr.1 (hps pr (by simp)).1,
          unquotePlus_quotePlus pr.2 (hps pr (by simp)).2]
      have hstep : List.filterMap
          (fun piece => if piece = [] then none
            else some (unquotePlus (qslField piece).1, unquotePlus (qslField piece).2))
          ((quotePlus pr.1 ++ 61 :: quotePlus pr.2)
            :: List.map (fun pr => quotePlus pr.1 ++ 61 :: quotePlus pr.2) prs')
          = pr :: List.filterMap
          (fun piece => if piece = [] then none
            else some (unquotePlus (qslField piece).1, unquotePlus (qslField piece).2))
          (List.map (fun pr => quotePlus pr.1 ++ 61 :: quotePlus pr.2) prs') :=
        List.filterMap_cons_some hdec
      rw [hstep, ih (fun pr' hpr' => hps pr' (List.mem_cons_of_mem pr hpr'))]

theorem parseQs_encode (items : List (PyStr × List PyStr))
    (hpw : List.Pairwise (fun a b => a.1 ≠ b.1) items)
    (hne : ∀ g ∈ items, g.2 ≠ [])
    (hvalid : ∀ g ∈ items, ValidPyStr g.1 ∧ ∀ v ∈ g.2, ValidPyStr v) :
    parseQs (urlencodeItems items) = items := by
  have hpairs_valid : ∀ pr ∈ items.flatMap (fun p => p.2.map (fun v => (p.1, v))),
      ValidPyStr pr.1 ∧ ValidPyStr pr.2 := by
    intro pr hpr
    obtain ⟨g, hg, hpr⟩ := List.mem_flatMap.mp hpr
    obtain ⟨v, hv, rfl⟩ := List.mem_map.mp hpr
    exact ⟨(hvalid g hg).1, (hvalid g hg).2 v hv⟩
  have hfields : urlencodeItems items = List.intercalate [38]
      ((items.flatMap (fun p => p.2.map (fun v => (p.1, v)))).map
        (fun pr => quotePlus pr.1 ++ 61 :: quotePlus pr.2)) := by
    rw [urlencodeItems, pyJoin]
    congr 1
    rw [List.map_flatMap]
    refine congrArg items.flatMap ?_
    funext p
    rw [List.map_map]
    rfl
  rw [parseQs, hfields, parseQsl_encode _ hpairs_valid]
  rw [foldl_addPair_flatten items [] hpw hne (by simp)]
  simp

theorem normalizeQuery_facts (q : PyStr) (hq : ValidPyStr q) :
    List.Pairwise (fun a b => a.1 ≠ b.1) (sortByKey (parseQs q))
    ∧ (∀ g ∈ sortByKey (parseQs q), g.2 ≠ [])
    ∧ (∀ g ∈ sortByKey (parseQs q), ValidPyStr g.1 ∧ ∀ v ∈ g.2, ValidPyStr v) := by
  obtain ⟨hpw0, hne0, hvalid0⟩ := parseQs_foldl_facts (parseQsl q) []
    (by simp) (by simp) (by simp) (parseQsl_valid q hq)
  have hperm := sortByKey_perm (parseQs q)
  refine ⟨?_, ?_, ?_⟩
  · exact (List.Perm.pairwise_iff (fun h he => h he.symm) hperm).mpr hpw0
  · exact fun g hg => hne0 g (hperm.subset hg)
  · exact fun g hg => hvalid0 g (hperm.subset hg)

theorem normalizeQuery_idem (q : PyStr) (hq : ValidPyStr q) :
    normalizeQuery (normalizeQuery q) = normalizeQuery q := by
  obtain ⟨hpw, hne, hvalid⟩ := normalizeQuery_facts q hq
  have h2 : parseQs (normalizeQuery q) = sortByKey (parseQs q) :=
    parseQs_encode (sortByKey (parseQs q)) hpw hne hvalid
  calc normalizeQuery (normalizeQuery q)
      = urlencodeItems (sortByKey (parseQs (normalizeQuery q))) := rfl
    _ = urlencodeItems (sortByKey (sortByKey (parseQs q))) := by rw [h2]
    _ = urlencodeItems (sortByKey (parseQs q)) := by rw [sortByKey_idem]
    _ = normalizeQuery q := rfl

theorem normalizeQuery_charset (q : PyStr) (hq : ValidPyStr q) :
    ∀ c ∈ normalizeQuery q, c < 128 ∧ c ≠ 35 ∧ c ≠ 9 ∧ c ≠ 13 ∧ c ≠ 10 := by
  obtain ⟨_, _, hvalid⟩ := normalizeQuery_facts q hq
  intro c hc
  rcases mem_pyJoin_sep 38 ((sortByKey (parseQs q)).flatMap (fun p =>
      p.2.map (fun v => quotePlus p.1 ++ 61 :: quotePlus v))) c hc with rfl | ⟨f, hf, hcf⟩
  · exact ⟨by omega, by omega, by omega, by omega, by omega⟩
  · obtain ⟨g, hg, hf⟩ := List.mem_flatMap.mp hf
    obtain ⟨v, hv, rfl⟩ := List.mem_map.mp hf
    rcases List.mem_append.mp hcf with h | h
    · have := quotePlus_charset g.1 (hvalid g hg).1 c h
      exact ⟨this.1, this.2.2.2.1, this.2.2.2.2.2.2.1, this.2.2.2.2.2.2.2.1,
        this.2.2.2.2.2.2.2.2⟩
    · rcases List.mem_cons.mp h with rfl | h
      · exact ⟨by omega, by omega, by omega, by omega, by omega⟩
      · have := quotePlus_charset v ((hvalid g hg).2 v hv) c h
        exact ⟨this.1, this.2.2.2.1, this.2.2.2.2.2.2.1, this.2.2.2.2.2.2.2.1,
          this.2.2.2.2.2.2.2.2⟩

theorem splitNetloc_fst_not (s : PyStr) :
    ∀ c ∈ (splitNetloc s).1, ¬(c = 47 ∨ c = 63 ∨ c = 35) := by
  unfold splitNetloc
  rcases hf : s.findIdx? (fun c => decide (c = 47 ∨ c = 63 ∨ c = 35)) with _ | i
  · intro c hc
    have := List.findIdx?_eq_none_iff.mp hf c hc
    simpa using this
  · intro c hc
    have := findIdx?_take_false _ s i hf c hc
    simpa using this

theorem splitNetloc_fst_mem (s : PyStr) : ∀ c ∈ (splitNetloc s).1, c ∈ s := by
  unfold splitNetloc
  rcases hf : s.findIdx? (fun c => decide (c = 47 ∨ c = 63 ∨ c = 35)) with _ | i
  · intro c hc
    exact hc
  · intro c hc
    exact List.take_subset i s hc

theorem splitNetloc_snd_mem (s : PyStr) : ∀ c ∈ (splitNetloc s).2, c ∈ s := by
  unfold splitNetloc
  rcases hf : s.findIdx? (fun c => decide (c = 47 ∨ c = 63 ∨ c = 35)) with _ | i
  · intro c hc
    simp at hc
  · intro c hc
    exact List.drop_subset i s hc

theorem splitScheme_snd_mem (u : PyStr) : ∀ c ∈ (splitScheme u).2, c ∈ u := by
  unfold splitScheme
  rcases hf : findChar u 58 with _ | i
  · intro c hc
    exact hc
  · intro c hc
    have hc' : c ∈ (if 0 < i ∧ (u.head?.elim false isAsciiAlphaC) = true
        ∧ (u.take i).all isSchemeChar = true
      then (pyLower (u.take i), u.drop (i + 1)) else (([] : PyStr), u)).2 := hc
    by_cases hcond : 0 < i ∧ (u.head?.elim false isAsciiAlphaC) = true
       ∧ (u.take i).all isSchemeChar = true
    · rw [if_pos hcond] at hc'
      exact List.drop_subset (i + 1) u hc'
    · rw [if_neg hcond] at hc'
      exact hc'

theorem pyUrlsplit_ok_facts (url : PyStr) (r : SplitResult)
    (h : pyUrlsplit url = Except.ok r) :
    (∀ c ∈ r.netloc, ¬(c = 47 ∨ c = 63 ∨ c = 35) ∧ ¬(c = 9 ∨ c = 13 ∨ c = 10))
    ∧ (∀ c ∈ r.path, c ≠ 63 ∧ c ≠ 35 ∧ ¬(c = 9 ∨ c = 13 ∨ c = 10))
    ∧ ¬((hasChar r.netloc 91 = true ∧ ¬ hasChar r.netloc 93 = true)
        ∨ (hasChar r.netloc 93 = true ∧ ¬ hasChar r.netloc 91 = true)) := by
  have h' : (if (hasChar (if startsWithP (splitScheme (url.filter
          (fun c => ¬ (c = 9 ∨ c = 13 ∨ c = 10)))).2 (pstr "//") = true
          then splitNetloc ((splitScheme (url.filter
            (fun c => ¬ (c = 9 ∨ c = 13 ∨ c = 10)))).2.drop 2)
          else ([], (splitScheme (url.filter
            (fun c => ¬ (c = 9 ∨ c = 13 ∨ c = 10)))).2)).1 91 = true
        ∧ ¬ hasChar (if startsWithP (splitScheme (url.filter
          (fun c => ¬ (c = 9 ∨ c = 13 ∨ c = 10)))).2 (pstr "//") = true
          then splitNetloc ((splitScheme (url.filter
            (fun c => ¬ (c = 9 ∨ c = 13 ∨ c = 10)))).2.drop 2)
          else ([], (splitScheme (url.filter
            (fun c => ¬ (c = 9 ∨ c = 13 ∨ c = 10)))).2)).1 93 = true)
      ∨ (hasChar (if startsWithP (splitScheme (url.filter
          (fun c => ¬ (c = 9 ∨ c = 13 ∨ c = 10)))).2 (pstr "//") = true
          then splitNetloc ((splitScheme (url.filter
            (fun c => ¬ (c = 9 ∨ c = 13 ∨ c = 10)))).2.drop 2)
          else ([], (splitScheme (url.filter
            (fun c => ¬ (c = 9 ∨ c = 13 ∨ c = 10)))).2)).1 93 = true
        ∧ ¬ hasChar (if startsWithP (splitScheme (url.filter
          (fun c => ¬ (c = 9 ∨ c = 13 ∨ c = 10)))).2 (pstr "//") = true
          then splitNetloc ((splitScheme (url.filter
            (fun c => ¬ (c = 9 ∨ c = 13 ∨ c = 10)))).2.drop 2)
          else ([], (splitScheme (url.filter
            (fun c => ¬ (c = 9 ∨ c = 13 ∨ c = 10)))).2)).1 91 = true)
      then Except.error ()
      else Except.ok (⟨(splitScheme (url.filter (fun c => ¬ (c = 9 ∨ c = 13 ∨ c = 10)))).1,
        (if startsWithP (splitScheme (url.filter
          (fun c => ¬ (c = 9 ∨ c = 13 ∨ c = 10)))).2 (pstr "//") = true
          then splitNetloc ((splitScheme (url.filter
            (fun c => ¬ (c = 9 ∨ c = 13 ∨ c = 10)))).2.drop 2)
          else ([], (splitScheme (url.filter
            (fun c => ¬ (c = 9 ∨ c = 13 ∨ c = 10)))).2)).1,
        (match splitFirst 63 (match splitFirst 35 (if startsWithP (splitScheme (url.filter
            (fun c => ¬ (c = 9 ∨ c = 13 ∨ c = 10)))).2 (pstr "//") = true
            then splitNetloc ((splitScheme (url.filter
              (fun c => ¬ (c = 9 ∨ c = 13 ∨ c = 10)))).2.drop 2)
            else ([], (splitScheme (url.filter
              (fun c => ¬ (c = 9 ∨ c = 13 ∨ c = 10)))).2)).2 with
          | some (a, b) => (a, b)
          | none => ((if startsWithP (splitScheme (url.filter
              (fun c => ¬ (c = 9 ∨ c = 13 ∨ c = 10)))).2 (pstr "//") = true
              then splitNetloc ((splitScheme (url.filter
                (fun c => ¬ (c = 9 ∨ c = 13 ∨ c = 10)))).2.drop 2)
              else ([], (splitScheme (url.filter
                (fun c => ¬ (c = 9 ∨ c = 13 ∨ c = 10)))).2)).2, [])).1 with
          | some (a, b) => (a, b)
          | none => ((match splitFirst 35 (if startsWithP (splitScheme (url.filter
              (fun c => ¬ (c = 9 ∨ c = 13 ∨ c = 10)))).2 (pstr "//") = true
              then splitNetloc ((splitScheme (url.filter
                (fun c => ¬ (c = 9 ∨ c = 13 ∨ c = 10)))).2.drop 2)
              else ([], (splitScheme (url.filter
                (fun c => ¬ (c = 9 ∨ c = 13 ∨ c = 10)))).2)).2 with
            | some (a, b) => (a, b)
            | none => ((if startsWithP (splitScheme (url.filter
                (fun c => ¬ (c = 9 ∨ c = 13 ∨ c = 10)))).2 (pstr "//") = true
                then splitNetloc ((splitScheme (url.filter
                  (fun c => ¬ (c = 9 ∨ c = 13 ∨ c = 10)))).2.drop 2)
                else ([], (splitScheme (url.filter
                  (fun c => ¬ (c = 9 ∨ c = 13 ∨ c = 10)))).2)).2, [])).1, [])).1,
        (match splitFirst 63 (match splitFirst 35 (if startsWithP (splitScheme (url.filter
            (fun c => ¬ (c = 9 ∨ c = 13 ∨ c = 10)))).2 (pstr "//") = true
            then splitNetloc ((splitScheme (url.filter
              (fun c => ¬ (c = 9 ∨ c = 13 ∨ c = 10)))).2.drop 2)
            else ([], (splitScheme (url.filter
              (fun c => ¬ (c = 9 ∨ c = 13 ∨ c = 10)))).2)).2 with
          | some (a, b) => (a, b)
          | none => ((if startsWithP (splitScheme (url.filter
              (fun c => ¬ (c = 9 ∨ c = 13 ∨ c = 10)))).2 (pstr "//") = true
              then splitNetloc ((splitScheme (url.filter
                (fun c => ¬ (c = 9 ∨ c = 13 ∨ c = 10)))).2.drop 2)
              else ([], (splitScheme (url.filter
                (fun c => ¬ (c = 9 ∨ c = 13 ∨ c = 10)))).2)).2, [])).1 with
          | some (a, b) => (a, b)
          | none => ((match splitFirst 35 (if startsWithP (splitScheme (url.filter
              (fun c => ¬ (c = 9 ∨ c = 13 ∨ c = 10)))).2 (pstr "//") = true
              then splitNetloc ((splitScheme (url.filter
                (fun c => ¬ (c = 9 ∨ c = 13 ∨ c = 10)))).2.drop 2)
              else ([], (splitScheme (url.filter
                (fun c => ¬ (c = 9 ∨ c = 13 ∨ c = 10)))).2)).2 with
            | some (a, b) => (a, b)
            | none => ((if startsWithP (splitScheme (url.filter
                (fun c => ¬ (c = 9 ∨ c = 13 ∨ c = 10)))).2 (pstr "//") = true
                then splitNetloc ((splitScheme (url.filter
                  (fun c => ¬ (c = 9 ∨ c = 13 ∨ c = 10)))).2.drop 2)
                else ([], (splitScheme (url.filter
                  (fun c => ¬ (c = 9 ∨ c = 13 ∨ c = 10)))).2)).2, [])).1, [])).2,
        (match splitFirst 35 (if startsWithP (splitScheme (url.filter
            (fun c => ¬ (c = 9 ∨ c = 13 ∨ c = 10)))).2 (pstr "//") = true
            then splitNetloc ((splitScheme (url.filter
              (fun c => ¬ (c = 9 ∨ c = 13 ∨ c = 10)))).2.drop 2)
            else ([], (splitScheme (url.filter
              (fun c => ¬ (c = 9 ∨ c = 13 ∨ c = 10)))).2)).2 with
          | some (a, b) => (a, b)
          | none => ((if startsWithP (splitScheme (url.filter
              (fun c => ¬ (c = 9 ∨ c = 13 ∨ c = 10)))).2 (pstr "//") = true
              then splitNetloc ((splitScheme (url.filter
                (fun c => ¬ (c = 9 ∨ c = 13 ∨ c = 10)))).2.drop 2)
              else ([], (splitScheme (url.filter
                (fun c => ¬ (c = 9 ∨ c = 13 ∨ c = 10)))).2)).2, [])).2⟩ : SplitResult))
      = Except.ok r := h
  generalize hU : url.filter (fun c => ¬ (c = 9 ∨ c = 13 ∨ c = 10)) = U at h'
  generalize hNR : (if startsWithP (splitScheme U).2 (pstr "//") = true
      then splitNetloc ((splitScheme U).2.drop 2)
      else (([] : PyStr), (splitScheme U).2)) = NR at h'
  generalize hFR : (match splitFirst 35 NR.2 with
      | some (a, b) => (a, b)
      | none => (NR.2, ([] : PyStr))) = FR at h'
  generalize hPQ : (match splitFirst 63 FR.1 with
      | some (a, b) => (a, b)
      | none => (FR.1, ([] : PyStr))) = PQ at h'
  have hUmem : ∀ c ∈ U, ¬(c = 9 ∨ c = 13 ∨ c = 10) := by
    intro c hc
    rw [← hU] at hc
    have := (List.mem_filter.mp hc).2
    simpa using this
  have hNmem : ∀ c ∈ NR.1, c ∈ U := by
    intro c hc
    rw [← hNR] at hc
    by_cases hsw : startsWithP (splitScheme U).2 (pstr "//") = true
    · rw [if_pos hsw] at hc
      exact splitScheme_snd_mem U c (List.drop_subset 2 _ (splitNetloc_fst_mem _ c hc))
    · rw [if_neg hsw] at hc
      simp at hc
  have hNcut : ∀ c ∈ NR.1, ¬(c = 47 ∨ c = 63 ∨ c = 35) := by
    intro c hc
    rw [← hNR] at hc
    by_cases hsw : startsWithP (splitScheme U).2 (pstr "//") = true
    · rw [if_pos hsw] at hc
      exact splitNetloc_fst_not _ c hc
    · rw [if_neg hsw] at hc
      simp at hc
  have hR1mem : ∀ c ∈ NR.2, c ∈ U := by
    intro c hc
    rw [← hNR] at hc
    by_cases hsw : startsWithP (splitScheme U).2 (pstr "//") = true
    · rw [if_pos hsw] at hc
      exact splitScheme_snd_mem U c (List.drop_subset 2 _ (splitNetloc_snd_mem _ c hc))
    · rw [if_neg hsw] at hc
      exact splitScheme_snd_mem U c hc
  have hFR1mem : ∀ c ∈ FR.1, c ∈ NR.2 := by
    intro c hc
    rw [← hFR] at hc
    rcases hsf : splitFirst 35 NR.2 with _ | ⟨a, b⟩
    · rw [hsf] at hc
      exact hc
    · rw [hsf] at hc
      obtain ⟨heq, _⟩ := splitFirst_some 35 NR.2 a b hsf
      rw [heq]
      exact List.mem_append.mpr (Or.inl hc)
  have hFR1no35 : ∀ c ∈ FR.1, c ≠ 35 := by
    intro c hc
    rw [← hFR] at hc
    rcases hsf : splitFirst 35 NR.2 with _ | ⟨a, b⟩
    · rw [hsf] at hc
      intro he
      exact (splitFirst_none 35 NR.2).mp hsf (he ▸ hc)
    · rw [hsf] at hc
      obtain ⟨_, hnotin⟩ := splitFirst_some 35 NR.2 a b hsf
      intro he
      exact hnotin (he ▸ hc)
  have hPmem : ∀ c ∈ PQ.1, c ∈ FR.1 := by
    intro c hc
    rw [← hPQ] at hc
    rcases hsf : splitFirst 63 FR.1 with _ | ⟨a, b⟩
    · rw [hsf] at hc
      exact hc
    · rw [hsf] at hc
      obtain ⟨heq, _⟩ := splitFirst_some 63 FR.1 a b hsf
      rw [heq]
      exact List.mem_append.mpr (Or.inl hc)
  have hPno63 : ∀ c ∈ PQ.1, c ≠ 63 := by
    intro c hc
    rw [← hPQ] at hc
    rcases hsf : splitFirst 63 FR.1 with _ | ⟨a, b⟩
    · rw [hsf] at hc
      intro he
      exact (splitFirst_none 63 FR.1).mp hsf (he ▸ hc)
    · rw [hsf] at hc
      obtain ⟨_, hnotin⟩ := splitFirst_some 63 FR.1 a b hsf
      intro he
      exact hnotin (he ▸ hc)
  split at h'
  · exact absurd h' (by simp)
  · rename_i hbr
    have hr : r = ⟨(splitScheme U).1, NR.1, PQ.1, PQ.2, FR.2⟩ :=
      (Except.ok.inj h').symm
    subst hr
    refine ⟨?_, ?_, ?_⟩
    · intro c hc
      exact ⟨hNcut c hc, hUmem c (hNmem c hc)⟩
    · intro c hc
      exact ⟨hPno63 c hc, hFR1no35 c (hPmem c hc),
        hUmem c (hR1mem c (hFR1mem c (hPmem c hc)))⟩
    · exact hbr

theorem pyUrlparse_ok_decomp (url : PyStr) (pr : ParseResult)
    (h : pyUrlparse url = Except.ok pr) :
    ∃ s : SplitResult, pyUrlsplit url = Except.ok s
      ∧ pr = ⟨s.scheme, s.netloc, (splitParams s.path).1, (splitParams s.path).2,
          s.query, s.fragment⟩ := by
  unfold pyUrlparse at h
  rcases hs : pyUrlsplit url with e | s
  · rw [hs] at h
    have h' : (Except.error e : Except Unit ParseResult) = Except.ok pr := h
    exact absurd h' (by simp)
  · rw [hs] at h
    have h' : Except.ok (⟨s.scheme, s.netloc, (splitParams s.path).1,
        (splitParams s.path).2, s.query, s.fragment⟩ : ParseResult) = Except.ok pr := h
    exact ⟨s, rfl, (Except.ok.inj h').symm⟩

theorem splitParams_fst_mem (p : PyStr) : ∀ c ∈ (splitParams p).1, c ∈ p := by
  intro c hc
  have hc' : c ∈ (match (if hasChar p 47 = true
      then match rfindChar p 47 with
        | some j => findCharFrom p 59 j
        | none => findChar p 59
      else findChar p 59 : Option Nat) with
    | none => (p, ([] : PyStr))
    | some i => (p.take i, p.drop (i + 1))).1 := hc
  rcases hI : (if hasChar p 47 = true
      then match rfindChar p 47 with
        | some j => findCharFrom p 59 j
        | none => findChar p 59
      else findChar p 59 : Option Nat) with _ | i
  · rw [hI] at hc'
    exact hc'
  · rw [hI] at hc'
    exact List.take_subset i p hc'

theorem normPath_shape (p : PyStr) :
    normPath p = pstr "/"
    ∨ (normPath p ≠ [] ∧ endsWithP (normPath p) (pstr "/") = false) := by
  simp only [normPath]
  by_cases h1 : p ≠ pstr "/" ∧ endsWithP p (pstr "/") = true
  · rw [if_pos h1]
    by_cases h2 : rstripChar p 47 = []
    · rw [if_pos h2]
      left
      rfl
    · rw [if_neg h2]
      right
      refine ⟨h2, ?_⟩
      exact rstripChar_not_endsWith p 47 h2
  · rw [if_neg h1]
    by_cases hp : p = pstr "/"
    · subst hp
      rw [if_neg (by decide)]
      left
      rfl
    · have hend : endsWithP p (pstr "/") = false := by
        rcases Bool.eq_false_or_eq_true (endsWithP p (pstr "/")) with hb | hb
        · exact absurd ⟨hp, hb⟩ h1
        · exact hb
      by_cases hpe : p = []
      · subst hpe
        rw [if_pos rfl]
        left
        rfl
      · rw [if_neg hpe]
        right
        exact ⟨hpe, hend⟩

theorem normPath_of_shape (r : PyStr)
    (h : r = pstr "/" ∨ (r ≠ [] ∧ endsWithP r (pstr "/") = false)) :
    normPath r = r := by
  simp only [normPath]
  rcases h with rfl | ⟨hne, hend⟩
  · have hinner : (if pstr "/" ≠ pstr "/" ∧ endsWithP (pstr "/") (pstr "/") = true
        then rstripChar (pstr "/") 47 else pstr "/") = pstr "/" :=
      if_neg (fun hand => hand.1 rfl)
    rw [hinner, if_neg (by decide : ¬ (pstr "/" = ([] : PyStr)))]
  · have hinner : (if r ≠ pstr "/" ∧ endsWithP r (pstr "/") = true
        then rstripChar r 47 else r) = r :=
      if_neg (fun hand => by rw [hend] at hand; exact absurd hand.2 (by simp))
    rw [hinner, if_neg hne]

theorem normPath_idem (p : PyStr) : normPath (normPath p) = normPath p :=
  normPath_of_shape (normPath p) (normPath_shape p)

theorem normPath_ne_nil (p : PyStr) : normPath p ≠ [] := by
  rcases normPath_shape p with h | ⟨h, _⟩
  · rw [h]; decide
  · exact h

theorem normPath_mem (p : PyStr) : ∀ c ∈ normPath p, c ∈ p ∨ c = 47 := by
  simp only [normPath]
  by_cases h1 : p ≠ pstr "/" ∧ endsWithP p (pstr "/") = true
  · rw [if_pos h1]
    by_cases h2 : rstripChar p 47 = []
    · rw [if_pos h2]
      intro c hc
      right
      have : pstr "/" = [47] := rfl
      rw [this] at hc
      simpa using hc
    · rw [if_neg h2]
      intro c hc
      left
      obtain ⟨t, ht⟩ := rstripChar_prefix p 47
      rw [← ht]
      exact List.mem_append.mpr (Or.inl hc)
  · rw [if_neg h1]
    by_cases hpe : p = []
    · rw [if_pos hpe]
      intro c hc
      right
      have : pstr "/" = [47] := rfl
      rw [this] at hc
      simpa using hc
    · rw [if_neg hpe]
      intro c hc
      exact Or.inl hc

theorem normPath_starts (p : PyStr) (h : startsWithP p (pstr "/") = true) :
    startsWithP (normPath p) (pstr "/") = true := by
  simp only [normPath]
  by_cases h1 : p ≠ pstr "/" ∧ endsWithP p (pstr "/") = true
  · rw [if_pos h1]
    by_cases h2 : rstripChar p 47 = []
    · rw [if_pos h2]
      decide
    · rw [if_neg h2]
      obtain ⟨t, ht⟩ := rstripChar_prefix p 47
      have hpre : [47] <+: p := by
        have := List.isPrefixOf_iff_prefix.mp h
        exact this
      rcases hr : rstripChar p 47 with _ | ⟨x, xs⟩
      · exact absurd hr h2
      · rw [hr] at ht
        have hx : x = 47 := by
          obtain ⟨t2, ht2⟩ := hpre
          rw [← ht2] at ht
          have := List.cons_eq_cons.mp ht
          exact this.1
        rw [startsWithP, hx]
        have : List.isPrefixOf ([47] : PyStr) (47 :: xs) = true := by
          rw [List.isPrefixOf_iff_prefix]
          exact ⟨xs, rfl⟩
        exact this
  · rw [if_neg h1]
    by_cases hpe : p = []
    · rw [if_pos hpe]
      decide
    · rw [if_neg hpe]
      exact h

theorem dropDefaultPort_eq (scheme nl : PyStr) :
    dropDefaultPort scheme nl = nl
    ∨ nl = dropDefaultPort scheme nl ++ pstr ":80"
    ∨ nl = dropDefaultPort scheme nl ++ pstr ":443" := by
  unfold dropDefaultPort
  split_ifs with h1 h2
  · right; left
    obtain ⟨pre, hpre⟩ := List.isSuffixOf_iff_suffix.mp h1.1
    rw [← hpre]
    have hlen : (pre ++ pstr ":80").length - 3 = pre.length := by
      rw [List.length_append]
      have : (pstr ":80").length = 3 := rfl
      omega
    rw [hlen, List.take_left]
  · right; right
    obtain ⟨pre, hpre⟩ := List.isSuffixOf_iff_suffix.mp h2.1
    rw [← hpre]
    have hlen : (pre ++ pstr ":443").length - 4 = pre.length := by
      rw [List.length_append]
      have : (pstr ":443").length = 4 := rfl
      omega
    rw [hlen, List.take_left]
  · left; rfl

theorem pyUrlsplit_flat (url : PyStr) :
    pyUrlsplit url =
      (if (hasChar (if startsWithP (splitScheme (url.filter (fun c => ¬ (c = 9 ∨ c = 13 ∨ c = 10)))).2 (pstr "//") = true
      then splitNetloc ((splitScheme (url.filter (fun c => ¬ (c = 9 ∨ c = 13 ∨ c = 10)))).2.drop 2)
      else ([], (splitScheme (url.filter (fun c => ¬ (c = 9 ∨ c = 13 ∨ c = 10)))).2)).1 91 = true ∧ ¬ hasChar (if startsWithP (splitScheme (url.filter (fun c => ¬ (c = 9 ∨ c = 13 ∨ c = 10)))).2 (pstr "//") = true
      then splitNetloc ((splitScheme (url.filter (fun c => ¬ (c = 9 ∨ c = 13 ∨ c = 10)))).2.drop 2)
      else ([], (splitScheme (url.filter (fun c => ¬ (c = 9 ∨ c = 13 ∨ c = 10)))).2)).1 93 = true)
        ∨ (hasChar (if startsWithP (splitScheme (url.filter (fun c => ¬ (c = 9 ∨ c = 13 ∨ c = 10)))).2 (pstr "//") = true
      then splitNetloc ((splitScheme (url.filter (fun c => ¬ (c = 9 ∨ c = 13 ∨ c = 10)))).2.drop 2)
      else ([], (splitScheme (url.filter (fun c => ¬ (c = 9 ∨ c = 13 ∨ c = 10)))).2)).1 93 = true ∧ ¬ hasChar (if startsWithP (splitScheme (url.filter (fun c => ¬ (c = 9 ∨ c = 13 ∨ c = 10)))).2 (pstr "//") = true
      then splitNetloc ((splitScheme (url.filter (fun c => ¬ (c = 9 ∨ c = 13 ∨ c = 10)))).2.drop 2)
      else ([], (splitScheme (url.filter (fun c => ¬ (c = 9 ∨ c = 13 ∨ c = 10)))).2)).1 91 = true)
      then Except.error ()
      else Except.ok (⟨(splitScheme (url.filter (fun c => ¬ (c = 9 ∨ c = 13 ∨ c = 10)))).1, (if startsWithP (splitScheme (url.filter (fun c => ¬ (c = 9 ∨ c = 13 ∨ c = 10)))).2 (pstr "//") = true
      then splitNetloc ((splitScheme (url.filter (fun c => ¬ (c = 9 ∨ c = 13 ∨ c = 10)))).2.drop 2)
      else ([], (splitScheme (url.filter (fun c => ¬ (c = 9 ∨ c = 13 ∨ c = 10)))).2)).1, (match splitFirst 63 (match splitFirst 35 (if startsWithP (splitScheme (url.filter (fun c => ¬ (c = 9 ∨ c = 13 ∨ c = 10)))).2 (pstr "//") = true
      then splitNetloc ((splitScheme (url.filter (fun c => ¬ (c = 9 ∨ c = 13 ∨ c = 10)))).2.drop 2)
      else ([], (splitScheme (url.filter (fun c => ¬ (c = 9 ∨ c = 13 ∨ c = 10)))).2)).2 with
      | some (a, b) => (a, b)
      | none => ((if startsWithP (splitScheme (url.filter (fun c => ¬ (c = 9 ∨ c = 13 ∨ c = 10)))).2 (pstr "//") = true
      then splitNetloc ((splitScheme (url.filter (fun c => ¬ (c = 9 ∨ c = 13 ∨ c = 10)))).2.drop 2)
      else ([], (splitScheme (url.filter (fun c => ¬ (c = 9 ∨ c = 13 ∨ c = 10)))).2)).2, [])).1 with
      | some (a, b) => (a, b)
      | none => ((match splitFirst 35 (if startsWithP (splitScheme (url.filter (fun c => ¬ (c = 9 ∨ c = 13 ∨ c = 10)))).2 (pstr "//") = true
      then splitNetloc ((splitScheme (url.filter (fun c => ¬ (c = 9 ∨ c = 13 ∨ c = 10)))).2.drop 2)
      else ([], (splitScheme (url.filter (fun c => ¬ (c = 9 ∨ c = 13 ∨ c = 10)))).2)).2 with
      | some (a, b) => (a, b)
      | none => ((if startsWithP (splitScheme (url.filter (fun c => ¬ (c = 9 ∨ c = 13 ∨ c = 10)))).2 (pstr "//") = true
      then splitNetloc ((splitScheme (url.filter (fun c => ¬ (c = 9 ∨ c = 13 ∨ c = 10)))).2.drop 2)
      else ([], (splitScheme (url.filter (fun c => ¬ (c = 9 ∨ c = 13 ∨ c = 10)))).2)).2, [])).1, [])).1,
        (match splitFirst 63 (match splitFirst 35 (if startsWithP (splitScheme (url.filter (fun c => ¬ (c = 9 ∨ c = 13 ∨ c = 10)))).2 (pstr "//") = true
      then splitNetloc ((splitScheme (url.filter (fun c => ¬ (c = 9 ∨ c = 13 ∨ c = 10)))).2.drop 2)
      else ([], (splitScheme (url.filter (fun c => ¬ (c = 9 ∨ c = 13 ∨ c = 10)))).2)).2 with
      | some (a, b) => (a, b)
      | none => ((if startsWithP (splitScheme (url.filter (fun c => ¬ (c = 9 ∨ c = 13 ∨ c = 10)))).2 (pstr "//") = true
      then splitNetloc ((splitScheme (url.filter (fun c => ¬ (c = 9 ∨ c = 13 ∨ c = 10)))).2.drop 2)
      else ([], (splitScheme (url.filter (fun c => ¬ (c = 9 ∨ c = 13 ∨ c = 10)))).2)).2, [])).1 with
      | some (a, b) => (a, b)
      | none => ((match splitFirst 35 (if startsWithP (splitScheme (url.filter (fun c => ¬ (c = 9 ∨ c = 13 ∨ c = 10)))).2 (pstr "//") = true
      then splitNetloc ((splitScheme (url.filter (fun c => ¬ (c = 9 ∨ c = 13 ∨ c = 10)))).2.drop 2)
      else ([], (splitScheme (url.filter (fun c => ¬ (c = 9 ∨ c = 13 ∨ c = 10)))).2)).2 with
      | some (a, b) => (a, b)
      | none => ((if startsWithP (splitScheme (url.filter (fun c => ¬ (c = 9 ∨ c = 13 ∨ c = 10)))).2 (pstr "//") = true
      then splitNetloc ((splitScheme (url.filter (fun c => ¬ (c = 9 ∨ c = 13 ∨ c = 10)))).2.drop 2)
      else ([], (splitScheme (url.filter (fun c => ¬ (c = 9 ∨ c = 13 ∨ c = 10)))).2)).2, [])).1, [])).2, (match splitFirst 35 (if startsWithP (splitScheme (url.filter (fun c => ¬ (c = 9 ∨ c = 13 ∨ c = 10)))).2 (pstr "//") = true
      then splitNetloc ((splitScheme (url.filter (fun c => ¬ (c = 9 ∨ c = 13 ∨ c = 10)))).2.drop 2)
      else ([], (splitScheme (url.filter (fun c => ¬ (c = 9 ∨ c = 13 ∨ c = 10)))).2)).2 with
      | some (a, b) => (a, b)
      | none => ((if startsWithP (splitScheme (url.filter (fun c => ¬ (c = 9 ∨ c = 13 ∨ c = 10)))).2 (pstr "//") = true
      then splitNetloc ((splitScheme (url.filter (fun c => ¬ (c = 9 ∨ c = 13 ∨ c = 10)))).2.drop 2)
      else ([], (splitScheme (url.filter (fun c => ¬ (c = 9 ∨ c = 13 ∨ c = 10)))).2)).2, [])).2⟩ : SplitResult)) := rfl

theorem splitScheme_append (s R : PyStr) (hsne : s ≠ []) (hs58 : (58 : Nat) ∉ s)
    (hshead : s.head?.elim false isAsciiAlphaC = true)
    (hsall : s.all isSchemeChar = true) :
    splitScheme (s ++ 58 :: R) = (pyLower s, R) := by
  unfold splitScheme
  have hfind : findChar (s ++ 58 :: R) 58 = some s.length := by
    rw [findChar, List.findIdx?_append]
    rw [List.findIdx?_eq_none_iff.mpr (fun x hx => by
      simp only [decide_eq_false_iff_not]
      exact fun he => hs58 (he ▸ hx))]
    rw [List.findIdx?_cons]
    simp
  rw [hfind]
  have htake : (s ++ 58 :: R).take s.length = s := List.take_left s _
  have hhead : (s ++ 58 :: R).head? = s.head? := by
    cases s with
    | nil => exact absurd rfl hsne
    | cons a t => rfl
  have hcond : 0 < s.length ∧ ((s ++ 58 :: R).head?.elim false isAsciiAlphaC) = true
      ∧ ((s ++ 58 :: R).take s.length).all isSchemeChar = true := by
    refine ⟨?_, ?_, ?_⟩
    · cases s with
      | nil => exact absurd rfl hsne
      | cons a t => simp
    · rw [hhead]; exact hshead
    · rw [htake]; exact hsall
  show (if 0 < s.length ∧ ((s ++ 58 :: R).head?.elim false isAsciiAlphaC) = true
      ∧ ((s ++ 58 :: R).take s.length).all isSchemeChar = true
    then (pyLower ((s ++ 58 :: R).take s.length), (s ++ 58 :: R).drop (s.length + 1))
    else ([], s ++ 58 :: R)) = (pyLower s, R)
  rw [if_pos hcond, htake]
  have hdrop : (s ++ 58 :: R).drop (s.length + 1) = R := by
    rw [show s ++ 58 :: R = (s ++ [58]) ++ R from by simp,
      show s.length + 1 = (s ++ [58]).length from by simp,
      List.drop_left]
  rw [hdrop]

theorem splitNetloc_append (nl rest : PyStr)
    (hnl : ∀ c ∈ nl, ¬(c = 47 ∨ c = 63 ∨ c = 35))
    (hhead : ∃ c, rest.head? = some c ∧ (c = 47 ∨ c = 63 ∨ c = 35)) :
    splitNetloc (nl ++ rest) = (nl, rest) := by
  unfold splitNetloc
  obtain ⟨c, hc1, hc2⟩ := hhead
  have hfind : (nl ++ rest).findIdx? (fun c => decide (c = 47 ∨ c = 63 ∨ c = 35))
      = some nl.length := by
    rw [List.findIdx?_append]
    rw [List.findIdx?_eq_none_iff.mpr (fun x hx => by
      simp only [decide_eq_false_iff_not]
      exact hnl x hx)]
    cases rest with
    | nil => simp at hc1
    | cons r0 rrest =>
      have hr0 : r0 = c := by simpa using hc1
      rw [List.findIdx?_cons, if_pos (by rw [hr0]; simpa using hc2)]
      simp
  rw [hfind]
  show ((nl ++ rest).take nl.length, (nl ++ rest).drop nl.length) = (nl, rest)
  rw [List.take_left, List.drop_left]

theorem splitParams_no59 (p : PyStr) (h : (59 : Nat) ∉ p) : splitParams p = (p, []) := by
  unfold splitParams
  have h59 : ∀ start, findCharFrom p 59 start = none := by
    intro start
    rw [findCharFrom]
    rw [List.findIdx?_eq_none_iff.mpr (fun x hx => by
      simp only [decide_eq_false_iff_not]
      exact fun he => h (he ▸ List.drop_subset start p hx))]
  have h59' : findChar p 59 = none := by
    rw [findChar]
    exact List.findIdx?_eq_none_iff.mpr (fun x hx => by
      simp only [decide_eq_false_iff_not]
      exact fun he => h (he ▸ hx))
  have hI : (if hasChar p 47 = true
      then match rfindChar p 47 with
        | some j => findCharFrom p 59 j
        | none => findChar p 59
      else findChar p 59 : Option Nat) = (none : Option Nat) := by
    split_ifs with h47
    · rcases hrf : rfindChar p 47 with _ | j
      · exact h59'
      · exact h59 j
    · exact h59'
  show (match (if hasChar p 47 = true
      then match rfindChar p 47 with
        | some j => findCharFrom p 59 j
        | none => findChar p 59
      else findChar p 59 : Option Nat) with
    | none => (p, ([] : PyStr))
    | some i => (p.take i, p.drop (i + 1))) = (p, [])
  rw [hI]

theorem pyUrlparse_roundtrip (s n p q : PyStr)
    (hsne : s ≠ []) (hs58 : (58 : Nat) ∉ s)
    (hshead : s.head?.elim false isAsciiAlphaC = true)
    (hsall : s.all isSchemeChar = true)
    (hslower : pyLower s = s)
    (hsfree : ∀ c ∈ s, ¬(c = 9 ∨ c = 13 ∨ c = 10))
    (hn : n ≠ [])
    (hnfree : ∀ c ∈ n, ¬(c = 47 ∨ c = 63 ∨ c = 35) ∧ ¬(c = 9 ∨ c = 13 ∨ c = 10))
    (hbr : ¬((hasChar n 91 = true ∧ ¬ hasChar n 93 = true)
        ∨ (hasChar n 93 = true ∧ ¬ hasChar n 91 = true)))
    (hp : startsWithP p (pstr "/") = true)
    (hpfree : ∀ c ∈ p, c ≠ 63 ∧ c ≠ 35 ∧ c ≠ 59 ∧ ¬(c = 9 ∨ c = 13 ∨ c = 10))
    (hqfree : ∀ c ∈ q, c ≠ 35 ∧ ¬(c = 9 ∨ c = 13 ∨ c = 10)) :
    pyUrlparse (pyUrlunparse ⟨s, n, p, [], q, []⟩) = Except.ok ⟨s, n, p, [], q, []⟩ := by
  obtain ⟨p', hp'⟩ : ∃ p', p = 47 :: p' := by
    obtain ⟨t, ht⟩ := List.isPrefixOf_iff_prefix.mp hp
    exact ⟨t, by rw [← ht]; rfl⟩
  have hpne : p ≠ [] := by rw [hp']; simp
  set T := p ++ (if q = [] then [] else 63 :: q) with hT
  have hThead : ∃ c, T.head? = some c ∧ (c = 47 ∨ c = 63 ∨ c = 35) := by
    refine ⟨47, ?_, Or.inl rfl⟩
    rw [hT, hp']
    rfl
  have hT35 : splitFirst 35 T = none := (splitFirst_none 35 T).mpr (by
    intro hmem
    rw [hT] at hmem
    rcases List.mem_append.mp hmem with h | h
    · exact (hpfree 35 h).2.1 rfl
    · by_cases hq : q = []
      · rw [if_pos hq] at h
        simp at h
      · rw [if_neg hq] at h
        rcases List.mem_cons.mp h with he | h
        · exact absurd he (by omega)
        · exact (hqfree 35 h).1 rfl)
  have hT63 : (match splitFirst 63 T with
      | some (a, b) => (a, b)
      | none => (T, ([] : PyStr))) = (p, q) := by
    by_cases hq : q = []
    · have hnone : splitFirst 63 T = none := (splitFirst_none 63 T).mpr (by
        intro hmem
        rw [hT, if_pos hq] at hmem
        simp only [List.append_nil] at hmem
        exact (hpfree 63 hmem).1 rfl)
      rw [hnone, hT, if_pos hq, hq]
      simp
    · have h63p : (63 : Nat) ∉ p := fun hm => (hpfree 63 hm).1 rfl
      have hsome : splitFirst 63 T = some (p, q) := by
        rw [hT, if_neg hq]
        exact splitFirst_append 63 p q h63p
      rw [hsome]
  have hTfree : ∀ c ∈ T, ¬ (c = 9 ∨ c = 13 ∨ c = 10) := by
    intro c hc
    rw [hT] at hc
    rcases List.mem_append.mp hc with h | h
    · exact (hpfree c h).2.2.2
    · by_cases hq : q = []
      · rw [if_pos hq] at h
        simp at h
      · rw [if_neg hq] at h
        rcases List.mem_cons.mp h with rfl | h
        · omega
        · exact (hqfree c h).2
  have hv : pyUrlunparse ⟨s, n, p, [], q, []⟩
      = (if q ≠ [] then (if s ≠ [] then s ++ 58 :: (if n ≠ [] ∨ (p ≠ [] ∧ startsWithP p (pstr "//") = true)
        then pstr "//" ++ n ++ (if p ≠ [] ∧ ¬ startsWithP p (pstr "/") = true
          then 47 :: p else p)
        else p)
          else (if n ≠ [] ∨ (p ≠ [] ∧ startsWithP p (pstr "//") = true)
        then pstr "//" ++ n ++ (if p ≠ [] ∧ ¬ startsWithP p (pstr "/") = true
          then 47 :: p else p)
        else p)) ++ 63 :: q
        else (if s ≠ [] then s ++ 58 :: (if n ≠ [] ∨ (p ≠ [] ∧ startsWithP p (pstr "//") = true)
        then pstr "//" ++ n ++ (if p ≠ [] ∧ ¬ startsWithP p (pstr "/") = true
          then 47 :: p else p)
        else p)
          else (if n ≠ [] ∨ (p ≠ [] ∧ startsWithP p (pstr "//") = true)
        then pstr "//" ++ n ++ (if p ≠ [] ∧ ¬ startsWithP p (pstr "/") = true
          then 47 :: p else p)
        else p))) := rfl
  have hB : (if n ≠ [] ∨ (p ≠ [] ∧ startsWithP p (pstr "//") = true)
        then pstr "//" ++ n ++ (if p ≠ [] ∧ ¬ startsWithP p (pstr "/") = true
          then 47 :: p else p)
        else p) = pstr "//" ++ n ++ p := by
    rw [if_pos (Or.inl hn), if_neg (fun hand => hand.2 hp)]
  rw [hB, if_pos hsne] at hv
  have hv2 : pyUrlunparse ⟨s, n, p, [], q, []⟩ = s ++ 58 :: (pstr "//" ++ (n ++ T)) := by
    rw [hv, hT]
    by_cases hq : q = []
    · rw [if_neg (fun hqq => hqq hq), if_pos hq]
      simp [List.append_assoc]
    · rw [if_pos hq, if_neg hq]
      simp [List.append_assoc]
  rw [hv2]
  have hfilter : (s ++ 58 :: (pstr "//" ++ (n ++ T))).filter
      (fun c => ¬ (c = 9 ∨ c = 13 ∨ c = 10)) = s ++ 58 :: (pstr "//" ++ (n ++ T)) := by
    rw [List.filter_eq_self]
    intro a ha
    simp only [decide_eq_true_eq]
    rcases List.mem_append.mp ha with h | h
    · exact hsfree a h
    · rcases List.mem_cons.mp h with rfl | h
      · omega
      · rcases List.mem_append.mp h with h | h
        · have h2 : pstr "//" = [47, 47] := rfl
          rw [h2] at h
          simp at h
          omega
        · rcases List.mem_append.mp h with h | h
          · exact (hnfree a h).2
          · exact hTfree a h
  have hsplit : pyUrlsplit (s ++ 58 :: (pstr "//" ++ (n ++ T)))
      = Except.ok ⟨s, n, p, q, []⟩ := by
    rw [pyUrlsplit_flat, hfilter]
    rw [splitScheme_append s _ hsne hs58 hshead hsall, hslower]
    dsimp only
    rw [if_pos (startsWithP_append_self (pstr "//") (n ++ T))]
    rw [show (pstr "//" ++ (n ++ T)).drop 2 = n ++ T from rfl]
    rw [splitNetloc_append n T (fun c hc => (hnfree c hc).1) hThead]
    dsimp only
    rw [if_neg hbr, hT35]
    dsimp only
    rw [hT63]
  unfold pyUrlparse
  rw [hsplit]
  have h59p : (59 : Nat) ∉ p := fun hm => (hpfree 59 hm).2.2.1 rfl
  show Except.ok (⟨s, n, (splitParams p).1, (splitParams p).2, q, []⟩ : ParseResult)
      = Except.ok ⟨s, n, p, [], q, []⟩
  rw [splitParams_no59 p h59p]

theorem pyLower_dropDefaultPort (sch nl : PyStr) :
    pyLower (dropDefaultPort sch (pyLower nl)) = dropDefaultPort sch (pyLower nl) := by
  unfold dropDefaultPort
  split_ifs with hA hB
  · show pyLower ((pyLower nl).take ((pyLower nl).length - 3)) = _
    rw [pyLower, List.map_take,
      show List.map lowerChar (pyLower nl) = pyLower (pyLower nl) from rfl, pyLower_idem]
  · show pyLower ((pyLower nl).take ((pyLower nl).length - 4)) = _
    rw [pyLower, List.map_take,
      show List.map lowerChar (pyLower nl) = pyLower (pyLower nl) from rfl, pyLower_idem]
  · exact pyLower_idem nl

theorem normalize_unparse_fixed (sch nl path0 q0 : PyStr)
    (hsch : sch = pstr "http" ∨ sch = pstr "https")
    (h4 : dropDefaultPort sch (pyLower nl) ≠ [])
    (h5 : endsWithP (dropDefaultPort sch (pyLower nl)) (pstr ":80") = false)
    (h5' : endsWithP (dropDefaultPort sch (pyLower nl)) (pstr ":443") = false)
    (hNfree : ∀ c ∈ dropDefaultPort sch (pyLower nl),
      ¬(c = 47 ∨ c = 63 ∨ c = 35) ∧ ¬(c = 9 ∨ c = 13 ∨ c = 10))
    (hbrN : ¬((hasChar (dropDefaultPort sch (pyLower nl)) 91 = true
        ∧ ¬ hasChar (dropDefaultPort sch (pyLower nl)) 93 = true)
      ∨ (hasChar (dropDefaultPort sch (pyLower nl)) 93 = true
        ∧ ¬ hasChar (dropDefaultPort sch (pyLower nl)) 91 = true)))
    (h6 : startsWithP path0 (pstr "/") = true)
    (hpfree : ∀ c ∈ path0, c ≠ 63 ∧ c ≠ 35 ∧ ¬(c = 9 ∨ c = 13 ∨ c = 10))
    (h59 : (59 : Nat) ∉ path0)
    (h8 : ValidPyStr q0) :
    normalize_url (pyUrlunparse ⟨sch, dropDefaultPort sch (pyLower nl),
      normPath path0, [], normalizeQuery q0, []⟩)
      = Except.ok (pyUrlunparse ⟨sch, dropDefaultPort sch (pyLower nl),
        normPath path0, [], normalizeQuery q0, []⟩) := by
  have hsl : pyLower sch = sch := by rcases hsch with rfl | rfl <;> decide
  have hsne : sch ≠ [] := by rcases hsch with rfl | rfl <;> decide
  have hs58 : (58 : Nat) ∉ sch := by rcases hsch with rfl | rfl <;> decide
  have hshead : sch.head?.elim false isAsciiAlphaC = true := by
    rcases hsch with rfl | rfl <;> decide
  have hsall : sch.all isSchemeChar = true := by rcases hsch with rfl | rfl <;> decide
  have hsfree : ∀ c ∈ sch, ¬(c = 9 ∨ c = 13 ∨ c = 10) := by
    rcases hsch with rfl | rfl <;> decide
  have hpfree' : ∀ c ∈ normPath path0, c ≠ 63 ∧ c ≠ 35 ∧ c ≠ 59
      ∧ ¬(c = 9 ∨ c = 13 ∨ c = 10) := by
    intro c hc
    rcases normPath_mem path0 c hc with h | rfl
    · exact ⟨(hpfree c h).1, (hpfree c h).2.1, fun he => h59 (he ▸ h), (hpfree c h).2.2⟩
    · exact ⟨by omega, by omega, by omega, by omega⟩
  have hq1free : ∀ c ∈ normalizeQuery q0, c ≠ 35 ∧ ¬(c = 9 ∨ c = 13 ∨ c = 10) := by
    intro c hc
    obtain ⟨_, h35, h9, h13, h10⟩ := normalizeQuery_charset q0 h8 c hc
    exact ⟨h35, by omega⟩
  have hdd2 : dropDefaultPort sch (dropDefaultPort sch (pyLower nl))
      = dropDefaultPort sch (pyLower nl) := by
    show (if endsWithP (dropDefaultPort sch (pyLower nl)) (pstr ":80") = true
        ∧ sch = pstr "http"
      then (dropDefaultPort sch (pyLower nl)).take
        ((dropDefaultPort sch (pyLower nl)).length - 3)
      else if endsWithP (dropDefaultPort sch (pyLower nl)) (pstr ":443") = true
        ∧ sch = pstr "https"
      then (dropDefaultPort sch (pyLower nl)).take
        ((dropDefaultPort sch (pyLower nl)).length - 4)
      else dropDefaultPort sch (pyLower nl)) = dropDefaultPort sch (pyLower nl)
    rw [if_neg (fun hand => by rw [h5] at hand; exact absurd hand.1 (by simp)),
      if_neg (fun hand => by rw [h5'] at hand; exact absurd hand.1 (by simp))]
  unfold normalize_url
  rw [pyUrlparse_roundtrip sch (dropDefaultPort sch (pyLower nl)) (normPath path0)
    (normalizeQuery q0) hsne hs58 hshead hsall hsl hsfree h4 hNfree hbrN
    (normPath_starts path0 h6) hpfree' hq1free]
  show Except.ok (pyUrlunparse ⟨pyLower sch,
      dropDefaultPort (pyLower sch) (pyLower (dropDefaultPort sch (pyLower nl))),
      normPath (normPath path0), [], normalizeQuery (normalizeQuery q0), []⟩)
    = Except.ok (pyUrlunparse ⟨sch, dropDefaultPort sch (pyLower nl),
      normPath path0, [], normalizeQuery q0, []⟩)
  rw [hsl, pyLower_dropDefaultPort sch nl, hdd2, normPath_idem,
    normalizeQuery_idem q0 h8]

theorem hasChar_false_of_not_mem (s : PyStr) (c : Nat) (h : c ∉ s) :
    hasChar s c = false := by
  rcases Bool.eq_false_or_eq_true (hasChar s c) with hb | hb
  · exact absurd ((hasChar_iff_mem s c).mp hb) h
  · exact hb

/-- C5 (counterexample): `normalize_url` is not idempotent.  For the URL
`http://h/a/;p/` the first normalization strips the trailing slash, producing
`http://h/a/;p`; re-parsing that output splits `;p` off the last path segment
as `params`, so the second normalization strips the now-trailing slash of the
path `/a/` and reattaches the params, producing the different URL
`http://h/a;p`. -/
theorem C5_counterexample :
    normalize_url (pstr "http://h/a/;p/") = Except.ok (pstr "http://h/a/;p")
    ∧ normalize_url (pstr "http://h/a/;p") = Except.ok (pstr "http://h/a;p")
    ∧ pstr "http://h/a/;p" ≠ pstr "http://h/a;p" :=
  ⟨rfl, rfl, by decide⟩

/-- C5 (amended): restricted idempotence of URL canonicalization.  For a URL
that parses with empty path-params, an `http`/`https` scheme, a host that is
nonempty after default-port removal and does not itself end in `:80`/`:443`,
a path that starts with `/` and contains no `;`, and a query of Unicode
scalar values, the output of `normalize_url` is a fixed point:
`normalize_url (normalize_url u) = normalize_url u`. -/
theorem C5_amended (u : PyStr) (pr : ParseResult)
    (h1 : pyUrlparse u = Except.ok pr)
    (h2 : pr.params = [])
    (h3 : pyLower pr.scheme = pstr "http" ∨ pyLower pr.scheme = pstr "https")
    (h4 : dropDefaultPort (pyLower pr.scheme) (pyLower pr.netloc) ≠ [])
    (h5 : endsWithP (dropDefaultPort (pyLower pr.scheme) (pyLower pr.netloc))
      (pstr ":80") = false)
    (h5' : endsWithP (dropDefaultPort (pyLower pr.scheme) (pyLower pr.netloc))
      (pstr ":443") = false)
    (h6 : startsWithP pr.path (pstr "/") = true)
    (h7 : hasChar pr.path 59 = false)
    (h8 : ValidPyStr pr.query) :
    ∀ v, normalize_url u = Except.ok v → normalize_url v = Except.ok v := by
  intro v hv
  obtain ⟨sr, hsr, hpr⟩ := pyUrlparse_ok_decomp u pr h1
  obtain ⟨hnlfacts, hpathfacts, hbr0⟩ := pyUrlsplit_ok_facts u sr hsr
  have hnet : pr.netloc = sr.netloc := by rw [hpr]
  have hpfacts : ∀ c ∈ pr.path, c ≠ 63 ∧ c ≠ 35 ∧ ¬(c = 9 ∨ c = 13 ∨ c = 10) := by
    intro c hc
    have hpp : pr.path = (splitParams sr.path).1 := by rw [hpr]
    rw [hpp] at hc
    exact hpathfacts c (splitParams_fst_mem sr.path c hc)
  have h59path : (59 : Nat) ∉ pr.path := fun hm => by
    rw [(hasChar_iff_mem pr.path 59).mpr hm] at h7
    exact absurd h7 (by simp)
  have hNfree : ∀ c ∈ dropDefaultPort (pyLower pr.scheme) (pyLower pr.netloc),
      ¬(c = 47 ∨ c = 63 ∨ c = 35) ∧ ¬(c = 9 ∨ c = 13 ∨ c = 10) := by
    intro c hc
    have hcl : c ∈ pyLower pr.netloc := by
      rcases dropDefaultPort_eq (pyLower pr.scheme) (pyLower pr.netloc) with he | he | he
      · exact he ▸ hc
      · rw [he]; exact List.mem_append.mpr (Or.inl hc)
      · rw [he]; exact List.mem_append.mpr (Or.inl hc)
    obtain ⟨c', hc'mem, hc'eq⟩ := List.mem_map.mp hcl
    have hfacts := hnlfacts c' (hnet ▸ hc'mem)
    constructor
    · intro hbad
      have hcc : c' = c :=
        lowerChar_eq_of c' c (by rcases hbad with h | h | h <;> omega) hc'eq
      exact hfacts.1 (hcc ▸ hbad)
    · intro hbad
      have hcc : c' = c :=
        lowerChar_eq_of c' c (by rcases hbad with h | h | h <;> omega) hc'eq
      exact hfacts.2 (hcc ▸ hbad)
  have hmemiff : ∀ d : Nat, ¬(97 ≤ d ∧ d ≤ 122) → lowerChar d = d →
      d ∉ pstr ":80" → d ∉ pstr ":443" →
      (d ∈ dropDefaultPort (pyLower pr.scheme) (pyLower pr.netloc) ↔ d ∈ sr.netloc) := by
    intro d hd hld hd80 hd443
    have hiff1 : d ∈ pyLower pr.netloc ↔ d ∈ pr.netloc := by
      constructor
      · intro hm
        obtain ⟨c', h1', h2'⟩ := List.mem_map.mp hm
        exact (lowerChar_eq_of c' d hd h2') ▸ h1'
      · intro hm
        exact List.mem_map.mpr ⟨d, hm, hld⟩
    have hiff2 : d ∈ dropDefaultPort (pyLower pr.scheme) (pyLower pr.netloc)
        ↔ d ∈ pyLower pr.netloc := by
      rcases dropDefaultPort_eq (pyLower pr.scheme) (pyLower pr.netloc) with he | he | he
      · rw [he]
      · constructor
        · intro hm
          rw [he]
          exact List.mem_append.mpr (Or.inl hm)
        · intro hm
          rw [he] at hm
          rcases List.mem_append.mp hm with hm | hm
          · exact hm
          · exact absurd hm hd80
      · constructor
        · intro hm
          rw [he]
          exact List.mem_append.mpr (Or.inl hm)
        · intro hm
          rw [he] at hm
          rcases List.mem_append.mp hm with hm | hm
          · exact hm
          · exact absurd hm hd443
    rw [hiff2, hiff1, hnet]
  have hchar_eq : ∀ d : Nat, ¬(97 ≤ d ∧ d ≤ 122) → lowerChar d = d →
      d ∉ pstr ":80" → d ∉ pstr ":443" →
      hasChar (dropDefaultPort (pyLower pr.scheme) (pyLower pr.netloc)) d
        = hasChar sr.netloc d := by
    intro d hd hld hd80 hd443
    by_cases hm : d ∈ dropDefaultPort (pyLower pr.scheme) (pyLower pr.netloc)
    · rw [(hasChar_iff_mem _ _).mpr hm,
        (hasChar_iff_mem _ _).mpr ((hmemiff d hd hld hd80 hd443).mp hm)]
    · have hm2 : d ∉ sr.netloc := fun hx => hm ((hmemiff d hd hld hd80 hd443).mpr hx)
      rw [hasChar_false_of_not_mem _ _ hm, hasChar_false_of_not_mem _ _ hm2]
  have hbrN : ¬((hasChar (dropDefaultPort (pyLower pr.scheme) (pyLower pr.netloc)) 91 = true
      ∧ ¬ hasChar (dropDefaultPort (pyLower pr.scheme) (pyLower pr.netloc)) 93 = true)
    ∨ (hasChar (dropDefaultPort (pyLower pr.scheme) (pyLower pr.netloc)) 93 = true
      ∧ ¬ hasChar (dropDefaultPort (pyLower pr.scheme) (pyLower pr.netloc)) 91 = true)) := by
    rw [hchar_eq 91 (by omega) (by decide) (by decide) (by decide),
      hchar_eq 93 (by omega) (by decide) (by decide) (by decide)]
    exact hbr0
  have hv' : pyUrlunparse ⟨pyLower pr.scheme,
      dropDefaultPort (pyLower pr.scheme) (pyLower pr.netloc),
      normPath pr.path, pr.params, normalizeQuery pr.query, []⟩ = v := by
    unfold normalize_url at hv
    rw [h1] at hv
    exact Except.ok.inj hv
  rw [h2] at hv'
  rw [← hv']
  exact normalize_unparse_fixed (pyLower pr.scheme) pr.netloc pr.path pr.query
    h3 h4 h5 h5' hNfree hbrN h6 hpfacts h59path h8

/-- C5 (witness): the amended idempotence theorem applied to the concrete URL
`http://h/docs`, whose parse satisfies every hypothesis; its normalization is
a fixed point of `normalize_url`. -/
theorem C5_witness :
    normalize_url (pstr "http://h/docs") = Except.ok (pstr "http://h/docs") :=
  C5_amended (pstr "http://h/docs")
    ⟨pstr "http", pstr "h", pstr "/docs", [], [], []⟩
    rfl rfl (Or.inl (by decide)) (by decide) (by decide) (by decide)
    (by decide) (by decide) (by decide)
    (pstr "http://h/docs") rfl

/-- C4 (witness): the uniqueness theorem at a concrete operation sequence
and a concrete insertion. -/
theorem C4_witness :
    URLQueue.add ⟨[], []⟩ (pstr "http://h/a") 0 =
      Except.ok (true, ⟨[(pstr "http://h/a", 0)], [pstr "http://h/a"]⟩) := by
  have h := (C4_frontier_uniqueness [QOp.add (pstr "http://h/a") 0] ⟨[], []⟩
    (pstr "http://h/a") (pstr "http://h/a") 0 (by rfl)).2
  rw [h]
  rfl

/-- C3 (witness): the amended theorem at a concrete save whose rename step
fails while a target exists. -/
theorem C3_witness :
    (MarkdownStorage.save (fsSet (fun _ => none) (pstr "h_x.md") (some (pstr "old")))
        (pstr "http://h/x") (pstr "T") (pstr "new body") 2 [] (pstr "now") true
        ⟨false, false, true, 0⟩).finalFS
      (fsSet (fun _ => none) (pstr "h_x.md") (some (pstr "old")))
      ((pstr "h_x" ++ pstr ".md") ++ pstr ".tmp") = none :=
  (C3_amended (fsSet (fun _ => none) (pstr "h_x.md") (some (pstr "old")))
    (pstr "http://h/x") (pstr "T") (pstr "new body") (pstr "now") 2 [] true
    ⟨false, false, true, 0⟩ (pstr "h_x") (by rfl)
    (by intro h; simp at h)).1

end ODPC
